import Mathlib

/-!
# Student registration store: AVL index, course sublists and the reg.txt codec

Shallow embedding of `P2_1220022_EmamSamara_1.c`.

Conventions of the embedding.

* A C string is the list of its bytes before the terminating NUL (`CStr`).
* `strncpy(dst, src, N - 1); dst[N - 1] = 0` is `copyBounded src N`, the first `N - 1` bytes.
* A `CourseRecord*` list is a `List CourseRecord`; an `AVLNode*` is a value of the inductive
  type `AVLNode`, `nil` standing for `NULL`.  `malloc` is assumed to succeed.
* C `int` values are `Int`; the heights and counters involved stay far below `2^31`.
* Output parameters (`int* newStudent`, `int* newCourse`) are returned next to the result.
-/

namespace Reg

/-! ## Strings -/

/-- Bytes of a C string, terminator excluded. -/
abbrev CStr := List Nat

def MAX_NAME_LEN : Nat := 128
def MAX_ID_LEN : Nat := 32
def MAX_MAJOR_LEN : Nat := 128
def MAX_CODE_LEN : Nat := 32
def MAX_TITLE_LEN : Nat := 128
def MAX_SEMESTER_LEN : Nat := 64
def LINE_BUFFER : Nat := 512

/-- Effect of `strncpy(dst, src, bufLen - 1); dst[bufLen - 1] = 0` on the string held in `dst`. -/
def copyBounded (src : CStr) (bufLen : Nat) : CStr := src.take (bufLen - 1)

/-- The function `isspace` of the C locale. -/
def isspace (c : Nat) : Bool := c == 32 || (9 ≤ c && c ≤ 13)

/-- The function `isalpha` of the C locale. -/
def isalpha (c : Nat) : Bool := (65 ≤ c && c ≤ 90) || (97 ≤ c && c ≤ 122)

/-- The function `isdigit`. -/
def isdigit (c : Nat) : Bool := 48 ≤ c && c ≤ 57

/-- The function `isalnum` of the C locale. -/
def isalnum (c : Nat) : Bool := isalpha c || isdigit c

/-- The function `tolower` of the C locale. -/
def tolower (c : Nat) : Nat := if 65 ≤ c ∧ c ≤ 90 then c + 32 else c

/-- Sign of `strcmp(a, b)`: bytes are compared as `unsigned char`, the terminator being
smaller than every byte of a string. -/
def strcmp : CStr → CStr → Int
  | [], [] => 0
  | [], _ :: _ => -1
  | _ :: _, [] => 1
  | a :: as, b :: bs => if a < b then -1 else if b < a then 1 else strcmp as bs

/-- Source lines 63-72. -/
def trim (s : CStr) : CStr :=
  let afterStart := s.dropWhile isspace
  (afterStart.reverse.dropWhile isspace).reverse

/-- Source lines 83-95; `hasLetter` is threaded through the loop. -/
def isLettersSpacesLoop : CStr → Int → Int
  | [], hasLetter => hasLetter
  | c :: cs, hasLetter =>
    if isalpha c then isLettersSpacesLoop cs 1
    else if c = 32 then isLettersSpacesLoop cs hasLetter
    else 0

def isLettersSpaces (s : CStr) : Int :=
  if s = [] then 0 else isLettersSpacesLoop s 0

/-- Source lines 97-103. -/
def isDigitsOnly (s : CStr) : Int :=
  if s = [] then 0 else if s.all isdigit then 1 else 0

/-- Source lines 105-111. -/
def isCourseCode (s : CStr) : Int :=
  if s = [] then 0 else if s.all isalnum then 1 else 0

/-- Source lines 113-119. -/
def isSemesterString (s : CStr) : Int :=
  if s = [] then 0 else if s.all (fun c => isalnum c || c == 32) then 1 else 0

/-- Source lines 132-142. -/
def equalsIgnoreCase : CStr → CStr → Int
  | [], [] => 1
  | [], _ :: _ => 0
  | _ :: _, [] => 0
  | a :: as, b :: bs => if tolower a ≠ tolower b then 0 else equalsIgnoreCase as bs

/-! ## Course sublist -/

structure CourseRecord where
  courseCode : CStr
  courseTitle : CStr
  creditHours : Int
  semester : CStr
  deriving DecidableEq, Repr

structure StudentRecord where
  name : CStr
  studentID : CStr
  major : CStr
  courses : List CourseRecord
  deriving DecidableEq, Repr

/-- Source lines 171-183. -/
def createCourseRecord (code title : CStr) (hours : Int) (semester : CStr) : CourseRecord :=
  { courseCode := copyBounded code MAX_CODE_LEN
    courseTitle := copyBounded title MAX_TITLE_LEN
    creditHours := hours
    semester := copyBounded semester MAX_SEMESTER_LEN }

/-- Source lines 193-205. -/
def cloneCourseRecords (head : List CourseRecord) : List CourseRecord :=
  head.map (fun c => createCourseRecord c.courseCode c.courseTitle c.creditHours c.semester)

/-- First loop of `appendCourseRecord` (lines 209-221): the list with the first entry whose code
matches overwritten, or `none` when the loop ends without a match. -/
def updateMatching : List CourseRecord → CourseRecord → Option (List CourseRecord)
  | [], _ => none
  | current :: rest, record =>
    if equalsIgnoreCase current.courseCode record.courseCode ≠ 0 then
      some ({ courseCode := current.courseCode
              courseTitle := copyBounded record.courseTitle MAX_TITLE_LEN
              creditHours := record.creditHours
              semester := copyBounded record.semester MAX_SEMESTER_LEN } :: rest)
    else (updateMatching rest record).map (fun rest1 => current :: rest1)

/-- Source lines 207-230: the new list and the returned `int`. -/
def appendCourseRecord (head : List CourseRecord) (record : CourseRecord) :
    List CourseRecord × Int :=
  match updateMatching head record with
  | some head1 => (head1, 0)
  | none => (head ++ [record], 1)

/-- Source lines 232-246. -/
def removeCourseRecord : List CourseRecord → CStr → List CourseRecord × Int
  | [], _ => ([], 0)
  | current :: rest, courseCode =>
    if equalsIgnoreCase current.courseCode courseCode ≠ 0 then (rest, 1)
    else ((current :: (removeCourseRecord rest courseCode).1), (removeCourseRecord rest courseCode).2)

/-- Source lines 248-254. -/
def hasCourse : List CourseRecord → CStr → Int
  | [], _ => 0
  | head :: rest, courseCode =>
    if equalsIgnoreCase head.courseCode courseCode ≠ 0 then 1 else hasCourse rest courseCode

/-! ## The AVL tree -/

inductive AVLNode where
  | nil : AVLNode
  | node (data : StudentRecord) (left right : AVLNode) (height : Int) : AVLNode
  deriving DecidableEq, Repr

open AVLNode

/-- Source lines 256-258. -/
def nodeHeight : AVLNode → Int
  | nil => 0
  | node _ _ _ h => h

/-- Source lines 260-262. -/
def maxInt (a b : Int) : Int := if a > b then a else b

/-- Source lines 264-278. -/
def createNode (name id major : CStr) (course : CourseRecord) : AVLNode :=
  node { name := copyBounded name MAX_NAME_LEN
         studentID := copyBounded id MAX_ID_LEN
         major := copyBounded major MAX_MAJOR_LEN
         courses := (appendCourseRecord [] course).1 } nil nil 1

/-- Source lines 280-289: the record left in `dest`. Only the buffers of `dest` are written,
so the result does not depend on the old contents. -/
def copyStudentRecord (src : StudentRecord) : StudentRecord :=
  { name := copyBounded src.name MAX_NAME_LEN
    studentID := copyBounded src.studentID MAX_ID_LEN
    major := copyBounded src.major MAX_MAJOR_LEN
    courses := cloneCourseRecords src.courses }

/-- Source lines 291-299. The C code dereferences `y->left`; the callers rotate only when that
child exists, and the embedding leaves any other tree as it is. -/
def rightRotate : AVLNode → AVLNode
  | node yd (node xd xl t2 _) yr _ =>
    let yh := maxInt (nodeHeight t2) (nodeHeight yr) + 1
    let y1 := node yd t2 yr yh
    node xd xl y1 (maxInt (nodeHeight xl) (nodeHeight y1) + 1)
  | t => t

/-- Source lines 301-309. The C code dereferences `x->right`; see `rightRotate`. -/
def leftRotate : AVLNode → AVLNode
  | node xd xl (node yd t2 yr _) _ =>
    let xh := maxInt (nodeHeight xl) (nodeHeight t2) + 1
    let x1 := node xd xl t2 xh
    node yd x1 yr (maxInt (nodeHeight x1) (nodeHeight yr) + 1)
  | t => t

/-- Source lines 311-314. -/
def getBalance : AVLNode → Int
  | nil => 0
  | node _ l r _ => nodeHeight l - nodeHeight r

/-- The string read by `node->data.studentID`; on `NULL` the C code would fault, which the
guards `balance > 1` and `balance < -1` exclude when the cached heights are right. -/
def studentIDOf : AVLNode → CStr
  | nil => []
  | node d _ _ _ => d.studentID

/-- Source lines 337-349: the tail of `insertRegistration` after the recursive step, applied to
the node whose children are already updated. -/
def insertFixup (id : CStr) : AVLNode → AVLNode
  | nil => nil
  | node d l r _ =>
    let h := 1 + maxInt (nodeHeight l) (nodeHeight r)
    let balance := getBalance (node d l r h)
    if balance > 1 ∧ strcmp id (studentIDOf l) < 0 then rightRotate (node d l r h)
    else if balance < -1 ∧ strcmp id (studentIDOf r) > 0 then leftRotate (node d l r h)
    else if balance > 1 ∧ strcmp id (studentIDOf l) > 0 then
      rightRotate (node d (leftRotate l) r h)
    else if balance < -1 ∧ strcmp id (studentIDOf r) < 0 then
      leftRotate (node d l (rightRotate r) h)
    else node d l r h

/-- Result of `insertRegistration`: the returned root and the two output parameters. -/
structure InsertResult where
  root : AVLNode
  newStudent : Int
  newCourse : Int
  deriving DecidableEq, Repr

/-- Source lines 316-350. -/
def insertRegistration : AVLNode → CStr → CStr → CStr → CourseRecord → InsertResult
  | nil, name, id, major, course => ⟨createNode name id major course, 1, 1⟩
  | node d l r h, name, id, major, course =>
    let cmp := strcmp id d.studentID
    if cmp < 0 then
      let res := insertRegistration l name id major course
      ⟨insertFixup id (node d res.root r h), res.newStudent, res.newCourse⟩
    else if cmp > 0 then
      let res := insertRegistration r name id major course
      ⟨insertFixup id (node d l res.root h), res.newStudent, res.newCourse⟩
    else
      let appended := appendCourseRecord d.courses course
      let d1 : StudentRecord :=
        { name := copyBounded name MAX_NAME_LEN
          studentID := d.studentID
          major := copyBounded major MAX_MAJOR_LEN
          courses := appended.1 }
      if appended.2 = 0 then ⟨node d1 l r h, 0, appended.2⟩
      else ⟨insertFixup id (node d1 l r h), 0, appended.2⟩

/-- Source lines 352-356. -/
def minValueNode : AVLNode → AVLNode
  | nil => nil
  | node d nil r h => node d nil r h
  | node _ (node ld ll lr lh) _ _ => minValueNode (node ld ll lr lh)

/-- Source lines 382-394: the tail of `deleteStudent`. -/
def deleteFixup : AVLNode → AVLNode
  | nil => nil
  | node d l r _ =>
    let h := 1 + maxInt (nodeHeight l) (nodeHeight r)
    let balance := getBalance (node d l r h)
    if balance > 1 ∧ getBalance l ≥ 0 then rightRotate (node d l r h)
    else if balance > 1 ∧ getBalance l < 0 then rightRotate (node d (leftRotate l) r h)
    else if balance < -1 ∧ getBalance r ≤ 0 then leftRotate (node d l r h)
    else if balance < -1 ∧ getBalance r > 0 then leftRotate (node d l (rightRotate r) h)
    else node d l r h

/-- Source lines 358-395. In the one-child case `*root = tempNode` makes the node a copy of its
child; in the two-children case the record of the successor is copied and the successor is
deleted from the right subtree by its stored identifier. -/
def deleteStudent : AVLNode → CStr → AVLNode
  | nil, _ => nil
  | node d l r h, studentID =>
    let cmp := strcmp studentID d.studentID
    if cmp < 0 then deleteFixup (node d (deleteStudent l studentID) r h)
    else if cmp > 0 then deleteFixup (node d l (deleteStudent r studentID) h)
    else if l = nil ∨ r = nil then
      let temp := if l ≠ nil then l else r
      if temp = nil then nil else deleteFixup temp
    else
      match minValueNode r with
      | node td _ _ _ =>
        deleteFixup (node (copyStudentRecord td) l (deleteStudent r td.studentID) h)
      | nil => node d l r h

/-- Source lines 397-404: the node the returned pointer designates. -/
def findByID : AVLNode → CStr → Option AVLNode
  | nil, _ => none
  | node d l r h, studentID =>
    let cmp := strcmp studentID d.studentID
    if cmp = 0 then some (node d l r h)
    else if cmp < 0 then findByID l studentID else findByID r studentID

/-- Source lines 499-502. -/
def countStudents : AVLNode → Int
  | nil => 0
  | node _ l r _ => 1 + countStudents l + countStudents r

/-- In-order sequence of the student records, the order of `traverseAndInsertToList`
(lines 492-497) and of `saveTreeRecursive`. -/
def inorder : AVLNode → List StudentRecord
  | nil => []
  | node d l r _ => inorder l ++ d :: inorder r

/-! ## Removing one registration -/

/-- Store to `student->data.courses` through the pointer that `findByID` returned: the node is
reached by the descent of `findByID` and only its course list changes. -/
def setCoursesAt : AVLNode → CStr → List CourseRecord → AVLNode
  | nil, _, _ => nil
  | node d l r h, studentID, courses =>
    let cmp := strcmp studentID d.studentID
    if cmp = 0 then
      node { name := d.name, studentID := d.studentID, major := d.major, courses := courses } l r h
    else if cmp < 0 then node d (setCoursesAt l studentID courses) r h
    else node d l (setCoursesAt r studentID courses) h

/-- Source lines 820-843 with the two prompted strings as arguments: the root left in `*root`. -/
def deleteRegistrationFlow (root : AVLNode) (id courseCode : CStr) : AVLNode :=
  match findByID root id with
  | none => root
  | some nil => root
  | some (node d _ _ _) =>
    let removed := removeCourseRecord d.courses courseCode
    if removed.2 = 0 then root
    else
      let root1 := setCoursesAt root id removed.1
      if removed.1 = [] then deleteStudent root1 id else root1

/-! ## Persistence codec -/

/-- Decimal digits of `n`, most significant first, in front of `acc`; `fuel` bounds the number
of digits. -/
def natDigitsAux : Nat → Nat → CStr → CStr
  | 0, _, acc => acc
  | fuel + 1, n, acc =>
    if n < 10 then (48 + n) :: acc else natDigitsAux fuel (n / 10) ((48 + n % 10) :: acc)

/-- Decimal representation of a natural number. -/
def natDigits (n : Nat) : CStr := natDigitsAux (n + 1) n []

/-- Text produced by the conversion `%d` of `fprintf`. -/
def printInt (n : Int) : CStr :=
  if n < 0 then 45 :: natDigits n.natAbs else natDigits n.toNat

/-- Digit loop of `atoi`: stops at the first byte that is not a digit. -/
def atoiDigits : CStr → Int → Int
  | [], acc => acc
  | c :: cs, acc => if isdigit c then atoiDigits cs (acc * 10 + ((c : Int) - 48)) else acc

/-- The function `atoi`: leading white space, an optional sign, then digits (no overflow). -/
def atoi (s : CStr) : Int :=
  match s.dropWhile isspace with
  | 45 :: rest => - atoiDigits rest 0
  | 43 :: rest => atoiDigits rest 0
  | rest => atoiDigits rest 0

/-- One line of `saveNodeCourses` (line 469): the format `%s#%s#%s#%s#%s#%d#%s\n`. -/
def formatLine (d : StudentRecord) (c : CourseRecord) : List Nat :=
  d.name ++ 35 :: (d.studentID ++ 35 :: (d.major ++ 35 :: (c.courseCode ++ 35 ::
    (c.courseTitle ++ 35 :: (printInt c.creditHours ++ 35 :: (c.semester ++ [10]))))))

/-- Loop of `saveNodeCourses` over the course list of the student `d`. -/
def saveCourseList (d : StudentRecord) : List CourseRecord → List Nat
  | [] => []
  | c :: cs => formatLine d c ++ saveCourseList d cs

/-- Source lines 466-472: the bytes written for one node. -/
def saveNodeCourses (d : StudentRecord) : List Nat := saveCourseList d d.courses

/-- Source lines 474-479: the bytes written to the file. -/
def saveTreeRecursive : AVLNode → List Nat
  | nil => []
  | node d l r _ => saveTreeRecursive l ++ (saveNodeCourses d ++ saveTreeRecursive r)

/-- Bytes stored by one `fgets` that may still store `room` bytes, and the unread input. -/
def fgetsAux : Nat → List Nat → CStr × List Nat
  | 0, input => ([], input)
  | _ + 1, [] => ([], [])
  | room + 1, c :: rest =>
    if c = 10 then ([10], rest)
    else ((c :: (fgetsAux room rest).1), (fgetsAux room rest).2)

/-- The call `fgets(line, size, file)` on the unread bytes `input`: `none` at end of file. -/
def fgets (size : Nat) (input : List Nat) : Option (CStr × List Nat) :=
  if input = [] then none else some (fgetsAux (size - 1) input)

/-- One call of `strtok` with delimiter `#` on the rest `s` of the line: the token and the
rest after the delimiter that ended it, `none` when only delimiters are left. -/
def strtok (s : CStr) : Option (CStr × CStr) :=
  let start := s.dropWhile (fun c => c == 35)
  if start = [] then none
  else some (start.takeWhile (fun c => c != 35), (start.dropWhile (fun c => c != 35)).drop 1)

/-- Source lines 536-540: the tokens stored in `tokens[]`, `room` being `7 - count`. -/
def collectTokens : Nat → CStr → List CStr
  | 0, _ => []
  | room + 1, s =>
    match strtok s with
    | none => []
    | some (token, rest) => token :: collectTokens room rest

/-- Body of the loop of `loadFromFile` (lines 531-552) for the buffer `line` filled by `fgets`,
on the pair of `root` and `loaded`. -/
def loadLine (line : CStr) (state : AVLNode × Int) : AVLNode × Int :=
  let trimmed := trim (line.takeWhile (fun c => c != 10))
  if trimmed.length = 0 then state
  else
    let tokens := collectTokens 7 trimmed
    if tokens.length ≠ 7 then state
    else
      match tokens with
      | [name, id, major, courseCode, courseTitle, hours, semester] =>
        let course := createCourseRecord courseCode courseTitle (atoi hours) semester
        ((insertRegistration state.1 name id major course).root, state.2 + 1)
      | _ => state

/-- The `while (fgets ...)` loop of `loadFromFile`; every round consumes at least one byte of
the input, so `fuel` equal to the length of the input is never exhausted. -/
def loadLoop : Nat → List Nat → AVLNode × Int → AVLNode × Int
  | 0, _, state => state
  | fuel + 1, input, state =>
    match fgets LINE_BUFFER input with
    | none => state
    | some (line, rest) => loadLoop fuel rest (loadLine line state)

/-- Source lines 522-557: `file` is `none` when `fopen` fails, else the bytes of the file.
Returns the root and the number printed as loaded. -/
def loadFromFileCount (file : Option (List Nat)) (root : AVLNode) : AVLNode × Int :=
  match file with
  | none => (root, 0)
  | some content => loadLoop content.length content (root, 0)

/-- Source lines 522-557: the returned root. -/
def loadFromFile (file : Option (List Nat)) (root : AVLNode) : AVLNode :=
  (loadFromFileCount file root).1

/-! ## Invariants -/

/-- True height of a tree: number of nodes on the longest path from the root down. -/
def realHeight : AVLNode → Int
  | nil => 0
  | node _ l r _ => 1 + max (realHeight l) (realHeight r)

/-- The cached `height` field equals the true height at every node. -/
def heightsCorrect : AVLNode → Prop
  | nil => True
  | node _ l r h => h = 1 + max (realHeight l) (realHeight r) ∧ heightsCorrect l ∧ heightsCorrect r

/-- At every node the true heights of the two subtrees differ by at most one. -/
def balanced : AVLNode → Prop
  | nil => True
  | node _ l r _ =>
    realHeight l - realHeight r ≤ 1 ∧ realHeight r - realHeight l ≤ 1 ∧ balanced l ∧ balanced r

/-- Decision procedure for `heightsCorrect`. -/
def decHeightsCorrect : (t : AVLNode) → Decidable (heightsCorrect t)
  | nil => isTrue trivial
  | node _ l r h =>
    match decHeightsCorrect l, decHeightsCorrect r with
    | isTrue hl, isTrue hr =>
      if hh : h = 1 + max (realHeight l) (realHeight r) then isTrue ⟨hh, hl, hr⟩
      else isFalse (fun hc => hh hc.1)
    | isFalse hl, _ => isFalse (fun hc => hl hc.2.1)
    | _, isFalse hr => isFalse (fun hc => hr hc.2.2)

instance (t : AVLNode) : Decidable (heightsCorrect t) := decHeightsCorrect t

/-- Decision procedure for `balanced`. -/
def decBalanced : (t : AVLNode) → Decidable (balanced t)
  | nil => isTrue trivial
  | node _ l r _ =>
    match decBalanced l, decBalanced r with
    | isTrue hl, isTrue hr =>
      if hh : realHeight l - realHeight r ≤ 1 ∧ realHeight r - realHeight l ≤ 1 then
        isTrue ⟨hh.1, hh.2, hl, hr⟩
      else isFalse (fun hc => hh ⟨hc.1, hc.2.1⟩)
    | isFalse hl, _ => isFalse (fun hc => hl hc.2.2.1)
    | _, isFalse hr => isFalse (fun hc => hr hc.2.2.2)

instance (t : AVLNode) : Decidable (balanced t) := decBalanced t

/-- Strict order of the identifiers under `strcmp`. -/
def idLt (a b : StudentRecord) : Prop := strcmp a.studentID b.studentID < 0

instance (a b : StudentRecord) : Decidable (idLt a b) := by unfold idLt; infer_instance

/-- BST ordering: the in-order traversal is strictly increasing in `studentID`. -/
def isBST (t : AVLNode) : Prop := (inorder t).Pairwise idLt

instance (t : AVLNode) : Decidable (isBST t) := by unfold isBST; infer_instance

/-- The combined AVL invariant phrased on the cached heights, as the code reads them. -/
def AVL : AVLNode → Prop
  | nil => True
  | node _ l r h =>
    AVL l ∧ AVL r ∧ h = 1 + max (nodeHeight l) (nodeHeight r) ∧
      nodeHeight l - nodeHeight r ≤ 1 ∧ nodeHeight r - nodeHeight l ≤ 1

/-- Shape left by an insertion that made the subtree one level higher: a fresh leaf, or a
node that leans to the side the identifier went to. -/
def grewTowards (id : CStr) : AVLNode → Prop
  | nil => False
  | node d l r _ =>
    (l = nil ∧ r = nil) ∨
    (strcmp id d.studentID < 0 ∧ nodeHeight l = nodeHeight r + 1) ∨
    (strcmp id d.studentID > 0 ∧ nodeHeight r = nodeHeight l + 1)

/-! ## Vocabulary of the statements -/

/-- The record of a node, `none` for `NULL`. -/
def recordOf : AVLNode → Option StudentRecord
  | nil => none
  | node d _ _ _ => some d

/-- Records whose identifier is smaller than `id`: `strcmp(id, r.studentID) > 0`. -/
def below (id : CStr) (r : StudentRecord) : Bool := decide (strcmp id r.studentID > 0)

/-- Records whose identifier is greater than `id`: `strcmp(id, r.studentID) < 0`. -/
def above (id : CStr) (r : StudentRecord) : Bool := decide (strcmp id r.studentID < 0)

/-- Records whose identifier is `id`: `strcmp(id, r.studentID) == 0`. -/
def hasID (id : CStr) (r : StudentRecord) : Bool := decide (strcmp id r.studentID = 0)

/-- A course entry fits the buffers of `struct CourseRecord`. -/
def courseFits (c : CourseRecord) : Prop :=
  c.courseCode.length < MAX_CODE_LEN ∧ c.courseTitle.length < MAX_TITLE_LEN ∧
    c.semester.length < MAX_SEMESTER_LEN

instance (c : CourseRecord) : Decidable (courseFits c) := by unfold courseFits; infer_instance

/-- A student record fits the buffers of `struct StudentRecord`. -/
def recordFits (d : StudentRecord) : Prop :=
  d.name.length < MAX_NAME_LEN ∧ d.studentID.length < MAX_ID_LEN ∧
    d.major.length < MAX_MAJOR_LEN ∧ ∀ c ∈ d.courses, courseFits c

instance (d : StudentRecord) : Decidable (recordFits d) := by unfold recordFits; infer_instance

/-- Every record of the tree fits its buffers, as every tree held in C memory does. -/
def recordsFit (t : AVLNode) : Prop := ∀ d ∈ inorder t, recordFits d

instance (t : AVLNode) : Decidable (recordsFit t) := by unfold recordsFit; infer_instance

/-- The record held for `id` after a registration, given the record held before: a fresh
record as built by `createNode`, or the old one with name and major overwritten and the course
passed to `appendCourseRecord`. -/
def registeredRecord (name id major : CStr) (course : CourseRecord) :
    Option StudentRecord → StudentRecord
  | none =>
    { name := copyBounded name MAX_NAME_LEN
      studentID := copyBounded id MAX_ID_LEN
      major := copyBounded major MAX_MAJOR_LEN
      courses := [course] }
  | some d =>
    { name := copyBounded name MAX_NAME_LEN
      studentID := d.studentID
      major := copyBounded major MAX_MAJOR_LEN
      courses := (appendCourseRecord d.courses course).1 }

/-- The record `r` with its course list replaced when it holds `id`. -/
def withCourses (id : CStr) (courses : List CourseRecord) (r : StudentRecord) : StudentRecord :=
  if r.studentID = id then
    { name := r.name, studentID := r.studentID, major := r.major, courses := courses }
  else r

/-! ## Sample data

The registrations of the example scenario of the specification, and two more students. -/

/-- The bytes of a string literal. -/
def bytes (s : String) : CStr := s.toList.map Char.toNat

def cs101 : CourseRecord :=
  { courseCode := bytes "CS101", courseTitle := bytes "Intro", creditHours := 3,
    semester := bytes "Fall2024" }

def cs102 : CourseRecord :=
  { courseCode := bytes "CS102", courseTitle := bytes "Data Structures", creditHours := 3,
    semester := bytes "Fall2024" }

/-- One call of `insertRegistration` on string literals, keeping the returned root. -/
def register (t : AVLNode) (name id major : String) (course : CourseRecord) : AVLNode :=
  (insertRegistration t (bytes name) (bytes id) (bytes major) course).root

/-- Student 12345 with the course CS101. -/
def oneCourseTree : AVLNode := register nil "Ali Hassan" "12345" "CS" cs101

/-- Student 12345 with the courses CS101 and CS102. -/
def twoCourseTree : AVLNode := register oneCourseTree "Ali Hassan" "12345" "CS" cs102

/-- Students 12345 and 12350: a root with a right child. -/
def twoStudentTree : AVLNode := register twoCourseTree "Sara Omar" "12350" "Math" cs101

/-- Students 12345, 12350 and 12360: the third insertion rotates left, 12350 is the root. -/
def threeStudentTree : AVLNode := register twoStudentTree "Omar Zaid" "12360" "CS" cs102

/-! ## Vocabulary of the persistence round trip -/

/-- A field that can be written between `#` delimiters: not empty, without `#` and without
line feed. Every field made of letters, digits and spaces only is of this kind. -/
def cleanField (s : CStr) : Prop := s ≠ [] ∧ ∀ c ∈ s, c ≠ 35 ∧ c ≠ 10

instance (s : CStr) : Decidable (cleanField s) := by unfold cleanField; infer_instance

/-- The string does not start with a byte for which `isspace` holds. -/
def noLeadingSpace (s : CStr) : Prop := ∀ c, s.head? = some c → isspace c = false

instance (s : CStr) : Decidable (noLeadingSpace s) :=
  match s with
  | [] => isTrue (fun _ h => by simp at h)
  | a :: _ =>
    if ha : isspace a = false then isTrue (fun c h => by simp at h; rw [← h]; exact ha)
    else isFalse (fun h => ha (h a rfl))

/-- The string does not end with a byte for which `isspace` holds. -/
def noTrailingSpace (s : CStr) : Prop := noLeadingSpace s.reverse

instance (s : CStr) : Decidable (noTrailingSpace s) := by unfold noTrailingSpace; infer_instance

/-- A course entry whose fields can be written to `reg.txt` and read back: each string is a
clean field that fits its buffer, and the semester does not end with white space. -/
def courseClean (c : CourseRecord) : Prop :=
  cleanField c.courseCode ∧ cleanField c.courseTitle ∧ cleanField c.semester ∧
    courseFits c ∧ noTrailingSpace c.semester

instance (c : CourseRecord) : Decidable (courseClean c) := by unfold courseClean; infer_instance

/-- One registration `(studentId, name, major, course)` as passed to `insertRegistration`. -/
structure Registration where
  name : CStr
  id : CStr
  major : CStr
  course : CourseRecord
  deriving DecidableEq, Repr

/-- The fields of the registration are clean and fit their buffers, the name does not start
and the semester does not end with white space. -/
def validRegistration (r : Registration) : Prop :=
  cleanField r.name ∧ r.name.length < MAX_NAME_LEN ∧ noLeadingSpace r.name ∧
    cleanField r.id ∧ r.id.length < MAX_ID_LEN ∧
    cleanField r.major ∧ r.major.length < MAX_MAJOR_LEN ∧ courseClean r.course

instance (r : Registration) : Decidable (validRegistration r) := by
  unfold validRegistration; infer_instance

/-- The tree after the registrations `rs` were passed to `insertRegistration` one by one. -/
def registerAll (t : AVLNode) (rs : List Registration) : AVLNode :=
  rs.foldl (fun t1 r => (insertRegistration t1 r.name r.id r.major r.course).root) t

/-- Every line that `saveTreeRecursive` writes for the tree, line feed included, fits the
buffer of `fgets(line, LINE_BUFFER, file)`: fewer than 511 characters before the line feed. -/
def linesFit (t : AVLNode) : Prop :=
  ∀ d ∈ inorder t, ∀ c ∈ d.courses, (formatLine d c).length < LINE_BUFFER

instance (t : AVLNode) : Decidable (linesFit t) := by unfold linesFit; infer_instance

/-- The data-model classes named by the claim: letters and spaces. -/
def lettersSpaces (s : CStr) : Prop := s ≠ [] ∧ ∀ c ∈ s, isalpha c = true ∨ c = 32

instance (s : CStr) : Decidable (lettersSpaces s) := by unfold lettersSpaces; infer_instance

/-- The data-model class of a semester: letters, digits and spaces. -/
def alnumSpaces (s : CStr) : Prop := s ≠ [] ∧ ∀ c ∈ s, isalnum c = true ∨ c = 32

instance (s : CStr) : Decidable (alnumSpaces s) := by unfold alnumSpaces; infer_instance

/-- A registration that is valid per the data model as the claim words it: name and major
letters and spaces, identifier digits, course code alphanumeric, semester alphanumeric and
spaces, credit hours not negative, every field non-empty and fitting its buffer. -/
def validPerDataModel (r : Registration) : Prop :=
  lettersSpaces r.name ∧ r.name.length < MAX_NAME_LEN ∧
    isDigitsOnly r.id = 1 ∧ r.id.length < MAX_ID_LEN ∧
    lettersSpaces r.major ∧ r.major.length < MAX_MAJOR_LEN ∧
    isCourseCode r.course.courseCode = 1 ∧ r.course.courseTitle ≠ [] ∧
    alnumSpaces r.course.semester ∧ 0 ≤ r.course.creditHours ∧ courseFits r.course

instance (r : Registration) : Decidable (validPerDataModel r) := by
  unfold validPerDataModel; infer_instance

/-- The line of `saveNodeCourses` without its line feed. -/
def lineBody (d : StudentRecord) (c : CourseRecord) : CStr :=
  d.name ++ 35 :: (d.studentID ++ 35 :: (d.major ++ 35 :: (c.courseCode ++ 35 ::
    (c.courseTitle ++ 35 :: (printInt c.creditHours ++ 35 :: c.semester)))))

/-- A student record that can be written to `reg.txt` and read back: clean fields that fit
their buffers, a name that does not start with white space, at least one course, clean
courses, and course codes that are pairwise different ignoring case. -/
def recordClean (d : StudentRecord) : Prop :=
  cleanField d.name ∧ d.name.length < MAX_NAME_LEN ∧ noLeadingSpace d.name ∧
    cleanField d.studentID ∧ d.studentID.length < MAX_ID_LEN ∧
    cleanField d.major ∧ d.major.length < MAX_MAJOR_LEN ∧
    d.courses ≠ [] ∧ (∀ c ∈ d.courses, courseClean c) ∧
    d.courses.Pairwise (fun a b => equalsIgnoreCase a.courseCode b.courseCode = 0)

/-- The bytes `saveTreeRecursive` writes, as a function of the in-order sequence. -/
def saveRecords : List StudentRecord → List Nat
  | [] => []
  | d :: ds => saveNodeCourses d ++ saveRecords ds

/-- One round of the loop of `loadFromFile` for a line that carries the course `c` of the
student `d`: the registration is replayed and counted. -/
def replayCourse (d : StudentRecord) (state : AVLNode × Int) (c : CourseRecord) :
    AVLNode × Int :=
  ((insertRegistration state.1 d.name d.studentID d.major c).root, state.2 + 1)

/-- Replay of all lines of the records `ds`, in file order. -/
def replayRecords (ds : List StudentRecord) (state : AVLNode × Int) : AVLNode × Int :=
  ds.foldl (fun st d => d.courses.foldl (replayCourse d) st) state

/-- The record `d` with the course list `courses`. -/
def setCourses (d : StudentRecord) (courses : List CourseRecord) : StudentRecord :=
  { name := d.name, studentID := d.studentID, major := d.major, courses := courses }

/-- A registration at the size limits of the buffers: 127 letters of name, major and title,
31 digits of identifier, 31 letters of course code, 63 letters of semester. Its line in
`reg.txt` has 513 characters before the line feed. -/
def longRegistration : Registration :=
  { name := List.replicate 127 65, id := List.replicate 31 49, major := List.replicate 127 66,
    course := { courseCode := List.replicate 31 67, courseTitle := List.replicate 127 68,
                creditHours := 3, semester := List.replicate 63 69 } }

/-- A registration whose name starts with a space. -/
def leadingSpaceRegistration : Registration :=
  { name := bytes " Ali", id := bytes "12345", major := bytes "CS", course := cs101 }

/-- A registration whose semester ends with a space. -/
def trailingSpaceRegistration : Registration :=
  { name := bytes "Ali", id := bytes "12345", major := bytes "CS",
    course := { courseCode := bytes "CS101", courseTitle := bytes "Intro", creditHours := 3,
                semester := bytes "Fall 2024 " } }

/-- A registration whose course title contains the delimiter. -/
def hashTitleRegistration : Registration :=
  { name := bytes "Ali", id := bytes "12345", major := bytes "CS",
    course := { courseCode := bytes "CS101", courseTitle := bytes "C# Intro", creditHours := 3,
                semester := bytes "Fall2024" } }

/-- The registrations of the example scenario and one more student. -/
def sampleRegistrations : List Registration :=
  [{ name := bytes "Sara Omar", id := bytes "12350", major := bytes "Math", course := cs101 },
   { name := bytes "Ali Hassan", id := bytes "12345", major := bytes "CS", course := cs101 },
   { name := bytes "Ali Hassan", id := bytes "12345", major := bytes "CS", course := cs102 }]

/-- A line of `reg.txt` with eight `#`-separated fields, line feed included. -/
def eightFieldLine : List Nat :=
  bytes "Ali Hassan#12345#CS#CS101#Intro#3#Fall2024#extra" ++ [10]

/-! ## The name hash index -/

inductive SlotState where
  | HASH_EMPTY : SlotState
  | HASH_OCCUPIED : SlotState
  | HASH_DELETED : SlotState
  deriving DecidableEq, Repr

open SlotState

/-- One slot of the table; `reference` is the node the stored pointer designates, `nil` for
`NULL`. -/
structure HashEntry where
  state : SlotState
  name : CStr
  reference : AVLNode
  deriving DecidableEq, Repr

/-- The table: `entries` is `none` for a `NULL` array. -/
structure HashTable where
  entries : Option (List HashEntry)
  capacity : Int
  size : Int
  deriving DecidableEq, Repr

/-- The table of `main` before the first build (lines 895-898). -/
def unbuiltTable : HashTable := { entries := none, capacity := 0, size := 0 }

/-- A slot as `initHashTable` leaves it. -/
def emptyEntry : HashEntry := { state := HASH_EMPTY, name := [], reference := nil }

/-- The read `table->entries[p]`; the code only reads indices below the capacity. -/
def entryAt (entries : List HashEntry) (p : Nat) : HashEntry := (entries[p]?).getD emptyEntry

/-- Source lines 567-575, the `for` loop: `fuel` bounds the number of rounds. -/
def isPrimeLoop : Nat → Int → Int → Int
  | 0, _, _ => 1
  | fuel + 1, i, n =>
    if i * i ≤ n then
      if n % i = 0 ∨ n % (i + 2) = 0 then 0 else isPrimeLoop fuel (i + 6) n
    else 1

/-- Source lines 567-575 (no overflow of `i * i`). The loop ends after fewer than `n` rounds. -/
def isPrime (n : Int) : Int :=
  if n ≤ 1 then 0
  else if n ≤ 3 then 1
  else if n % 2 = 0 ∨ n % 3 = 0 then 0
  else isPrimeLoop n.toNat 5 n

/-- The loop of `nextPrime` (line 578) with a bound on the number of rounds. -/
def nextPrimeLoop : Nat → Int → Int
  | 0, n => n
  | fuel + 1, n => if isPrime n = 0 then nextPrimeLoop fuel (n + 1) else n

/-- Source lines 577-580. A prime is found within `|n| + 3` rounds. -/
def nextPrime (n : Int) : Int := nextPrimeLoop (n.natAbs + 3) n

/-- Source lines 582-591: the table left in `*table`. -/
def initHashTable (capacity : Int) : HashTable :=
  { entries := some (List.replicate capacity.toNat emptyEntry), capacity := capacity, size := 0 }

/-- Number of values of `unsigned long` (64 bits, as on LP64 platforms). -/
def ULONG_MODULUS : Nat := 2 ^ 64

/-- The loop of `hashString` (lines 602-605) on `unsigned long`. -/
def hashLoop : CStr → Nat → Nat
  | [], hash => hash
  | c :: s, hash => hashLoop s ((hash * 131 + tolower c) % ULONG_MODULUS)

/-- Source lines 600-607; `mod` is a positive `int`. -/
def hashString (s : CStr) (mod : Int) : Nat := hashLoop s 0 % mod.toNat

/-- The values of `probe` in the loops of `hashInsert` and `hashSearch`, in order:
`(index + i) % capacity` for `i = 0, ..., capacity - 1`. -/
def probeSequence (index : Nat) (capacity : Int) : List Nat :=
  (List.range capacity.toNat).map (fun i => (index + i) % capacity.toNat)

/-- The contents of a slot after `strncpy(entry->name, name, MAX_NAME_LEN - 1)`,
`entry->reference = reference` and `entry->state = HASH_OCCUPIED`. -/
def storedEntry (name : CStr) (reference : AVLNode) : HashEntry :=
  { state := HASH_OCCUPIED, name := copyBounded name MAX_NAME_LEN, reference := reference }

/-- The contents of a slot after `hashDelete` (lines 662-664). -/
def deletedEntry : HashEntry := { state := HASH_DELETED, name := [], reference := nil }

/-- The array after a name is stored in the slot `target` (lines 620-623 and 637-640). -/
def occupy (entries : List HashEntry) (target : Nat) (name : CStr) (reference : AVLNode) :
    List HashEntry :=
  entries.set target (storedEntry name reference)

/-- Result of `hashInsert` on the array: the array, the size and the returned `int`. -/
structure InsertOutcome where
  entries : List HashEntry
  size : Int
  result : Int
  deriving DecidableEq, Repr

/-- Source lines 614-644: the loop over the probes still to visit, `firstDeleted` being the
variable of the same name, and the code after the loop. -/
def hashInsertScan (entries : List HashEntry) (size : Int) (name : CStr) (reference : AVLNode) :
    List Nat → Int → InsertOutcome
  | [], firstDeleted =>
    if firstDeleted ≥ 0 then
      { entries := occupy entries firstDeleted.toNat name reference, size := size + 1, result := 1 }
    else { entries := entries, size := size, result := 0 }
  | probe :: rest, firstDeleted =>
    if (entryAt entries probe).state = HASH_EMPTY then
      { entries := occupy entries (if firstDeleted ≥ 0 then firstDeleted.toNat else probe)
          name reference,
        size := size + 1, result := 1 }
    else if (entryAt entries probe).state = HASH_DELETED ∧ firstDeleted < 0 then
      hashInsertScan entries size name reference rest probe
    else if (entryAt entries probe).state = HASH_OCCUPIED ∧
        equalsIgnoreCase (entryAt entries probe).name name ≠ 0 then
      { entries := entries.set probe
          { state := (entryAt entries probe).state
            name := copyBounded name MAX_NAME_LEN
            reference := reference },
        size := size, result := 1 }
    else hashInsertScan entries size name reference rest firstDeleted

/-- Source lines 609-645: the table afterwards and the returned `int`. -/
def hashInsert (table : HashTable) (name : CStr) (reference : AVLNode) : HashTable × Int :=
  match table.entries with
  | none => (table, 0)
  | some entries =>
    if table.size ≥ table.capacity then (table, 0)
    else
      let outcome := hashInsertScan entries table.size name reference
        (probeSequence (hashString name table.capacity) table.capacity) (-1)
      ({ entries := some outcome.entries, capacity := table.capacity, size := outcome.size },
        outcome.result)

/-- Source lines 650-656: the loop over the probes still to visit. -/
def hashSearchScan (entries : List HashEntry) (name : CStr) : List Nat → Int
  | [] => -1
  | probe :: rest =>
    if (entryAt entries probe).state = HASH_EMPTY then -1
    else if (entryAt entries probe).state = HASH_OCCUPIED ∧
        equalsIgnoreCase (entryAt entries probe).name name ≠ 0 then (probe : Int)
    else hashSearchScan entries name rest

/-- Source lines 647-657. -/
def hashSearch (table : HashTable) (name : CStr) : Int :=
  match table.entries with
  | none => -1
  | some entries =>
    hashSearchScan entries name (probeSequence (hashString name table.capacity) table.capacity)

/-- Source lines 659-667: the table afterwards and the returned `int`. -/
def hashDelete (table : HashTable) (name : CStr) : HashTable × Int :=
  let index := hashSearch table name
  if index < 0 then (table, 0)
  else
    match table.entries with
    | none => (table, 0)
    | some entries =>
      ({ entries := some (entries.set index.toNat deletedEntry),
         capacity := table.capacity, size := table.size - 1 }, 1)

/-- Source lines 492-497: the node pointers stored in `array`, in order. -/
def traverseAndInsertToList : AVLNode → List AVLNode
  | nil => []
  | node d l r h => traverseAndInsertToList l ++ node d l r h :: traverseAndInsertToList r

/-- The string read by `node->data.name`. -/
def nameOf : AVLNode → CStr
  | nil => []
  | node d _ _ _ => d.name

/-- The calls `hashInsert(table, node->data.name, node)` for the nodes `nodes`, in order
(line 700; the same call is made by `insertIntoHashFlow`, line 857). -/
def insertNodes (t : HashTable) (nodes : List AVLNode) : HashTable :=
  nodes.foldl (fun t1 nd => (hashInsert t1 (nameOf nd) nd).1) t

/-- Source lines 686-704: the table left in `*table` (the files written are not modelled). -/
def buildHashTable (table : HashTable) (root : AVLNode) : HashTable :=
  let studentCount := countStudents root
  if studentCount = 0 then table
  else
    insertNodes (initHashTable (nextPrime (studentCount * 2 + 1)))
      (traverseAndInsertToList root)

/-! ## Vocabulary of the statements about the hash index -/

/-- Number of slots in state `HASH_OCCUPIED`. -/
def countOccupied (entries : List HashEntry) : Nat :=
  entries.countP (fun e => decide (e.state = HASH_OCCUPIED))

/-- The polynomial value `sum_{i=1..k} lower(c_i) * 131^(k-i)` of a name `c_1 ... c_k`. -/
def polynomialValue : CStr → Nat
  | [] => 0
  | c :: s => tolower c * 131 ^ s.length + polynomialValue s

/-- Tables reached from a freshly initialised table by calls of `hashInsert` and
`hashDelete`. The names passed to `hashInsert` fit the name buffer, as `node->data.name`
does at every call site. -/
inductive Reachable : HashTable → Prop
  | init (capacity : Int) (h : 1 ≤ capacity) : Reachable (initHashTable capacity)
  | insert (t : HashTable) (name : CStr) (reference : AVLNode) :
      Reachable t → name.length < MAX_NAME_LEN → Reachable (hashInsert t name reference).1
  | delete (t : HashTable) (name : CStr) :
      Reachable t → Reachable (hashDelete t name).1

/-- Three students whose stored names are `Ali`, `ali ` (with a trailing space) and `Sara`. -/
def threeNameTree : AVLNode :=
  register (register (register nil "Ali" "1" "CS" cs101) "ali " "2" "CS" cs101) "Sara" "3"
    "CS" cs101

/-- Three students whose stored names are `Ali`, `ali` and `Sara`. -/
def sameNameTree : AVLNode :=
  register (register (register nil "Ali" "1" "CS" cs101) "ali" "2" "CS" cs101) "Sara" "3"
    "CS" cs101

/-- The slot `p` of the table. -/
def slot (t : HashTable) (p : Nat) : HashEntry := entryAt (t.entries.getD []) p

/-- The slot `p` of the array is occupied by a name equal to `name` ignoring case. -/
def matchAt (entries : List HashEntry) (name : CStr) (p : Nat) : Prop :=
  (entryAt entries p).state = HASH_OCCUPIED ∧ equalsIgnoreCase (entryAt entries p).name name ≠ 0

instance (entries : List HashEntry) (name : CStr) (p : Nat) : Decidable (matchAt entries name p) := by
  unfold matchAt; infer_instance

/-- The slot `p` of the table is occupied by a name equal to `name` ignoring case. -/
def storesName (t : HashTable) (name : CStr) (p : Nat) : Prop :=
  matchAt (t.entries.getD []) name p

instance (t : HashTable) (name : CStr) (p : Nat) : Decidable (storesName t name p) := by
  unfold storesName; infer_instance

/-- The three ways `hashInsertScan` can end on the probe sequence `seq`: an occupied slot with
the name is updated in place; or the name is stored in a slot that was not occupied, after an
empty slot ended the scan or the whole sequence was scanned; or the scan found only occupied
slots with other names and nothing is changed. -/
def insertCases (entries : List HashEntry) (size : Int) (name : CStr) (reference : AVLNode)
    (seq : List Nat) (out : InsertOutcome) : Prop :=
  (∃ pre q post, seq = pre ++ q :: post ∧
      (∀ x ∈ pre, (entryAt entries x).state ≠ HASH_EMPTY ∧ ¬ matchAt entries name x) ∧
      matchAt entries name q ∧
      out = { entries := entries.set q (storedEntry name reference),
              size := size, result := 1 }) ∨
  (∃ target pre post, seq = pre ++ target :: post ∧
      (∀ x ∈ pre, (entryAt entries x).state ≠ HASH_EMPTY) ∧
      target < entries.length ∧ (entryAt entries target).state ≠ HASH_OCCUPIED ∧
      out = { entries := occupy entries target name reference, size := size + 1, result := 1 } ∧
      ((∃ pre2 e post2, seq = pre2 ++ e :: post2 ∧ (entryAt entries e).state = HASH_EMPTY ∧
          ∀ x ∈ pre2, (entryAt entries x).state ≠ HASH_EMPTY ∧ ¬ matchAt entries name x) ∨
        (∀ x ∈ seq, ¬ matchAt entries name x))) ∨
  (out = { entries := entries, size := size, result := 0 } ∧
    ∀ x ∈ seq, (entryAt entries x).state = HASH_OCCUPIED ∧ ¬ matchAt entries name x)

/-- Probe-sequence invariant: every occupied slot is reached from the hash of its name
through slots that are not empty. -/
def probeInvariant (entries : List HashEntry) (capacity : Int) : Prop :=
  ∀ p, (entryAt entries p).state = HASH_OCCUPIED →
    ∃ pre post,
      probeSequence (hashString (entryAt entries p).name capacity) capacity = pre ++ p :: post ∧
      ∀ x ∈ pre, (entryAt entries x).state ≠ HASH_EMPTY

/-- No two occupied slots store names that are equal ignoring case. -/
def uniqueNames (entries : List HashEntry) : Prop :=
  ∀ p q, (entryAt entries p).state = HASH_OCCUPIED → (entryAt entries q).state = HASH_OCCUPIED →
    equalsIgnoreCase (entryAt entries p).name (entryAt entries q).name ≠ 0 → p = q

/-- Well-formed table: the array has `capacity` slots, `size` counts the occupied slots, and
the probe-sequence invariant and the uniqueness of names hold. -/
def tableWF (t : HashTable) : Prop :=
  ∃ es, t.entries = some es ∧ 1 ≤ t.capacity ∧ es.length = t.capacity.toNat ∧
    t.size = countOccupied es ∧ probeInvariant es t.capacity ∧ uniqueNames es

/-- A table of three slots in which `Ali` and `Sara` were stored (both hash to slot 1) and
`Ali` was deleted again: slot 1 is a tombstone and `Sara` sits behind it in slot 2. -/
def tombstoneTable : HashTable :=
  (hashDelete (hashInsert (hashInsert (initHashTable 3) (bytes "Ali") oneCourseTree).1
    (bytes "Sara") oneCourseTree).1 (bytes "Ali")).1

/-- The table built when student 12345 was the only one (three slots), after the three
students of `threeStudentTree` were stored in it one by one: every slot is occupied. -/
def fullTable : HashTable :=
  insertNodes (buildHashTable unbuiltTable oneCourseTree)
    (traverseAndInsertToList threeStudentTree)

/-! ## Vocabulary of the statements about the saved text -/

/-- The (student, course) pairs of the tree: students in in-order sequence, the courses of
each student in list order. -/
def linePairs (t : AVLNode) : List (StudentRecord × CourseRecord) :=
  (inorder t).flatMap (fun d => d.courses.map (fun c => (d, c)))

/-- Total number of course entries held by the students of the tree. -/
def totalCourses (t : AVLNode) : Nat := ((inorder t).map (fun d => d.courses.length)).sum

/-- The courses of the pairs that carry the identifier `id`, in order. -/
def coursesWithID (pairs : List (StudentRecord × CourseRecord)) (id : CStr) :
    List CourseRecord :=
  pairs.filterMap (fun p => if p.1.studentID = id then some p.2 else none)

/-- Three students, the second of them without any course. -/
def noCourseTree : AVLNode :=
  setCoursesAt threeStudentTree (bytes "12350") []

/-! ## Lookup by name -/

/-- The list of node pointers (lines 57-61): `data` holds the `size` pointers stored so far,
`capacity` is the number of slots allocated. -/
structure NodeList where
  data : List AVLNode
  size : Int
  capacity : Int
  deriving DecidableEq, Repr

/-- Source lines 406-410. -/
def initNodeList : NodeList := { data := [], size := 0, capacity := 0 }

/-- Source lines 412-421, `realloc` succeeding. -/
def appendNode (list : NodeList) (nd : AVLNode) : NodeList :=
  let capacity1 :=
    if list.size = list.capacity then (if list.capacity = 0 then 4 else list.capacity * 2)
    else list.capacity
  { data := list.data ++ [nd], size := list.size + 1, capacity := capacity1 }

/-- Source lines 423-428: the list left in `*list`. -/
def collectByName : AVLNode → CStr → NodeList → NodeList
  | nil, _, list => list
  | node d l r h, name, list =>
    let list1 := collectByName l name list
    let list2 :=
      if equalsIgnoreCase d.name name ≠ 0 then appendNode list1 (node d l r h) else list1
    collectByName r name list2

/-- The test of `collectByName` on the node `nd`. -/
def nameMatches (name : CStr) (nd : AVLNode) : Bool :=
  decide (equalsIgnoreCase (nameOf nd) name ≠ 0)

/-- The test of `collectByName` on the record `d`. -/
def recordNamed (name : CStr) (d : StudentRecord) : Bool :=
  decide (equalsIgnoreCase d.name name ≠ 0)

/-! ## Course lists and trees built by the operations -/

/-- No two entries of the course list have codes that are equal ignoring case. -/
def uniqueCodes (cs : List CourseRecord) : Prop :=
  cs.Pairwise (fun a b => equalsIgnoreCase a.courseCode b.courseCode = 0)

instance (cs : List CourseRecord) : Decidable (uniqueCodes cs) := by
  unfold uniqueCodes; infer_instance

/-- Course lists reached from the empty list by calls of `appendCourseRecord` and
`removeCourseRecord`. -/
inductive CourseListReachable : List CourseRecord → Prop
  | empty : CourseListReachable []
  | append (cs : List CourseRecord) (record : CourseRecord) :
      CourseListReachable cs → CourseListReachable (appendCourseRecord cs record).1
  | remove (cs : List CourseRecord) (courseCode : CStr) :
      CourseListReachable cs → CourseListReachable (removeCourseRecord cs courseCode).1

/-- Trees built from the empty tree by `insertRegistration`, the remove-course operation
(`deleteRegistrationFlow`) and `deleteStudent`. The course passed to `insertRegistration` is
a `struct CourseRecord`, so its strings fit their buffers. -/
inductive TreeBuilt : AVLNode → Prop
  | empty : TreeBuilt nil
  | insert (t : AVLNode) (name id major : CStr) (course : CourseRecord) :
      TreeBuilt t → courseFits course → TreeBuilt (insertRegistration t name id major course).root
  | removeCourse (t : AVLNode) (id courseCode : CStr) :
      TreeBuilt t → TreeBuilt (deleteRegistrationFlow t id courseCode)
  | delete (t : AVLNode) (id : CStr) :
      TreeBuilt t → TreeBuilt (deleteStudent t id)

/-- The course list `[CS101, CS102]` after a CS101 entry with another title was appended and
CS102 was removed. -/
def sampleCourseList : List CourseRecord :=
  (removeCourseRecord (appendCourseRecord (appendCourseRecord (appendCourseRecord [] cs101).1
    cs102).1 { courseCode := bytes "cs101", courseTitle := bytes "Programming",
               creditHours := 4, semester := bytes "Spring2025" }).1 (bytes "CS102")).1

/-! ## One line of the file -/

/-- Source lines 531-548: the seven values read from the buffer `line` that `fgets` filled,
the sixth converted by `atoi`; `none` when the line is skipped. -/
def parseLine (line : CStr) : Option (CStr × CStr × CStr × CStr × CStr × Int × CStr) :=
  let trimmed := trim (line.takeWhile (fun c => c != 10))
  if trimmed.length = 0 then none
  else
    let tokens := collectTokens 7 trimmed
    if tokens.length ≠ 7 then none
    else
      match tokens with
      | [name, id, major, courseCode, courseTitle, hours, semester] =>
        some (name, id, major, courseCode, courseTitle, atoi hours, semester)
      | _ => none

/-- A file of two lines that carry the same identifier of 32 digits. -/
def longIdFile : List Nat :=
  bytes "Ali Hassan#11111111111111111111111111111111#CS#CS101#Intro#3#Fall2024" ++ [10] ++
    bytes "Ali Hassan#11111111111111111111111111111111#CS#CS102#Data#3#Fall2024" ++ [10]

/-! ## The primality test on `int` -/

/-- Largest value of `int` (32 bits). -/
def INT_MAX : Int := 2147483647

/-- Source lines 571-573 on `int`: `none` when `i * i` overflows or when the `fuel` rounds do
not suffice. The sums `i + 2` and `i + 6` do not overflow when `i * i` did not. -/
def isPrimeLoopChecked : Nat → Int → Int → Option Int
  | 0, _, _ => none
  | fuel + 1, i, n =>
    if i * i > INT_MAX then none
    else if i * i ≤ n then
      if n % i = 0 ∨ n % (i + 2) = 0 then some 0 else isPrimeLoopChecked fuel (i + 6) n
    else some 1

/-- Source lines 567-575 on `int`: `none` on overflow. -/
def isPrimeChecked (n : Int) : Option Int :=
  if n ≤ 1 then some 0
  else if n ≤ 3 then some 1
  else if n % 2 = 0 ∨ n % 3 = 0 then some 0
  else isPrimeLoopChecked n.toNat 5 n

/-! # Properties -/

/-! ## Heights and balance -/

theorem maxInt_eq (a b : Int) : maxInt a b = max a b := by
  unfold maxInt; omega

theorem nodeHeight_nil : nodeHeight nil = 0 := rfl

theorem nodeHeight_node (d : StudentRecord) (l r : AVLNode) (h : Int) :
    nodeHeight (node d l r h) = h := rfl

theorem getBalance_node (d : StudentRecord) (l r : AVLNode) (h : Int) :
    getBalance (node d l r h) = nodeHeight l - nodeHeight r := rfl

theorem studentIDOf_node (d : StudentRecord) (l r : AVLNode) (h : Int) :
    studentIDOf (node d l r h) = d.studentID := rfl

theorem rightRotate_node (yd xd : StudentRecord) (xl t2 yr : AVLNode) (xh yh : Int) :
    rightRotate (node yd (node xd xl t2 xh) yr yh) =
      node xd xl (node yd t2 yr (maxInt (nodeHeight t2) (nodeHeight yr) + 1))
        (maxInt (nodeHeight xl) (maxInt (nodeHeight t2) (nodeHeight yr) + 1) + 1) := rfl

theorem leftRotate_node (xd yd : StudentRecord) (xl t2 yr : AVLNode) (xh yh : Int) :
    leftRotate (node xd xl (node yd t2 yr yh) xh) =
      node yd (node xd xl t2 (maxInt (nodeHeight xl) (nodeHeight t2) + 1)) yr
        (maxInt (maxInt (nodeHeight xl) (nodeHeight t2) + 1) (nodeHeight yr) + 1) := rfl

theorem insertFixup_node (id : CStr) (d : StudentRecord) (l r : AVLNode) (h0 : Int) :
    insertFixup id (node d l r h0) =
      if nodeHeight l - nodeHeight r > 1 ∧ strcmp id (studentIDOf l) < 0 then
        rightRotate (node d l r (1 + maxInt (nodeHeight l) (nodeHeight r)))
      else if nodeHeight l - nodeHeight r < -1 ∧ strcmp id (studentIDOf r) > 0 then
        leftRotate (node d l r (1 + maxInt (nodeHeight l) (nodeHeight r)))
      else if nodeHeight l - nodeHeight r > 1 ∧ strcmp id (studentIDOf l) > 0 then
        rightRotate (node d (leftRotate l) r (1 + maxInt (nodeHeight l) (nodeHeight r)))
      else if nodeHeight l - nodeHeight r < -1 ∧ strcmp id (studentIDOf r) < 0 then
        leftRotate (node d l (rightRotate r) (1 + maxInt (nodeHeight l) (nodeHeight r)))
      else node d l r (1 + maxInt (nodeHeight l) (nodeHeight r)) := rfl

theorem deleteFixup_node (d : StudentRecord) (l r : AVLNode) (h0 : Int) :
    deleteFixup (node d l r h0) =
      if nodeHeight l - nodeHeight r > 1 ∧ getBalance l ≥ 0 then
        rightRotate (node d l r (1 + maxInt (nodeHeight l) (nodeHeight r)))
      else if nodeHeight l - nodeHeight r > 1 ∧ getBalance l < 0 then
        rightRotate (node d (leftRotate l) r (1 + maxInt (nodeHeight l) (nodeHeight r)))
      else if nodeHeight l - nodeHeight r < -1 ∧ getBalance r ≤ 0 then
        leftRotate (node d l r (1 + maxInt (nodeHeight l) (nodeHeight r)))
      else if nodeHeight l - nodeHeight r < -1 ∧ getBalance r > 0 then
        leftRotate (node d l (rightRotate r) (1 + maxInt (nodeHeight l) (nodeHeight r)))
      else node d l r (1 + maxInt (nodeHeight l) (nodeHeight r)) := rfl

theorem AVL_node (d : StudentRecord) (l r : AVLNode) (h : Int) :
    AVL (node d l r h) ↔
      (AVL l ∧ AVL r ∧ h = 1 + max (nodeHeight l) (nodeHeight r) ∧
        nodeHeight l - nodeHeight r ≤ 1 ∧ nodeHeight r - nodeHeight l ≤ 1) := Iff.rfl

theorem AVL_height_nonneg : ∀ t : AVLNode, AVL t → 0 ≤ nodeHeight t
  | nil, _ => by simp [nodeHeight_nil, nodeHeight_node]
  | node _ l r h, hav => by
    have hl := AVL_height_nonneg l hav.1
    have hr := AVL_height_nonneg r hav.2.1
    have := hav.2.2.1
    simp only [nodeHeight_nil, nodeHeight_node]; omega

theorem AVL_height_zero (t : AVLNode) (hav : AVL t) (h0 : nodeHeight t ≤ 0) : t = nil := by
  cases t with
  | nil => rfl
  | node d l r h =>
    have hl := AVL_height_nonneg l hav.1
    have hr := AVL_height_nonneg r hav.2.1
    have := hav.2.2.1
    simp only [nodeHeight_nil, nodeHeight_node] at h0; omega

theorem AVL_realHeight : ∀ t : AVLNode, AVL t → nodeHeight t = realHeight t
  | nil, _ => rfl
  | node _ l r h, hav => by
    have hl := AVL_realHeight l hav.1
    have hr := AVL_realHeight r hav.2.1
    have := hav.2.2.1
    simp only [nodeHeight_nil, nodeHeight_node, realHeight]; omega

theorem heightsCorrect_nodeHeight : ∀ t : AVLNode, heightsCorrect t → nodeHeight t = realHeight t
  | nil, _ => rfl
  | node _ _ _ _, hc => by simp only [nodeHeight_nil, nodeHeight_node, realHeight]; exact hc.1

theorem AVL_of_invariants : ∀ t : AVLNode, heightsCorrect t → balanced t → AVL t
  | nil, _, _ => trivial
  | node _ l r h, hc, hb => by
    have hl := heightsCorrect_nodeHeight l hc.2.1
    have hr := heightsCorrect_nodeHeight r hc.2.2
    refine ⟨AVL_of_invariants l hc.2.1 hb.2.2.1, AVL_of_invariants r hc.2.2 hb.2.2.2, ?_, ?_, ?_⟩
    · rw [hl, hr]; exact hc.1
    · rw [hl, hr]; exact hb.1
    · rw [hl, hr]; exact hb.2.1

theorem invariants_of_AVL : ∀ t : AVLNode, AVL t → heightsCorrect t ∧ balanced t
  | nil, _ => ⟨trivial, trivial⟩
  | node _ l r h, hav => by
    have hl := AVL_realHeight l hav.1
    have hr := AVL_realHeight r hav.2.1
    obtain ⟨hcl, hbl⟩ := invariants_of_AVL l hav.1
    obtain ⟨hcr, hbr⟩ := invariants_of_AVL r hav.2.1
    obtain ⟨_, _, h1, h2, h3⟩ := hav
    refine ⟨⟨?_, hcl, hcr⟩, ?_, ?_, hbl, hbr⟩
    · rw [← hl, ← hr]; exact h1
    · rw [← hl, ← hr]; exact h2
    · rw [← hl, ← hr]; exact h3

theorem insertFixup_left (id : CStr) (d : StudentRecord) (l1 r : AVLNode) (h h0 : Int)
    (hl : AVL l1) (hr : AVL r) (hcmp : strcmp id d.studentID < 0)
    (hb1 : h0 - nodeHeight r ≤ 1) (hb2 : nodeHeight r - h0 ≤ 1)
    (hgrow : nodeHeight l1 = h0 ∨ (nodeHeight l1 = h0 + 1 ∧ grewTowards id l1)) :
    AVL (insertFixup id (node d l1 r h)) ∧
      (nodeHeight (insertFixup id (node d l1 r h)) = 1 + max h0 (nodeHeight r) ∨
        (nodeHeight (insertFixup id (node d l1 r h)) = 2 + max h0 (nodeHeight r) ∧
          grewTowards id (insertFixup id (node d l1 r h)))) := by
  have hrn := AVL_height_nonneg r hr
  have hln := AVL_height_nonneg l1 hl
  by_cases hbal : nodeHeight l1 - nodeHeight r > 1
  · -- the left subtree grew and is now two levels higher
    have hg : nodeHeight l1 = h0 + 1 ∧ grewTowards id l1 := by
      rcases hgrow with h1 | h1
      · omega
      · exact h1
    cases l1 with
    | nil => simp [nodeHeight_nil, nodeHeight_node] at hbal; omega
    | node ld ll lr lh =>
      obtain ⟨hll, hlr, hlh, hlb1, hlb2⟩ := hl
      have hlln := AVL_height_nonneg ll hll
      have hlrn := AVL_height_nonneg lr hlr
      simp only [nodeHeight_nil, nodeHeight_node] at hbal hg hln
      rcases hg.2 with ⟨rfl, rfl⟩ | ⟨hlt, hlean⟩ | ⟨hgt, hlean⟩
      · simp only [nodeHeight_nil, nodeHeight_node] at hlh; omega
      · simp only [insertFixup_node, studentIDOf_node, nodeHeight_node, hbal, hlt, true_and,
          and_self, if_true, rightRotate_node, maxInt_eq, AVL_node, grewTowards]
        refine ⟨⟨hll, ⟨hlr, hr, ?_, ?_, ?_⟩, ?_, ?_, ?_⟩, ?_⟩ <;> omega
      · have hnlt : ¬ strcmp id ld.studentID < 0 := by omega
        have hnb : ¬ (lh - nodeHeight r < -1) := by omega
        cases lr with
        | nil => simp only [nodeHeight_nil, nodeHeight_node] at hlean; omega
        | node ed a b eh =>
          obtain ⟨ha, hb, heh, heb1, heb2⟩ := hlr
          have han := AVL_height_nonneg a ha
          have hbn := AVL_height_nonneg b hb
          simp only [nodeHeight_nil, nodeHeight_node] at hlean hlh hlb1 hlb2 hlrn
          simp only [insertFixup_node, studentIDOf_node, nodeHeight_node, hbal, hnlt, hnb, hgt,
            true_and, and_false, false_and, and_self, if_true, if_false,
            rightRotate_node, leftRotate_node, maxInt_eq, AVL_node, grewTowards]
          refine ⟨⟨⟨hll, ha, ?_, ?_, ?_⟩, ⟨hb, hr, ?_, ?_, ?_⟩, ?_, ?_, ?_⟩, ?_⟩ <;> omega
  · have hnb : ¬ (nodeHeight l1 - nodeHeight r < -1) := by
      rcases hgrow with h1 | h1 <;> omega
    simp only [insertFixup_node, hbal, hnb, false_and, if_false, maxInt_eq, AVL_node,
      nodeHeight_node, grewTowards]
    refine ⟨⟨hl, hr, trivial, ?_, ?_⟩, ?_⟩
    · omega
    · omega
    · rcases hgrow with h1 | ⟨h1, _⟩
      · left; omega
      · by_cases hc : h0 < nodeHeight r
        · left; omega
        · right
          refine ⟨by omega, Or.inr (Or.inl ⟨hcmp, by omega⟩)⟩

theorem insertFixup_right (id : CStr) (d : StudentRecord) (l r1 : AVLNode) (h h0 : Int)
    (hl : AVL l) (hr : AVL r1) (hcmp : strcmp id d.studentID > 0)
    (hb1 : nodeHeight l - h0 ≤ 1) (hb2 : h0 - nodeHeight l ≤ 1)
    (hgrow : nodeHeight r1 = h0 ∨ (nodeHeight r1 = h0 + 1 ∧ grewTowards id r1)) :
    AVL (insertFixup id (node d l r1 h)) ∧
      (nodeHeight (insertFixup id (node d l r1 h)) = 1 + max (nodeHeight l) h0 ∨
        (nodeHeight (insertFixup id (node d l r1 h)) = 2 + max (nodeHeight l) h0 ∧
          grewTowards id (insertFixup id (node d l r1 h)))) := by
  have hrn := AVL_height_nonneg r1 hr
  have hln := AVL_height_nonneg l hl
  by_cases hbal : nodeHeight l - nodeHeight r1 < -1
  · have hg : nodeHeight r1 = h0 + 1 ∧ grewTowards id r1 := by
      rcases hgrow with h1 | h1
      · omega
      · exact h1
    have hnb : ¬ (nodeHeight l - nodeHeight r1 > 1) := by omega
    cases r1 with
    | nil => simp [nodeHeight_nil] at hbal; omega
    | node rd rl rr rh =>
      obtain ⟨hrl, hrr, hrh, hrb1, hrb2⟩ := hr
      have hrln := AVL_height_nonneg rl hrl
      have hrrn := AVL_height_nonneg rr hrr
      simp only [nodeHeight_node] at hbal hg hrn hnb
      rcases hg.2 with ⟨rfl, rfl⟩ | ⟨hlt, hlean⟩ | ⟨hgt, hlean⟩
      · simp only [nodeHeight_nil] at hrh; omega
      · have hngt : ¬ strcmp id rd.studentID > 0 := by omega
        cases rl with
        | nil => simp only [nodeHeight_nil] at hlean; omega
        | node ed a b eh =>
          obtain ⟨ha, hb, heh, heb1, heb2⟩ := hrl
          have han := AVL_height_nonneg a ha
          have hbn := AVL_height_nonneg b hb
          simp only [nodeHeight_node] at hlean hrh hrb1 hrb2 hrln
          simp only [insertFixup_node, studentIDOf_node, nodeHeight_node, hbal, hngt, hnb, hlt,
            true_and, and_false, false_and, and_self, if_true, if_false,
            rightRotate_node, leftRotate_node, maxInt_eq, AVL_node, grewTowards]
          refine ⟨⟨⟨hl, ha, ?_, ?_, ?_⟩, ⟨hb, hrr, ?_, ?_, ?_⟩, ?_, ?_, ?_⟩, ?_⟩ <;> omega
      · simp only [insertFixup_node, studentIDOf_node, nodeHeight_node, hbal, hnb, hgt, true_and,
          false_and, and_self, if_true, if_false, leftRotate_node, maxInt_eq, AVL_node,
          grewTowards]
        refine ⟨⟨⟨hl, hrl, ?_, ?_, ?_⟩, hrr, ?_, ?_, ?_⟩, ?_⟩ <;> omega
  · have hnb : ¬ (nodeHeight l - nodeHeight r1 > 1) := by
      rcases hgrow with h1 | h1 <;> omega
    simp only [insertFixup_node, hbal, hnb, false_and, if_false, maxInt_eq, AVL_node,
      nodeHeight_node, grewTowards]
    refine ⟨⟨hl, hr, trivial, ?_, ?_⟩, ?_⟩
    · omega
    · omega
    · rcases hgrow with h1 | ⟨h1, _⟩
      · left; omega
      · by_cases hc : h0 < nodeHeight l
        · left; omega
        · right
          refine ⟨by omega, Or.inr (Or.inr ⟨hcmp, by omega⟩)⟩

theorem insertFixup_same (id : CStr) (d : StudentRecord) (l r : AVLNode) (h : Int)
    (hb1 : nodeHeight l - nodeHeight r ≤ 1) (hb2 : nodeHeight r - nodeHeight l ≤ 1) :
    insertFixup id (node d l r h) = node d l r (1 + max (nodeHeight l) (nodeHeight r)) := by
  have h1 : ¬ (nodeHeight l - nodeHeight r > 1) := by omega
  have h2 : ¬ (nodeHeight l - nodeHeight r < -1) := by omega
  simp only [insertFixup_node, h1, h2, false_and, if_false, maxInt_eq]

theorem createNode_AVL (name id major : CStr) (course : CourseRecord) :
    AVL (createNode name id major course) := by
  simp [createNode, AVL_node, AVL, nodeHeight_nil]

/-- Insertion keeps the AVL invariant; the height stays or grows by one, and when it grows the
result leans towards the inserted identifier. -/
theorem insertRegistration_AVL (name id major : CStr) (course : CourseRecord) :
    ∀ t : AVLNode, AVL t →
      AVL (insertRegistration t name id major course).root ∧
        (nodeHeight (insertRegistration t name id major course).root = nodeHeight t ∨
          (nodeHeight (insertRegistration t name id major course).root = nodeHeight t + 1 ∧
            grewTowards id (insertRegistration t name id major course).root))
  | nil, _ => by
    refine ⟨createNode_AVL name id major course, Or.inr ⟨?_, ?_⟩⟩
    · simp [insertRegistration, createNode, nodeHeight_nil, nodeHeight_node]
    · simp [insertRegistration, createNode, grewTowards]
  | node d l r h, hav => by
    obtain ⟨hl, hr, hh, hb1, hb2⟩ := hav
    by_cases hlt : strcmp id d.studentID < 0
    · have ih := insertRegistration_AVL name id major course l hl
      have key := insertFixup_left id d _ r h (nodeHeight l) ih.1 hr hlt hb1 hb2 ih.2
      simp only [insertRegistration, hlt, if_true, nodeHeight_node]
      refine ⟨key.1, ?_⟩
      rcases key.2 with k | ⟨k, g⟩
      · left; omega
      · right; exact ⟨by omega, g⟩
    · by_cases hgt : strcmp id d.studentID > 0
      · have ih := insertRegistration_AVL name id major course r hr
        have key := insertFixup_right id d l _ h (nodeHeight r) hl ih.1 hgt hb1 hb2 ih.2
        simp only [insertRegistration, hlt, hgt, if_true, if_false, nodeHeight_node]
        refine ⟨key.1, ?_⟩
        rcases key.2 with k | ⟨k, g⟩
        · left; omega
        · right; exact ⟨by omega, g⟩
      · simp only [insertRegistration, hlt, hgt, if_false]
        split
        · exact ⟨⟨hl, hr, hh, hb1, hb2⟩, Or.inl rfl⟩
        · rw [insertFixup_same id _ l r h hb1 hb2]
          exact ⟨⟨hl, hr, rfl, hb1, hb2⟩, Or.inl (by simp only [nodeHeight_node]; omega)⟩

/-- C1. Insertion preserves the AVL balance: if the cached height of every node of `t` is its
true height and the subtree heights differ by at most one at every node, the tree returned by
`insertRegistration` has the same two properties, for every identifier (in particular every
identifier of at most 31 characters), name, major and course. -/
theorem insertRegistration_preserves_balance (t : AVLNode) (name id major : CStr)
    (course : CourseRecord) (hheights : heightsCorrect t) (hbal : balanced t) :
    heightsCorrect (insertRegistration t name id major course).root ∧
      balanced (insertRegistration t name id major course).root :=
  invariants_of_AVL _ (insertRegistration_AVL name id major course t
    (AVL_of_invariants t hheights hbal)).1

theorem deleteFixup_AVL (d : StudentRecord) (l r : AVLNode) (h : Int)
    (hl : AVL l) (hr : AVL r)
    (hb1 : nodeHeight l - nodeHeight r ≤ 2) (hb2 : nodeHeight r - nodeHeight l ≤ 2) :
    AVL (deleteFixup (node d l r h)) ∧
      (nodeHeight (deleteFixup (node d l r h)) = 1 + max (nodeHeight l) (nodeHeight r) ∨
        (nodeHeight (deleteFixup (node d l r h)) = max (nodeHeight l) (nodeHeight r) ∧
          (nodeHeight l - nodeHeight r = 2 ∨ nodeHeight r - nodeHeight l = 2))) := by
  have hrn := AVL_height_nonneg r hr
  have hln := AVL_height_nonneg l hl
  by_cases hbal : nodeHeight l - nodeHeight r > 1
  · have hnb : ¬ (nodeHeight l - nodeHeight r < -1) := by omega
    cases l with
    | nil => simp only [nodeHeight_nil] at hbal; omega
    | node ld ll lr lh =>
      obtain ⟨hll, hlr, hlh, hlb1, hlb2⟩ := hl
      have hlln := AVL_height_nonneg ll hll
      have hlrn := AVL_height_nonneg lr hlr
      simp only [nodeHeight_node] at hbal hln hnb hb1 hb2
      by_cases hlb : nodeHeight ll - nodeHeight lr ≥ 0
      · simp only [deleteFixup_node, getBalance_node, nodeHeight_node, hbal, hlb, true_and,
          and_self, if_true, rightRotate_node, maxInt_eq, AVL_node]
        refine ⟨⟨hll, ⟨hlr, hr, ?_, ?_, ?_⟩, ?_, ?_, ?_⟩, ?_⟩ <;> omega
      · have hlb3 : nodeHeight ll - nodeHeight lr < 0 := by omega
        cases lr with
        | nil => simp only [nodeHeight_nil] at hlb3; omega
        | node ed a b eh =>
          obtain ⟨ha, hb, heh, heb1, heb2⟩ := hlr
          have han := AVL_height_nonneg a ha
          have hbn := AVL_height_nonneg b hb
          simp only [nodeHeight_node] at hlb hlb3 hlh hlb1 hlb2 hlrn
          simp only [deleteFixup_node, getBalance_node, nodeHeight_node, hbal, hlb, hlb3,
            true_and, and_false, and_self, if_true, if_false,
            rightRotate_node, leftRotate_node, maxInt_eq, AVL_node]
          refine ⟨⟨⟨hll, ha, ?_, ?_, ?_⟩, ⟨hb, hr, ?_, ?_, ?_⟩, ?_, ?_, ?_⟩, ?_⟩ <;> omega
  · by_cases hbal2 : nodeHeight l - nodeHeight r < -1
    · cases r with
      | nil => simp only [nodeHeight_nil] at hbal2; omega
      | node rd rl rr rh =>
        obtain ⟨hrl, hrr, hrh, hrb1, hrb2⟩ := hr
        have hrln := AVL_height_nonneg rl hrl
        have hrrn := AVL_height_nonneg rr hrr
        simp only [nodeHeight_node] at hbal hbal2 hrn hb1 hb2
        by_cases hrb : nodeHeight rl - nodeHeight rr ≤ 0
        · simp only [deleteFixup_node, getBalance_node, nodeHeight_node, hbal, hbal2, hrb,
            true_and, false_and, and_self, if_true, if_false, leftRotate_node, maxInt_eq,
            AVL_node]
          refine ⟨⟨⟨hl, hrl, ?_, ?_, ?_⟩, hrr, ?_, ?_, ?_⟩, ?_⟩ <;> omega
        · have hrb3 : nodeHeight rl - nodeHeight rr > 0 := by omega
          cases rl with
          | nil => simp only [nodeHeight_nil] at hrb3; omega
          | node ed a b eh =>
            obtain ⟨ha, hb, heh, heb1, heb2⟩ := hrl
            have han := AVL_height_nonneg a ha
            have hbn := AVL_height_nonneg b hb
            simp only [nodeHeight_node] at hrb hrb3 hrh hrb1 hrb2 hrln
            simp only [deleteFixup_node, getBalance_node, nodeHeight_node, hbal, hbal2, hrb,
              hrb3, true_and, and_false, false_and, and_self, if_true, if_false,
              rightRotate_node, leftRotate_node, maxInt_eq, AVL_node]
            refine ⟨⟨⟨hl, ha, ?_, ?_, ?_⟩, ⟨hb, hrr, ?_, ?_, ?_⟩, ?_, ?_, ?_⟩, ?_⟩ <;> omega
    · simp only [deleteFixup_node, hbal, hbal2, false_and, if_false, maxInt_eq, AVL_node,
        nodeHeight_node]
      exact ⟨⟨hl, hr, trivial, by omega, by omega⟩, Or.inl trivial⟩

theorem deleteFixup_of_AVL (t : AVLNode) (hav : AVL t) : deleteFixup t = t := by
  cases t with
  | nil => rfl
  | node d l r h =>
    obtain ⟨hl, hr, hh, hb1, hb2⟩ := hav
    have h1 : ¬ (nodeHeight l - nodeHeight r > 1) := by omega
    have h2 : ¬ (nodeHeight l - nodeHeight r < -1) := by omega
    simp only [deleteFixup_node, h1, h2, false_and, if_false, maxInt_eq, hh]

theorem minValueNode_ne_nil : ∀ (d : StudentRecord) (l r : AVLNode) (h : Int),
    minValueNode (node d l r h) ≠ nil
  | _, nil, _, _ => by simp [minValueNode]
  | _, node ld ll lr lh, _, _ => by
    simp only [minValueNode]
    exact minValueNode_ne_nil ld ll lr lh

/-- Deletion keeps the AVL invariant and lowers the height by at most one. -/
theorem deleteStudent_AVL : ∀ (t : AVLNode) (id : CStr), AVL t →
    AVL (deleteStudent t id) ∧
      (nodeHeight (deleteStudent t id) = nodeHeight t ∨
        nodeHeight (deleteStudent t id) = nodeHeight t - 1)
  | nil, _, _ => by simp [deleteStudent, AVL]
  | node d l r h, id, hav => by
    obtain ⟨hl, hr, hh, hb1, hb2⟩ := hav
    have hrn := AVL_height_nonneg r hr
    have hln := AVL_height_nonneg l hl
    have right_case : ∀ (d1 : StudentRecord) (key : CStr),
        AVL (deleteFixup (node d1 l (deleteStudent r key) h)) ∧
          (nodeHeight (deleteFixup (node d1 l (deleteStudent r key) h)) = h ∨
            nodeHeight (deleteFixup (node d1 l (deleteStudent r key) h)) = h - 1) := by
      intro d1 key
      have ih := deleteStudent_AVL r key hr
      have key1 := deleteFixup_AVL d1 l _ h hl ih.1 (by omega) (by omega)
      refine ⟨key1.1, ?_⟩
      omega
    by_cases hlt : strcmp id d.studentID < 0
    · have ih := deleteStudent_AVL l id hl
      have key := deleteFixup_AVL d _ r h ih.1 hr (by omega) (by omega)
      simp only [deleteStudent, hlt, if_true, nodeHeight_node]
      refine ⟨key.1, ?_⟩
      omega
    · by_cases hgt : strcmp id d.studentID > 0
      · simp only [deleteStudent, hlt, hgt, if_true, if_false, nodeHeight_node]
        exact right_case d id
      · simp only [deleteStudent, hlt, hgt, if_false, nodeHeight_node]
        cases l with
        | nil =>
          cases r with
          | nil => simp [AVL, nodeHeight_nil] at hh ⊢; omega
          | node rd rl rr rh =>
            simp only [true_or, if_true, ne_eq, not_true_eq_false, if_false, reduceCtorEq]
            rw [deleteFixup_of_AVL _ hr]
            simp only [nodeHeight_nil, nodeHeight_node] at hh hb2 hrn ⊢
            exact ⟨hr, by omega⟩
        | node ld ll lr lh =>
          cases r with
          | nil =>
            simp only [or_true, if_true, ne_eq, reduceCtorEq, not_false_eq_true, if_false]
            rw [deleteFixup_of_AVL _ hl]
            simp only [nodeHeight_nil, nodeHeight_node] at hh hb1 hln ⊢
            exact ⟨hl, by omega⟩
          | node rd rl rr rh =>
            simp only [reduceCtorEq, or_self, if_false]
            have hne := minValueNode_ne_nil rd rl rr rh
            cases hmin : minValueNode (node rd rl rr rh) with
            | nil => exact absurd hmin hne
            | node td tl tr th => exact right_case _ _

/-- Inserting 12360 below the right spine 12345, 12350 rotates; the result is balanced. -/
theorem insertRegistration_preserves_balance_witness :
    heightsCorrect (insertRegistration twoStudentTree (bytes "Omar Zaid") (bytes "12360")
        (bytes "CS") cs102).root ∧
      balanced (insertRegistration twoStudentTree (bytes "Omar Zaid") (bytes "12360")
        (bytes "CS") cs102).root :=
  insertRegistration_preserves_balance twoStudentTree (bytes "Omar Zaid") (bytes "12360")
    (bytes "CS") cs102 (by decide) (by decide)

/-- C2. Deletion preserves the AVL balance: if the cached height of every node of `t` is its
true height and the subtree heights differ by at most one at every node, the tree returned by
`deleteStudent` has the same two properties, for every identifier, present or absent, whether
the deleted node is a leaf, has one child or has two children. -/
theorem deleteStudent_preserves_balance (t : AVLNode) (id : CStr)
    (hheights : heightsCorrect t) (hbal : balanced t) :
    heightsCorrect (deleteStudent t id) ∧ balanced (deleteStudent t id) :=
  invariants_of_AVL _ (deleteStudent_AVL t id (AVL_of_invariants t hheights hbal)).1

/-- Deleting the root 12350 of the three-student tree, a node with two children. -/
theorem deleteStudent_preserves_balance_witness :
    heightsCorrect (deleteStudent threeStudentTree (bytes "12350")) ∧
      balanced (deleteStudent threeStudentTree (bytes "12350")) :=
  deleteStudent_preserves_balance threeStudentTree (bytes "12350") (by decide) (by decide)

/-! ## The order given by `strcmp` -/

theorem strcmp_self : ∀ a : CStr, strcmp a a = 0
  | [] => rfl
  | x :: xs => by simp [strcmp, strcmp_self xs]

theorem strcmp_eq_zero : ∀ a b : CStr, strcmp a b = 0 → a = b
  | [], [], _ => rfl
  | [], _ :: _, h => by simp [strcmp] at h
  | _ :: _, [], h => by simp [strcmp] at h
  | x :: xs, y :: ys, h => by
    simp only [strcmp] at h
    split at h
    · omega
    · split at h
      · omega
      · have := strcmp_eq_zero xs ys h
        have : x = y := by omega
        simp [*]

theorem strcmp_swap : ∀ a b : CStr, strcmp a b = - strcmp b a
  | [], [] => rfl
  | [], _ :: _ => rfl
  | _ :: _, [] => rfl
  | x :: xs, y :: ys => by
    simp only [strcmp]
    have ih := strcmp_swap xs ys
    split <;> split <;> omega

theorem strcmp_trans : ∀ a b c : CStr, strcmp a b < 0 → strcmp b c < 0 → strcmp a c < 0
  | [], [], _, h, _ => by simp [strcmp] at h
  | [], _ :: _, [], _, h => by simp [strcmp] at h
  | [], _ :: _, _ :: _, _, _ => by simp [strcmp]
  | _ :: _, [], _, h, _ => by simp [strcmp] at h
  | _ :: _, _ :: _, [], _, h => by simp [strcmp] at h
  | x :: xs, y :: ys, z :: zs, h1, h2 => by
    simp only [strcmp] at h1 h2 ⊢
    have ih := strcmp_trans xs ys zs
    split at h1
    · split at h2
      · rw [if_pos (by omega)]; omega
      · split at h2
        · omega
        · rw [if_pos (by omega)]; omega
    · split at h1
      · omega
      · split at h2
        · rw [if_pos (by omega)]; omega
        · split at h2
          · omega
          · rw [if_neg (by omega), if_neg (by omega)]; exact ih h1 h2

theorem strcmp_gt_iff (a b : CStr) : strcmp a b > 0 ↔ strcmp b a < 0 := by
  have := strcmp_swap a b; omega

theorem strcmp_zero_iff (a b : CStr) : strcmp a b = 0 ↔ a = b :=
  ⟨strcmp_eq_zero a b, fun h => h ▸ strcmp_self a⟩

/-! ## Rotations keep the in-order sequence -/

theorem inorder_rightRotate : ∀ t : AVLNode, inorder (rightRotate t) = inorder t
  | nil => rfl
  | node _ nil _ _ => rfl
  | node _ (node _ _ _ _) _ _ => by simp [rightRotate_node, inorder]

theorem inorder_leftRotate : ∀ t : AVLNode, inorder (leftRotate t) = inorder t
  | nil => rfl
  | node _ _ nil _ => rfl
  | node _ _ (node _ _ _ _) _ => by simp [leftRotate_node, inorder]

theorem inorder_insertFixup (id : CStr) : ∀ t : AVLNode, inorder (insertFixup id t) = inorder t
  | nil => rfl
  | node d l r h => by
    rw [insertFixup_node]
    split_ifs <;> simp [inorder_rightRotate, inorder_leftRotate, inorder]

theorem inorder_deleteFixup : ∀ t : AVLNode, inorder (deleteFixup t) = inorder t
  | nil => rfl
  | node d l r h => by
    rw [deleteFixup_node]
    split_ifs <;> simp [inorder_rightRotate, inorder_leftRotate, inorder]

theorem countStudents_eq_length : ∀ t : AVLNode, countStudents t = ((inorder t).length : Int)
  | nil => rfl
  | node _ l r _ => by
    simp only [countStudents, inorder, List.length_append, List.length_cons,
      countStudents_eq_length l, countStudents_eq_length r]
    push_cast; ring

/-! ## Sorted in-order sequences -/

theorem isBST_node (d : StudentRecord) (l r : AVLNode) (h : Int) :
    isBST (node d l r h) ↔
      isBST l ∧ isBST r ∧ (∀ a ∈ inorder l, idLt a d) ∧ (∀ b ∈ inorder r, idLt d b) := by
  unfold isBST
  simp only [inorder, List.pairwise_append, List.pairwise_cons, List.mem_cons]
  constructor
  · rintro ⟨h1, ⟨h2, h3⟩, h4⟩
    exact ⟨h1, h3, fun a ha => h4 a ha d (Or.inl rfl), h2⟩
  · rintro ⟨h1, h3, h4, h2⟩
    refine ⟨h1, ⟨h2, h3⟩, ?_⟩
    intro a ha b hb
    rcases hb with rfl | hb
    · exact h4 a ha
    · exact strcmp_trans _ _ _ (h4 a ha) (h2 b hb)

theorem above_of_lt {id : CStr} {d x : StudentRecord} (h1 : strcmp id d.studentID < 0)
    (h2 : idLt d x) : strcmp id x.studentID < 0 :=
  strcmp_trans _ _ _ h1 h2

theorem below_of_gt {id : CStr} {d x : StudentRecord} (h1 : strcmp id d.studentID > 0)
    (h2 : idLt x d) : strcmp id x.studentID > 0 := by
  rw [strcmp_gt_iff] at h1 ⊢
  exact strcmp_trans _ _ _ h2 h1

theorem filter_eq_nil_of {p : StudentRecord → Bool} {l : List StudentRecord}
    (h : ∀ x ∈ l, p x = false) : l.filter p = [] := by
  rw [List.filter_eq_nil_iff]
  intro x hx; simp [h x hx]

theorem filter_eq_self_of {p : StudentRecord → Bool} {l : List StudentRecord}
    (h : ∀ x ∈ l, p x = true) : l.filter p = l := by
  rw [List.filter_eq_self]; exact h

theorem find_eq_none_of {p : StudentRecord → Bool} {l : List StudentRecord}
    (h : ∀ x ∈ l, p x = false) : l.find? p = none := by
  rw [List.find?_eq_none]
  intro x hx; simp [h x hx]

/-- How the three parts of a sorted sequence around `id` split at a root whose identifier is
greater than `id`. -/
theorem split_left {id : CStr} {d : StudentRecord} (ll lr : List StudentRecord)
    (hcmp : strcmp id d.studentID < 0) (hr : ∀ b ∈ lr, idLt d b) :
    (ll ++ d :: lr).filter (below id) = ll.filter (below id) ∧
      (ll ++ d :: lr).find? (hasID id) = ll.find? (hasID id) ∧
      (ll ++ d :: lr).filter (above id) = ll.filter (above id) ++ d :: lr ∧
      (ll ++ d :: lr).filter (fun r => !hasID id r) = ll.filter (fun r => !hasID id r) ++ d :: lr := by
  have hall : ∀ x ∈ d :: lr, strcmp id x.studentID < 0 := by
    intro x hx
    rcases List.mem_cons.1 hx with rfl | hx
    · exact hcmp
    · exact above_of_lt hcmp (hr x hx)
  have h1 : (d :: lr).filter (below id) = [] :=
    filter_eq_nil_of (fun x hx => by have := hall x hx; simp only [below, decide_eq_false_iff_not]; omega)
  have h2 : (d :: lr).find? (hasID id) = none :=
    find_eq_none_of (fun x hx => by have := hall x hx; simp only [hasID, decide_eq_false_iff_not]; omega)
  have h3 : (d :: lr).filter (above id) = d :: lr :=
    filter_eq_self_of (fun x hx => by have := hall x hx; simp only [above, decide_eq_true_eq]; omega)
  have h4 : (d :: lr).filter (fun r => !hasID id r) = d :: lr :=
    filter_eq_self_of (fun x hx => by
      have := hall x hx
      simp only [hasID, Bool.not_eq_true', decide_eq_false_iff_not]; omega)
  refine ⟨?_, ?_, ?_, ?_⟩
  · rw [List.filter_append, h1, List.append_nil]
  · rw [List.find?_append, h2, Option.or_none]
  · rw [List.filter_append, h3]
  · rw [List.filter_append, h4]

/-- The same at a root whose identifier is smaller than `id`. -/
theorem split_right {id : CStr} {d : StudentRecord} (ll lr : List StudentRecord)
    (hcmp : strcmp id d.studentID > 0) (hl : ∀ a ∈ ll, idLt a d) :
    (ll ++ d :: lr).filter (below id) = ll ++ d :: lr.filter (below id) ∧
      (ll ++ d :: lr).find? (hasID id) = lr.find? (hasID id) ∧
      (ll ++ d :: lr).filter (above id) = lr.filter (above id) ∧
      (ll ++ d :: lr).filter (fun r => !hasID id r) = ll ++ d :: lr.filter (fun r => !hasID id r) := by
  have hall : ∀ x ∈ ll, strcmp id x.studentID > 0 := fun x hx => below_of_gt hcmp (hl x hx)
  have h1 : ll.filter (below id) = ll :=
    filter_eq_self_of (fun x hx => by have := hall x hx; simp only [below, decide_eq_true_eq]; omega)
  have h2 : ll.find? (hasID id) = none :=
    find_eq_none_of (fun x hx => by have := hall x hx; simp only [hasID, decide_eq_false_iff_not]; omega)
  have h3 : ll.filter (above id) = [] :=
    filter_eq_nil_of (fun x hx => by have := hall x hx; simp only [above, decide_eq_false_iff_not]; omega)
  have h4 : ll.filter (fun r => !hasID id r) = ll :=
    filter_eq_self_of (fun x hx => by
      have := hall x hx
      simp only [hasID, Bool.not_eq_true', decide_eq_false_iff_not]; omega)
  have hb : below id d = true := by simp only [below, decide_eq_true_eq]; exact hcmp
  have hi : hasID id d = false := by simp only [hasID, decide_eq_false_iff_not]; omega
  have ha : above id d = false := by simp only [above, decide_eq_false_iff_not]; omega
  refine ⟨?_, ?_, ?_, ?_⟩
  · rw [List.filter_append, h1, List.filter_cons, if_pos hb]
  · rw [List.find?_append, h2, Option.none_or, List.find?_cons, hi]
  · rw [List.filter_append, h3, List.nil_append, List.filter_cons, if_neg (by simp [ha])]
  · rw [List.filter_append, h4, List.filter_cons, if_pos (by simp [hi])]

/-- The same at a root that holds `id`. -/
theorem split_here {id : CStr} {d : StudentRecord} (ll lr : List StudentRecord)
    (hcmp : strcmp id d.studentID = 0) (hl : ∀ a ∈ ll, idLt a d) (hr : ∀ b ∈ lr, idLt d b) :
    (ll ++ d :: lr).filter (below id) = ll ∧
      (ll ++ d :: lr).find? (hasID id) = some d ∧
      (ll ++ d :: lr).filter (above id) = lr ∧
      (ll ++ d :: lr).filter (fun r => !hasID id r) = ll ++ lr := by
  have hid : id = d.studentID := strcmp_eq_zero _ _ hcmp
  have hallL : ∀ x ∈ ll, strcmp id x.studentID > 0 := by
    intro x hx; rw [strcmp_gt_iff, hid]; exact hl x hx
  have hallR : ∀ x ∈ lr, strcmp id x.studentID < 0 := by
    intro x hx; rw [hid]; exact hr x hx
  have h1 : ll.filter (below id) = ll :=
    filter_eq_self_of (fun x hx => by have := hallL x hx; simp only [below, decide_eq_true_eq]; omega)
  have h2 : ll.find? (hasID id) = none :=
    find_eq_none_of (fun x hx => by have := hallL x hx; simp only [hasID, decide_eq_false_iff_not]; omega)
  have h3 : ll.filter (above id) = [] :=
    filter_eq_nil_of (fun x hx => by have := hallL x hx; simp only [above, decide_eq_false_iff_not]; omega)
  have h4 : ll.filter (fun r => !hasID id r) = ll :=
    filter_eq_self_of (fun x hx => by
      have := hallL x hx
      simp only [hasID, Bool.not_eq_true', decide_eq_false_iff_not]; omega)
  have h5 : lr.filter (below id) = [] :=
    filter_eq_nil_of (fun x hx => by have := hallR x hx; simp only [below, decide_eq_false_iff_not]; omega)
  have h7 : lr.filter (above id) = lr :=
    filter_eq_self_of (fun x hx => by have := hallR x hx; simp only [above, decide_eq_true_eq]; omega)
  have h8 : lr.filter (fun r => !hasID id r) = lr :=
    filter_eq_self_of (fun x hx => by
      have := hallR x hx
      simp only [hasID, Bool.not_eq_true', decide_eq_false_iff_not]; omega)
  have hb : below id d = false := by simp only [below, decide_eq_false_iff_not]; omega
  have hi : hasID id d = true := by simp only [hasID, decide_eq_true_eq]; exact hcmp
  have ha : above id d = false := by simp only [above, decide_eq_false_iff_not]; omega
  refine ⟨?_, ?_, ?_, ?_⟩
  · rw [List.filter_append, h1, List.filter_cons, if_neg (by simp [hb]), h5, List.append_nil]
  · rw [List.find?_append, h2, Option.none_or, List.find?_cons, hi]
  · rw [List.filter_append, h3, List.nil_append, List.filter_cons, if_neg (by simp [ha]), h7]
  · rw [List.filter_append, h4, List.filter_cons, if_neg (by simp [hi]), h8]

/-! ## What insertion does to the in-order sequence -/

/-- On a BST-ordered tree the in-order sequence after `insertRegistration` is the records
below `id`, the record registered for `id`, and the records above `id`; the two flags tell
whether a record for `id` existed and what `appendCourseRecord` returned. -/
theorem insertRegistration_spec (name id major : CStr) (course : CourseRecord) :
    ∀ t : AVLNode, isBST t →
      inorder (insertRegistration t name id major course).root =
          (inorder t).filter (below id) ++
            registeredRecord name id major course ((inorder t).find? (hasID id)) ::
              (inorder t).filter (above id) ∧
        (insertRegistration t name id major course).newStudent =
          (match (inorder t).find? (hasID id) with | none => 1 | some _ => 0) ∧
        (insertRegistration t name id major course).newCourse =
          (match (inorder t).find? (hasID id) with
            | none => 1
            | some d => (appendCourseRecord d.courses course).2)
  | nil, _ => by
    simp [insertRegistration, createNode, inorder, registeredRecord, appendCourseRecord,
      updateMatching]
  | node d l r h, hbst => by
    obtain ⟨hl, hr, hlt, hgt⟩ := (isBST_node d l r h).1 hbst
    by_cases c1 : strcmp id d.studentID < 0
    · obtain ⟨ih1, ih2, ih3⟩ := insertRegistration_spec name id major course l hl
      obtain ⟨s1, s2, s3, _⟩ := split_left (inorder l) (inorder r) c1 hgt
      simp only [insertRegistration, c1, if_true, inorder_insertFixup]
      simp only [inorder, s1, s2, s3, ih1, ih2, ih3, List.append_assoc, List.cons_append,
        and_self]
    · by_cases c2 : strcmp id d.studentID > 0
      · obtain ⟨ih1, ih2, ih3⟩ := insertRegistration_spec name id major course r hr
        obtain ⟨s1, s2, s3, _⟩ := split_right (inorder l) (inorder r) c2 hlt
        simp only [insertRegistration, c1, c2, if_true, if_false, inorder_insertFixup]
        simp only [inorder, s1, s2, s3, ih1, ih2, ih3, List.append_assoc, List.cons_append,
          and_self]
      · have c3 : strcmp id d.studentID = 0 := by omega
        obtain ⟨s1, s2, s3, _⟩ := split_here (inorder l) (inorder r) c3 hlt hgt
        simp only [insertRegistration, c1, c2, if_false]
        split <;>
          simp_all only [inorder, inorder_insertFixup, registeredRecord, and_self]

/-! ## Lookup and deletion on a BST-ordered tree -/

theorem hasID_iff (id : CStr) (r : StudentRecord) : hasID id r = true ↔ r.studentID = id := by
  simp only [hasID, decide_eq_true_eq, strcmp_zero_iff]
  exact eq_comm

theorem copyBounded_of_lt (s : CStr) (n : Nat) (h : s.length < n) : copyBounded s n = s := by
  unfold copyBounded
  exact List.take_of_length_le (by omega)

theorem cloneCourseRecords_of_fit : ∀ cs : List CourseRecord, (∀ c ∈ cs, courseFits c) →
    cloneCourseRecords cs = cs
  | [], _ => rfl
  | c :: cs, h => by
    have hc := h c (List.mem_cons_self _ _)
    have ih := cloneCourseRecords_of_fit cs (fun x hx => h x (List.mem_cons_of_mem _ hx))
    have hhead : createCourseRecord c.courseCode c.courseTitle c.creditHours c.semester = c := by
      simp only [createCourseRecord, copyBounded_of_lt _ _ hc.1, copyBounded_of_lt _ _ hc.2.1,
        copyBounded_of_lt _ _ hc.2.2]
    unfold cloneCourseRecords at ih ⊢
    rw [List.map_cons, ih, hhead]

theorem copyStudentRecord_of_fit (d : StudentRecord) (h : recordFits d) :
    copyStudentRecord d = d := by
  simp only [copyStudentRecord, copyBounded_of_lt _ _ h.1, copyBounded_of_lt _ _ h.2.1,
    copyBounded_of_lt _ _ h.2.2.1, cloneCourseRecords_of_fit _ h.2.2.2]

/-- The pointer returned by `findByID` designates the node holding the record with that
identifier, if there is one. -/
theorem findByID_spec (id : CStr) : ∀ t : AVLNode, isBST t →
    (findByID t id).bind recordOf = (inorder t).find? (hasID id)
  | nil, _ => rfl
  | node d l r h, hbst => by
    obtain ⟨hl, hr, hlt, hgt⟩ := (isBST_node d l r h).1 hbst
    by_cases c3 : strcmp id d.studentID = 0
    · obtain ⟨_, s2, _, _⟩ := split_here (inorder l) (inorder r) c3 hlt hgt
      simp only [findByID, c3, if_true, inorder, s2, Option.some_bind, recordOf]
    · by_cases c1 : strcmp id d.studentID < 0
      · obtain ⟨_, s2, _, _⟩ := split_left (inorder l) (inorder r) c1 hgt
        simp only [findByID, c3, c1, if_true, if_false, inorder, s2]
        exact findByID_spec id l hl
      · have c2 : strcmp id d.studentID > 0 := by omega
        obtain ⟨_, s2, _, _⟩ := split_right (inorder l) (inorder r) c2 hlt
        simp only [findByID, c3, c1, if_false, inorder, s2]
        exact findByID_spec id r hr

theorem findByID_ne_some_nil (id : CStr) : ∀ t : AVLNode, findByID t id ≠ some nil
  | nil => by simp [findByID]
  | node d l r h => by
    simp only [findByID]
    split_ifs
    · simp
    · exact findByID_ne_some_nil id l
    · exact findByID_ne_some_nil id r

theorem findByID_eq_none_iff (id : CStr) (t : AVLNode) (hbst : isBST t) :
    findByID t id = none ↔ ∀ r ∈ inorder t, r.studentID ≠ id := by
  have hs := findByID_spec id t hbst
  constructor
  · intro hn r hr heq
    rw [hn] at hs
    have := List.find?_eq_none.1 hs.symm r hr
    exact this ((hasID_iff id r).2 heq)
  · intro hall
    have hnone : (inorder t).find? (hasID id) = none :=
      List.find?_eq_none.2 (fun r hr hh => hall r hr ((hasID_iff id r).1 hh))
    rw [hnone] at hs
    cases hf : findByID t id with
    | none => rfl
    | some n =>
      cases n with
      | nil => exact absurd hf (findByID_ne_some_nil id t)
      | node d l r h => rw [hf] at hs; simp [recordOf] at hs

theorem minValueNode_spec : ∀ (t : AVLNode) (td : StudentRecord) (tl tr : AVLNode) (th : Int),
    minValueNode t = node td tl tr th → ∃ rest, inorder t = td :: rest
  | nil, _, _, _, _, h => by simp [minValueNode] at h
  | node d nil r hh, td, tl, tr, th, h => by
    simp only [minValueNode, node.injEq] at h
    exact ⟨inorder r, by simp [inorder, h.1]⟩
  | node d (node ld ll lr lh) r hh, td, tl, tr, th, h => by
    simp only [minValueNode] at h
    obtain ⟨rest, hrest⟩ := minValueNode_spec (node ld ll lr lh) td tl tr th h
    exact ⟨rest ++ d :: inorder r, by rw [inorder, hrest]; rfl⟩

/-- On a BST-ordered tree `deleteStudent` removes the record that holds `id` and nothing
else. -/
theorem deleteStudent_spec : ∀ (t : AVLNode) (id : CStr), isBST t → recordsFit t →
    inorder (deleteStudent t id) = (inorder t).filter (fun r => !hasID id r)
  | nil, _, _, _ => rfl
  | node d l r h, id, hbst, hfit => by
    obtain ⟨hl, hr, hlt, hgt⟩ := (isBST_node d l r h).1 hbst
    have hfl : recordsFit l := fun x hx => hfit x (by simp [inorder, hx])
    have hfr : recordsFit r := fun x hx => hfit x (by simp [inorder, hx])
    by_cases c1 : strcmp id d.studentID < 0
    · obtain ⟨_, _, _, s4⟩ := split_left (inorder l) (inorder r) c1 hgt
      simp only [deleteStudent, c1, if_true, inorder_deleteFixup]
      simp only [inorder, s4, deleteStudent_spec l id hl hfl]
    · by_cases c2 : strcmp id d.studentID > 0
      · obtain ⟨_, _, _, s4⟩ := split_right (inorder l) (inorder r) c2 hlt
        simp only [deleteStudent, c1, c2, if_true, if_false, inorder_deleteFixup]
        simp only [inorder, s4, deleteStudent_spec r id hr hfr]
      · have c3 : strcmp id d.studentID = 0 := by omega
        obtain ⟨_, _, _, s4⟩ := split_here (inorder l) (inorder r) c3 hlt hgt
        simp only [deleteStudent, c1, c2, if_false]
        cases l with
        | nil =>
          cases r with
          | nil =>
            simp only [or_self, if_true, ne_eq, not_true_eq_false, if_false]
            exact s4.symm
          | node rd rl rr rh =>
            simp only [true_or, if_true, ne_eq, not_true_eq_false, if_false, reduceCtorEq,
              inorder_deleteFixup]
            exact s4.symm
        | node ld ll lr lh =>
          cases r with
          | nil =>
            simp only [or_true, if_true, ne_eq, reduceCtorEq, not_false_eq_true, if_false,
              inorder_deleteFixup]
            refine Eq.trans ?_ s4.symm
            simp [inorder]
          | node rd rl rr rh =>
            simp only [reduceCtorEq, or_self, if_false]
            have hne := minValueNode_ne_nil rd rl rr rh
            cases hmin : minValueNode (node rd rl rr rh) with
            | nil => exact absurd hmin hne
            | node td tl tr th =>
              obtain ⟨rest, hrest⟩ := minValueNode_spec _ td tl tr th hmin
              have htd : td ∈ inorder (node rd rl rr rh) := by rw [hrest]; simp
              have hcopy : copyStudentRecord td = td := copyStudentRecord_of_fit td (hfr td htd)
              have hdel := deleteStudent_spec (node rd rl rr rh) td.studentID hr hfr
              have hpw : (td :: rest).Pairwise idLt := by rw [← hrest]; exact hr
              have hrestf : (td :: rest).filter (fun r => !hasID td.studentID r) = rest := by
                rw [List.filter_cons, if_neg (by simp [hasID, strcmp_self])]
                apply filter_eq_self_of
                intro x hx
                have hx1 : idLt td x := (List.pairwise_cons.1 hpw).1 x hx
                unfold idLt at hx1
                simp only [hasID, Bool.not_eq_true', decide_eq_false_iff_not]; omega
              simp only [inorder_deleteFixup]
              refine Eq.trans ?_ s4.symm
              rw [show inorder (node (copyStudentRecord td) (node ld ll lr lh)
                  (deleteStudent (node rd rl rr rh) td.studentID) h) =
                inorder (node ld ll lr lh) ++ copyStudentRecord td ::
                  inorder (deleteStudent (node rd rl rr rh) td.studentID) from rfl]
              rw [hdel, hcopy, hrest, hrestf]

/-! ## Consequences for sorted sequences -/

theorem registeredRecord_id (name id major : CStr) (course : CourseRecord)
    (l : List StudentRecord) (hlen : id.length < MAX_ID_LEN) :
    (registeredRecord name id major course (l.find? (hasID id))).studentID = id := by
  cases hf : l.find? (hasID id) with
  | none => simp only [registeredRecord]; exact copyBounded_of_lt _ _ hlen
  | some d =>
    simp only [registeredRecord]
    exact (hasID_iff id d).1 (List.find?_some hf)

theorem pairwise_around (id : CStr) (l : List StudentRecord) (x : StudentRecord)
    (hpw : l.Pairwise idLt) (hx : x.studentID = id) :
    (l.filter (below id) ++ x :: l.filter (above id)).Pairwise idLt := by
  rw [List.pairwise_append]
  refine ⟨hpw.filter _, List.pairwise_cons.2 ⟨?_, hpw.filter _⟩, ?_⟩
  · intro b hb
    have := (List.mem_filter.1 hb).2
    simp only [above, decide_eq_true_eq] at this
    unfold idLt; rw [hx]; exact this
  · intro a ha b hb
    have ha1 := (List.mem_filter.1 ha).2
    simp only [below, decide_eq_true_eq, strcmp_gt_iff] at ha1
    rcases List.mem_cons.1 hb with rfl | hb
    · unfold idLt; rw [hx]; exact ha1
    · have hb1 := (List.mem_filter.1 hb).2
      simp only [above, decide_eq_true_eq] at hb1
      exact strcmp_trans _ _ _ ha1 hb1

/-- A sorted sequence is its part below `id`, the record for `id` if any, and its part above. -/
theorem sorted_partition (id : CStr) : ∀ l : List StudentRecord, l.Pairwise idLt →
    l = l.filter (below id) ++ ((l.find? (hasID id)).toList ++ l.filter (above id))
  | [], _ => rfl
  | a :: l, hpw => by
    obtain ⟨ha, hl⟩ := List.pairwise_cons.1 hpw
    by_cases c1 : strcmp id a.studentID < 0
    · obtain ⟨s1, s2, s3, _⟩ := split_left [] l c1 ha
      simp only [List.nil_append] at s1 s2 s3
      rw [s1, s2, s3]; rfl
    · by_cases c2 : strcmp id a.studentID > 0
      · obtain ⟨s1, s2, s3, _⟩ := split_right [] l c2 (by simp)
        simp only [List.nil_append] at s1 s2 s3
        rw [s1, s2, s3, List.cons_append]
        exact congrArg _ (sorted_partition id l hl)
      · have c3 : strcmp id a.studentID = 0 := by omega
        obtain ⟨s1, s2, s3, _⟩ := split_here [] l c3 (by simp) ha
        simp only [List.nil_append] at s1 s2 s3
        rw [s1, s2, s3]; rfl

theorem find_some_of_mem (id : CStr) (l : List StudentRecord) (r : StudentRecord)
    (hr : r ∈ l) (hid : r.studentID = id) : ∃ d, l.find? (hasID id) = some d := by
  cases hf : l.find? (hasID id) with
  | none =>
    have := List.find?_eq_none.1 hf r hr
    exact absurd ((hasID_iff id r).2 hid) this
  | some d => exact ⟨d, rfl⟩

theorem find_none_of_absent (id : CStr) (l : List StudentRecord)
    (h : ∀ r ∈ l, r.studentID ≠ id) : l.find? (hasID id) = none :=
  List.find?_eq_none.2 (fun r hr hh => h r hr ((hasID_iff id r).1 hh))

theorem findByID_of_find (id : CStr) (t : AVLNode) (hbst : isBST t) (d : StudentRecord)
    (hf : (inorder t).find? (hasID id) = some d) :
    ∃ l r h, findByID t id = some (node d l r h) := by
  have hs := findByID_spec id t hbst
  rw [hf] at hs
  cases hfind : findByID t id with
  | none => rw [hfind] at hs; simp at hs
  | some n =>
    cases n with
    | nil => exact absurd hfind (findByID_ne_some_nil id t)
    | node d1 l r h =>
      rw [hfind] at hs
      simp only [Option.some_bind, recordOf, Option.some.injEq] at hs
      exact ⟨l, r, h, by rw [hs]⟩

/-! ## The course sublist -/

theorem updateMatching_none_iff : ∀ (cs : List CourseRecord) (record : CourseRecord),
    updateMatching cs record = none ↔ hasCourse cs record.courseCode = 0
  | [], _ => by simp [updateMatching, hasCourse]
  | c :: cs, record => by
    simp only [updateMatching, hasCourse]
    split_ifs with h
    · simp
    · simp only [Option.map_eq_none']
      exact updateMatching_none_iff cs record

theorem appendCourseRecord_absent (cs : List CourseRecord) (record : CourseRecord)
    (h : hasCourse cs record.courseCode = 0) :
    appendCourseRecord cs record = (cs ++ [record], 1) := by
  unfold appendCourseRecord
  rw [(updateMatching_none_iff cs record).2 h]

/-- When a code matches, the first matching entry is overwritten in place. -/
theorem appendCourseRecord_present : ∀ (cs : List CourseRecord) (record : CourseRecord),
    hasCourse cs record.courseCode ≠ 0 →
    ∃ pre c post, cs = pre ++ c :: post ∧
      (∀ x ∈ pre, equalsIgnoreCase x.courseCode record.courseCode = 0) ∧
      equalsIgnoreCase c.courseCode record.courseCode ≠ 0 ∧
      appendCourseRecord cs record =
        (pre ++ { courseCode := c.courseCode
                  courseTitle := copyBounded record.courseTitle MAX_TITLE_LEN
                  creditHours := record.creditHours
                  semester := copyBounded record.semester MAX_SEMESTER_LEN } :: post, 0)
  | [], _, h => by simp [hasCourse] at h
  | c :: cs, record, h => by
    by_cases hc : equalsIgnoreCase c.courseCode record.courseCode ≠ 0
    · refine ⟨[], c, cs, rfl, by simp, hc, ?_⟩
      simp only [appendCourseRecord, updateMatching, List.nil_append]
      rw [if_pos hc]
    · have h1 : hasCourse cs record.courseCode ≠ 0 := by
        simp only [hasCourse, hc, if_false] at h; exact h
      obtain ⟨pre, c1, post, hcs, hpre, hc1, happ⟩ := appendCourseRecord_present cs record h1
      refine ⟨c :: pre, c1, post, by rw [hcs]; rfl, ?_, hc1, ?_⟩
      · intro x hx
        rcases List.mem_cons.1 hx with rfl | hx
        · simpa using hc
        · exact hpre x hx
      · unfold appendCourseRecord at happ ⊢
        simp only [updateMatching]
        rw [if_neg hc]
        cases hu : updateMatching cs record with
        | none => rw [hu] at happ; simp at happ
        | some l =>
          rw [hu] at happ
          simp only [Prod.mk.injEq, and_true] at happ
          simp [happ]

theorem removeCourseRecord_absent : ∀ (cs : List CourseRecord) (code : CStr),
    hasCourse cs code = 0 → removeCourseRecord cs code = (cs, 0)
  | [], _, _ => rfl
  | c :: cs, code, h => by
    by_cases hc : equalsIgnoreCase c.courseCode code ≠ 0
    · simp only [hasCourse] at h; rw [if_pos hc] at h; omega
    · simp only [hasCourse] at h; rw [if_neg hc] at h
      simp only [removeCourseRecord]
      rw [if_neg hc, removeCourseRecord_absent cs code h]

/-- When a code matches, exactly the first matching entry is unlinked. -/
theorem removeCourseRecord_present : ∀ (cs : List CourseRecord) (code : CStr),
    hasCourse cs code ≠ 0 →
    ∃ pre c post, cs = pre ++ c :: post ∧
      (∀ x ∈ pre, equalsIgnoreCase x.courseCode code = 0) ∧
      equalsIgnoreCase c.courseCode code ≠ 0 ∧
      removeCourseRecord cs code = (pre ++ post, 1)
  | [], _, h => by simp [hasCourse] at h
  | c :: cs, code, h => by
    by_cases hc : equalsIgnoreCase c.courseCode code ≠ 0
    · refine ⟨[], c, cs, rfl, by simp, hc, ?_⟩
      simp only [removeCourseRecord, List.nil_append]
      rw [if_pos hc]
    · have h1 : hasCourse cs code ≠ 0 := by
        simp only [hasCourse] at h; rw [if_neg hc] at h; exact h
      obtain ⟨pre, c1, post, hcs, hpre, hc1, hrem⟩ := removeCourseRecord_present cs code h1
      refine ⟨c :: pre, c1, post, by rw [hcs]; rfl, ?_, hc1, ?_⟩
      · intro x hx
        rcases List.mem_cons.1 hx with rfl | hx
        · simpa using hc
        · exact hpre x hx
      · simp only [removeCourseRecord]
        rw [if_neg hc, hrem]; rfl

/-! ## Writing through the pointer returned by `findByID` -/

theorem withCourses_id (id : CStr) (courses : List CourseRecord) (r : StudentRecord) :
    (withCourses id courses r).studentID = r.studentID := by
  unfold withCourses; split <;> rfl

theorem map_withCourses_of_ne (id : CStr) (courses : List CourseRecord) :
    ∀ l : List StudentRecord, (∀ r ∈ l, r.studentID ≠ id) → l.map (withCourses id courses) = l
  | [], _ => rfl
  | a :: l, h => by
    have ha := h a (List.mem_cons_self _ _)
    rw [List.map_cons, map_withCourses_of_ne id courses l
      (fun r hr => h r (List.mem_cons_of_mem _ hr))]
    simp [withCourses, ha]

theorem ne_of_idLt {a b : StudentRecord} (h : idLt a b) : a.studentID ≠ b.studentID := by
  intro heq
  unfold idLt at h
  rw [heq, strcmp_self] at h
  omega

theorem inorder_setCoursesAt (id : CStr) (courses : List CourseRecord) :
    ∀ t : AVLNode, isBST t →
      inorder (setCoursesAt t id courses) = (inorder t).map (withCourses id courses)
  | nil, _ => rfl
  | node d l r h, hbst => by
    obtain ⟨hl, hr, hlt, hgt⟩ := (isBST_node d l r h).1 hbst
    by_cases c3 : strcmp id d.studentID = 0
    · have hid : id = d.studentID := strcmp_eq_zero _ _ c3
      have e1 := map_withCourses_of_ne id courses (inorder l)
        (fun x hx => by rw [hid]; exact ne_of_idLt (hlt x hx))
      have e2 := map_withCourses_of_ne id courses (inorder r)
        (fun x hx => by rw [hid]; exact (ne_of_idLt (hgt x hx)).symm)
      simp only [setCoursesAt, c3, if_true, inorder, List.map_append, List.map_cons, e1, e2]
      simp [withCourses, hid]
    · have hne : d.studentID ≠ id := fun hh => c3 (by rw [hh]; exact strcmp_self id)
      by_cases c1 : strcmp id d.studentID < 0
      · have e2 := map_withCourses_of_ne id courses (inorder r) (fun x hx => by
          have := above_of_lt c1 (hgt x hx)
          intro hh; rw [hh, strcmp_self] at this; omega)
        simp only [setCoursesAt, c3, c1, if_true, if_false, inorder, List.map_append,
          List.map_cons, e2, inorder_setCoursesAt id courses l hl]
        simp [withCourses, hne]
      · have c2 : strcmp id d.studentID > 0 := by omega
        have e1 := map_withCourses_of_ne id courses (inorder l) (fun x hx => by
          have := below_of_gt c2 (hlt x hx)
          intro hh; rw [hh, strcmp_self] at this; omega)
        simp only [setCoursesAt, c3, c1, if_false, inorder, List.map_append,
          List.map_cons, e1, inorder_setCoursesAt id courses r hr]
        simp [withCourses, hne]

theorem filter_map_withCourses (id : CStr) (courses : List CourseRecord) :
    ∀ l : List StudentRecord,
      (l.map (withCourses id courses)).filter (fun r => !hasID id r) =
        l.filter (fun r => !hasID id r)
  | [] => rfl
  | a :: l => by
    have ih := filter_map_withCourses id courses l
    by_cases ha : a.studentID = id
    · have h1 : hasID id a = true := (hasID_iff id a).2 ha
      have h2 : hasID id (withCourses id courses a) = true :=
        (hasID_iff id _).2 (by rw [withCourses_id]; exact ha)
      simp [List.filter_cons, h1, h2, ih]
    · have h3 : withCourses id courses a = a := by simp [withCourses, ha]
      simp [List.filter_cons, h3, ih]

theorem mem_unique_of_sorted {l : List StudentRecord} (hpw : l.Pairwise idLt)
    {a b : StudentRecord} (ha : a ∈ l) (hb : b ∈ l) (hid : a.studentID = b.studentID) :
    a = b := by
  induction l with
  | nil => simp at ha
  | cons x l ih =>
    obtain ⟨hx, hl⟩ := List.pairwise_cons.1 hpw
    rcases List.mem_cons.1 ha with rfl | ha1
    · rcases List.mem_cons.1 hb with rfl | hb1
      · rfl
      · exact absurd hid (ne_of_idLt (hx b hb1))
    · rcases List.mem_cons.1 hb with rfl | hb1
      · exact absurd hid.symm (ne_of_idLt (hx a ha1))
      · exact ih hl ha1 hb1

theorem find_of_mem_sorted (id : CStr) {l : List StudentRecord} (hpw : l.Pairwise idLt)
    {d : StudentRecord} (hd : d ∈ l) (hid : d.studentID = id) :
    l.find? (hasID id) = some d := by
  obtain ⟨d1, hf⟩ := find_some_of_mem id l d hd hid
  have h1 : d1 ∈ l := List.mem_of_find?_eq_some hf
  have h2 : d1.studentID = id := (hasID_iff id d1).1 (List.find?_some hf)
  rw [hf, mem_unique_of_sorted hpw h1 hd (by rw [h2, hid])]

theorem filter_not_hasID (id : CStr) : ∀ l : List StudentRecord, l.Pairwise idLt →
    l.filter (fun r => !hasID id r) = l.filter (below id) ++ l.filter (above id)
  | [], _ => rfl
  | a :: l, hpw => by
    obtain ⟨ha, hl⟩ := List.pairwise_cons.1 hpw
    by_cases c1 : strcmp id a.studentID < 0
    · obtain ⟨s1, _, s3, s4⟩ := split_left [] l c1 ha
      simp only [List.nil_append] at s1 s3 s4
      rw [s1, s3, s4]; rfl
    · by_cases c2 : strcmp id a.studentID > 0
      · obtain ⟨s1, _, s3, s4⟩ := split_right [] l c2 (by simp)
        simp only [List.nil_append] at s1 s3 s4
        rw [s1, s3, s4, List.cons_append]
        exact congrArg _ (filter_not_hasID id l hl)
      · have c3 : strcmp id a.studentID = 0 := by omega
        obtain ⟨s1, _, s3, s4⟩ := split_here [] l c3 (by simp) ha
        simp only [List.nil_append] at s1 s3 s4
        rw [s1, s3, s4]; rfl

theorem filter_not_hasID_eq (id : CStr) (l : List StudentRecord) :
    l.filter (fun r => !hasID id r) = l.filter (fun r => decide (r.studentID ≠ id)) := by
  apply List.filter_congr
  intro r _
  by_cases h : r.studentID = id
  · simp [(hasID_iff id r).2 h, h]
  · have : hasID id r = false := by
      cases hh : hasID id r with
      | false => rfl
      | true => exact absurd ((hasID_iff id r).1 hh) h
    simp [this, h]

/-! ## Ordering and content of the tree after a mutation -/

theorem insertRegistration_isBST (t : AVLNode) (name id major : CStr) (course : CourseRecord)
    (hbst : isBST t) (hlen : id.length < MAX_ID_LEN) :
    isBST (insertRegistration t name id major course).root := by
  unfold isBST
  rw [(insertRegistration_spec name id major course t hbst).1]
  exact pairwise_around id _ _ hbst (registeredRecord_id name id major course _ hlen)

theorem deleteStudent_isBST (t : AVLNode) (id : CStr) (hbst : isBST t) (hfit : recordsFit t) :
    isBST (deleteStudent t id) := by
  unfold isBST
  rw [deleteStudent_spec t id hbst hfit]
  exact List.Pairwise.filter _ hbst

/-- C3. Both mutations preserve the BST ordering: if the in-order traversal of `t` is strictly
increasing in `studentID` under `strcmp` (the records fitting their C buffers), then so is the
in-order traversal of the tree returned by `insertRegistration` for every identifier of at most
31 characters, and of the tree returned by `deleteStudent` for every identifier. The cached
heights play no role, so the balanced trees of the claim are covered. -/
theorem mutations_preserve_bst_order (t : AVLNode) (hbst : isBST t) (hfit : recordsFit t) :
    (∀ (name id major : CStr) (course : CourseRecord), id.length ≤ 31 →
        isBST (insertRegistration t name id major course).root) ∧
      (∀ id : CStr, isBST (deleteStudent t id)) :=
  ⟨fun name id major course hlen =>
      insertRegistration_isBST t name id major course hbst
        (by simp only [MAX_ID_LEN]; omega),
    fun id => deleteStudent_isBST t id hbst hfit⟩

/-- Inserting 12347 between the students of the three-student tree and deleting its root. -/
theorem mutations_preserve_bst_order_witness :
    isBST (insertRegistration threeStudentTree (bytes "Lina Adel") (bytes "12347") (bytes "IT")
        cs101).root ∧
      isBST (deleteStudent threeStudentTree (bytes "12350")) :=
  ⟨(mutations_preserve_bst_order threeStudentTree (by decide) (by decide)).1
      (bytes "Lina Adel") (bytes "12347") (bytes "IT") cs101 (by decide),
    (mutations_preserve_bst_order threeStudentTree (by decide) (by decide)).2 (bytes "12350")⟩

/-- C4. Insertion never duplicates a student and touches no other student. For a BST-ordered
tree and an identifier of at most 31 characters the in-order sequence of the result is
`pre ++ new :: post` where `new` holds `id` and no record of `pre` or `post` does; when `id` was
absent the old sequence is `pre ++ post` and the node count grows by one; when `id` was present
the old sequence is `pre ++ old :: post` with `old` holding `id`, and the node count is
unchanged; the result is again strictly increasing, so `new` sits at the sorted position; and
`findByID` on the result returns a node whose identifier is `id`. -/
theorem insertRegistration_no_duplicate (t : AVLNode) (name id major : CStr)
    (course : CourseRecord) (hbst : isBST t) (hlen : id.length ≤ 31) :
    (∃ pre new post,
        inorder (insertRegistration t name id major course).root = pre ++ new :: post ∧
        new.studentID = id ∧ (∀ r ∈ pre ++ post, r.studentID ≠ id) ∧
        ((∀ r ∈ inorder t, r.studentID ≠ id) →
          inorder t = pre ++ post ∧
          countStudents (insertRegistration t name id major course).root =
            countStudents t + 1) ∧
        ((∃ r ∈ inorder t, r.studentID = id) →
          (∃ old, old.studentID = id ∧ inorder t = pre ++ old :: post) ∧
          countStudents (insertRegistration t name id major course).root = countStudents t)) ∧
      isBST (insertRegistration t name id major course).root ∧
      (∃ d l r h, findByID (insertRegistration t name id major course).root id =
          some (node d l r h) ∧ d.studentID = id) := by
  have hlen1 : id.length < MAX_ID_LEN := by simp only [MAX_ID_LEN]; omega
  have hspec := (insertRegistration_spec name id major course t hbst).1
  have hnew := registeredRecord_id name id major course (inorder t) hlen1
  have hbst1 := insertRegistration_isBST t name id major course hbst hlen1
  have hpart := sorted_partition id (inorder t) hbst
  refine ⟨⟨(inorder t).filter (below id), _, (inorder t).filter (above id), hspec, hnew,
    ?_, ?_, ?_⟩, hbst1, ?_⟩
  · intro r hr heq
    rcases List.mem_append.1 hr with h | h
    · have := (List.mem_filter.1 h).2
      simp only [below, decide_eq_true_eq] at this
      rw [heq, strcmp_self] at this; omega
    · have := (List.mem_filter.1 h).2
      simp only [above, decide_eq_true_eq] at this
      rw [heq, strcmp_self] at this; omega
  · intro habs
    have hnone := find_none_of_absent id (inorder t) habs
    rw [hnone] at hpart
    refine ⟨by simpa using hpart, ?_⟩
    rw [countStudents_eq_length, countStudents_eq_length, hspec]
    conv_rhs => rw [hpart]
    simp only [List.length_append, List.length_cons, Option.toList, List.length_nil]
    push_cast; ring
  · rintro ⟨r, hr, hrid⟩
    obtain ⟨d, hd⟩ := find_some_of_mem id (inorder t) r hr hrid
    rw [hd] at hpart
    refine ⟨⟨d, (hasID_iff id d).1 (List.find?_some hd), by simpa using hpart⟩, ?_⟩
    rw [countStudents_eq_length, countStudents_eq_length, hspec]
    conv_rhs => rw [hpart]
    simp only [List.length_append, List.length_cons, Option.toList, List.length_nil]
    push_cast; ring
  · have hfind : (inorder (insertRegistration t name id major course).root).find? (hasID id) =
        some (registeredRecord name id major course ((inorder t).find? (hasID id))) :=
      find_of_mem_sorted id hbst1 (by rw [hspec]; simp) hnew
    obtain ⟨l, r, h, hf⟩ := findByID_of_find id _ hbst1 _ hfind
    exact ⟨_, l, r, h, hf, hnew⟩

/-- Registering a course for the new student 12347 and for the present student 12350. -/
theorem insertRegistration_no_duplicate_witness :
    countStudents (insertRegistration threeStudentTree (bytes "Lina Adel") (bytes "12347")
        (bytes "IT") cs101).root = 4 ∧
      (∃ d l r h, findByID (insertRegistration threeStudentTree (bytes "Lina Adel")
          (bytes "12347") (bytes "IT") cs101).root (bytes "12347") = some (node d l r h) ∧
        d.studentID = bytes "12347") :=
  ⟨by decide,
    (insertRegistration_no_duplicate threeStudentTree (bytes "Lina Adel") (bytes "12347")
      (bytes "IT") cs101 (by decide) (by decide)).2.2⟩

/-- Counterexample to C5 as stated: student 12345 is present and a name of 128 letters `A` is
submitted; the name stored afterwards is not the submitted one (`strncpy` keeps 127 bytes). -/
theorem insertRegistration_name_not_overwritten_verbatim :
    (∃ d ∈ inorder oneCourseTree, d.studentID = bytes "12345") ∧
      (insertRegistration oneCourseTree (List.replicate 128 65) (bytes "12345") (bytes "CS")
        cs102).newStudent = 0 ∧
      ¬ ∃ d ∈ inorder (insertRegistration oneCourseTree (List.replicate 128 65) (bytes "12345")
          (bytes "CS") cs102).root,
        d.studentID = bytes "12345" ∧ d.name = List.replicate 128 65 := by
  decide

/-- C5 (amended). Effect of `insertRegistration` on the target record and the flags, for a
BST-ordered tree and a course entry that fits `struct CourseRecord`. If `id` is absent, both
flags are 1 and the new record, placed between the records below and above `id`, holds the
first 127 bytes of name and major, the first 31 bytes of `id` and the course list `[course]`.
If `id` is held by `d`, `newStudent` is 0 and the record is replaced by one with the first 127
bytes of the submitted name and major and the course list `courses1`: when no code of
`d.courses` equals the new code ignoring case, `courses1` is `d.courses ++ [course]` and
`newCourse` is 1; otherwise `newCourse` is 0 and the first matching entry keeps its code and
gets title, credit hours and semester of `course`, everything else unchanged. Registering CS101
and then CS102 for 12345 gives one node with the course list `[CS101, CS102]`. -/
theorem insertRegistration_effect (t : AVLNode) (name id major : CStr) (course : CourseRecord)
    (hbst : isBST t) (hcourse : courseFits course) :
    ((∀ r ∈ inorder t, r.studentID ≠ id) →
        (insertRegistration t name id major course).newStudent = 1 ∧
        (insertRegistration t name id major course).newCourse = 1 ∧
        inorder (insertRegistration t name id major course).root =
          (inorder t).filter (below id) ++
            { name := name.take 127, studentID := id.take 31, major := major.take 127,
              courses := [course] } :: (inorder t).filter (above id)) ∧
      (∀ d ∈ inorder t, d.studentID = id →
        (insertRegistration t name id major course).newStudent = 0 ∧
        ∃ courses1,
          inorder (insertRegistration t name id major course).root =
            (inorder t).filter (below id) ++
              { name := name.take 127, studentID := id, major := major.take 127,
                courses := courses1 } :: (inorder t).filter (above id) ∧
          (hasCourse d.courses course.courseCode = 0 →
            (insertRegistration t name id major course).newCourse = 1 ∧
            courses1 = d.courses ++ [course]) ∧
          (hasCourse d.courses course.courseCode ≠ 0 →
            (insertRegistration t name id major course).newCourse = 0 ∧
            ∃ pre c post, d.courses = pre ++ c :: post ∧
              (∀ x ∈ pre, equalsIgnoreCase x.courseCode course.courseCode = 0) ∧
              equalsIgnoreCase c.courseCode course.courseCode ≠ 0 ∧
              courses1 = pre ++ { courseCode := c.courseCode
                                  courseTitle := course.courseTitle
                                  creditHours := course.creditHours
                                  semester := course.semester } :: post)) ∧
      inorder twoCourseTree =
        [{ name := bytes "Ali Hassan", studentID := bytes "12345", major := bytes "CS",
           courses := [cs101, cs102] }] := by
  obtain ⟨hspec, hns, hnc⟩ := insertRegistration_spec name id major course t hbst
  refine ⟨?_, ?_, by decide⟩
  · intro habs
    have hnone := find_none_of_absent id (inorder t) habs
    rw [hnone] at hspec hns hnc
    exact ⟨hns, hnc, hspec⟩
  · intro d hd hid
    have hsome := find_of_mem_sorted id hbst hd hid
    rw [hsome] at hspec hns hnc
    have hnc1 : (insertRegistration t name id major course).newCourse =
        (appendCourseRecord d.courses course).2 := hnc
    refine ⟨hns, (appendCourseRecord d.courses course).1, ?_, ?_, ?_⟩
    · rw [hspec]; simp only [registeredRecord, copyBounded, MAX_NAME_LEN, MAX_MAJOR_LEN, hid]
    · intro habsent
      rw [hnc1, appendCourseRecord_absent _ _ habsent]
      exact ⟨rfl, rfl⟩
    · intro hpres
      obtain ⟨pre, c, post, hcs, hpre, hc, happ⟩ := appendCourseRecord_present _ _ hpres
      rw [hnc1, happ]
      refine ⟨rfl, pre, c, post, hcs, hpre, hc, ?_⟩
      simp only [copyBounded_of_lt _ _ hcourse.2.1, copyBounded_of_lt _ _ hcourse.2.2]

/-- The second registration of the example scenario: CS102 for the present student 12345. -/
theorem insertRegistration_effect_witness :
    (insertRegistration oneCourseTree (bytes "Ali Hassan") (bytes "12345") (bytes "CS")
        cs102).newStudent = 0 ∧
      inorder twoCourseTree =
        [{ name := bytes "Ali Hassan", studentID := bytes "12345", major := bytes "CS",
           courses := [cs101, cs102] }] :=
  ⟨((insertRegistration_effect oneCourseTree (bytes "Ali Hassan") (bytes "12345") (bytes "CS")
      cs102 (by decide) (by decide)).2.1 _ (List.mem_singleton_self _) (by decide)).1,
    (insertRegistration_effect oneCourseTree (bytes "Ali Hassan") (bytes "12345") (bytes "CS")
      cs102 (by decide) (by decide)).2.2⟩

/-- Evaluation at the failing input of C6: the same registration with an identifier of 32
digits `1`, applied twice to the empty tree, leaves two nodes that store the same 31 digits;
the second call reports a new student. -/
theorem insertRegistration_long_id_twice :
    countStudents (insertRegistration nil (bytes "Ali Hassan") (List.replicate 32 49)
        (bytes "CS") cs101).root = 1 ∧
      countStudents (insertRegistration (insertRegistration nil (bytes "Ali Hassan")
        (List.replicate 32 49) (bytes "CS") cs101).root (bytes "Ali Hassan")
        (List.replicate 32 49) (bytes "CS") cs101).root = 2 ∧
      (insertRegistration (insertRegistration nil (bytes "Ali Hassan")
        (List.replicate 32 49) (bytes "CS") cs101).root (bytes "Ali Hassan")
        (List.replicate 32 49) (bytes "CS") cs101).newStudent = 1 ∧
      (inorder (insertRegistration (insertRegistration nil (bytes "Ali Hassan")
        (List.replicate 32 49) (bytes "CS") cs101).root (bytes "Ali Hassan")
        (List.replicate 32 49) (bytes "CS") cs101).root).map (fun r => r.studentID) =
        [List.replicate 31 49, List.replicate 31 49] := by
  decide

/-- C7. Deletion removes exactly the requested student: on a BST-ordered tree (records fitting
their C buffers) the in-order sequence of student records of `deleteStudent t id` is that of
`t` without the record whose identifier is `id`, every other record being kept whole and in
order, also when the deleted node has two children; it is the sequence of `t` itself when `id`
is absent; and `findByID` does not find `id` in the result. -/
theorem deleteStudent_removes_exactly (t : AVLNode) (id : CStr) (hbst : isBST t)
    (hfit : recordsFit t) :
    inorder (deleteStudent t id) = (inorder t).filter (fun r => decide (r.studentID ≠ id)) ∧
      ((∀ r ∈ inorder t, r.studentID ≠ id) → inorder (deleteStudent t id) = inorder t) ∧
      findByID (deleteStudent t id) id = none := by
  have hspec : inorder (deleteStudent t id) =
      (inorder t).filter (fun r => decide (r.studentID ≠ id)) := by
    rw [deleteStudent_spec t id hbst hfit, filter_not_hasID_eq]
  refine ⟨hspec, ?_, ?_⟩
  · intro habs
    rw [hspec, List.filter_eq_self]
    intro r hr
    simpa using habs r hr
  · rw [findByID_eq_none_iff id _ (deleteStudent_isBST t id hbst hfit), hspec]
    intro r hr
    simpa using (List.mem_filter.1 hr).2

/-- Deleting the root 12350 of the three-student tree, which has two children. -/
theorem deleteStudent_removes_exactly_witness :
    (inorder (deleteStudent threeStudentTree (bytes "12350"))).map (fun r => r.studentID) =
        [bytes "12345", bytes "12360"] ∧
      findByID (deleteStudent threeStudentTree (bytes "12350")) (bytes "12350") = none :=
  ⟨by decide,
    (deleteStudent_removes_exactly threeStudentTree (bytes "12350") (by decide)
      (by decide)).2.2⟩

/-! ## Removing a registration -/

theorem removeCourseRecord_at (code : CStr) (c : CourseRecord) (post : List CourseRecord)
    (hc : equalsIgnoreCase c.courseCode code ≠ 0) :
    ∀ pre : List CourseRecord, (∀ x ∈ pre, equalsIgnoreCase x.courseCode code = 0) →
      removeCourseRecord (pre ++ c :: post) code = (pre ++ post, 1)
  | [], _ => by
    simp only [List.nil_append, removeCourseRecord]
    rw [if_pos hc]
  | a :: pre, h => by
    have ha : ¬ equalsIgnoreCase a.courseCode code ≠ 0 := by
      simpa using h a (List.mem_cons_self _ _)
    have ih := removeCourseRecord_at code c post hc pre
      (fun x hx => h x (List.mem_cons_of_mem _ hx))
    rw [List.cons_append, removeCourseRecord, if_neg ha, ih]
    rfl

theorem isBST_setCoursesAt (t : AVLNode) (id : CStr) (courses : List CourseRecord)
    (hbst : isBST t) : isBST (setCoursesAt t id courses) := by
  unfold isBST
  rw [inorder_setCoursesAt id courses t hbst, List.pairwise_map]
  refine List.Pairwise.imp ?_ hbst
  intro a b hab
  unfold idLt
  rw [withCourses_id, withCourses_id]
  exact hab

theorem recordsFit_setCoursesAt (t : AVLNode) (id : CStr) (courses : List CourseRecord)
    (hbst : isBST t) (hfit : recordsFit t) (hc : ∀ c ∈ courses, courseFits c) :
    recordsFit (setCoursesAt t id courses) := by
  unfold recordsFit
  rw [inorder_setCoursesAt id courses t hbst]
  intro x hx
  obtain ⟨r, hr, rfl⟩ := List.mem_map.1 hx
  have hrf := hfit r hr
  unfold withCourses
  split
  · exact ⟨hrf.1, hrf.2.1, hrf.2.2.1, hc⟩
  · exact hrf

/-- C8. Removing a registration as `deleteRegistrationFlow` does, on a BST-ordered tree (records
fitting their C buffers) that holds the student `d` with identifier `id`. If the only course of
`d` has a code equal to `code` ignoring case, the student is deleted: `findByID` no longer finds
`id`, the node count is one less and all other records are kept. If `d` has further courses
(`pre ++ c :: post` with `c` the first match and `pre ++ post` non-empty) the node stays with
the course list `pre ++ post`, every other record unchanged. Removing CS101 and then CS102 from
the student of the example scenario deletes the node. -/
theorem deleteRegistrationFlow_effect (t : AVLNode) (id code : CStr) (d : StudentRecord)
    (hbst : isBST t) (hfit : recordsFit t) (hd : d ∈ inorder t) (hid : d.studentID = id) :
    ((∃ c, d.courses = [c] ∧ equalsIgnoreCase c.courseCode code ≠ 0) →
        findByID (deleteRegistrationFlow t id code) id = none ∧
        countStudents (deleteRegistrationFlow t id code) = countStudents t - 1 ∧
        inorder (deleteRegistrationFlow t id code) =
          (inorder t).filter (fun r => decide (r.studentID ≠ id))) ∧
      (∀ pre c post, d.courses = pre ++ c :: post →
        (∀ x ∈ pre, equalsIgnoreCase x.courseCode code = 0) →
        equalsIgnoreCase c.courseCode code ≠ 0 → pre ++ post ≠ [] →
        inorder (deleteRegistrationFlow t id code) =
          (inorder t).map (withCourses id (pre ++ post)) ∧
        countStudents (deleteRegistrationFlow t id code) = countStudents t ∧
        ∃ l r h, findByID (deleteRegistrationFlow t id code) id =
          some (node { name := d.name, studentID := d.studentID, major := d.major,
                       courses := pre ++ post } l r h)) ∧
      findByID (deleteRegistrationFlow (deleteRegistrationFlow twoCourseTree (bytes "12345")
        (bytes "CS101")) (bytes "12345") (bytes "CS102")) (bytes "12345") = none := by
  have hfindL := find_of_mem_sorted id hbst hd hid
  obtain ⟨l0, r0, h0, hfind⟩ := findByID_of_find id t hbst d hfindL
  refine ⟨?_, ?_, by decide⟩
  · rintro ⟨c, hcs, hc⟩
    have hrem : removeCourseRecord d.courses code = ([], 1) := by
      rw [hcs]; exact removeCourseRecord_at code c [] hc [] (by simp)
    have hflow : deleteRegistrationFlow t id code = deleteStudent (setCoursesAt t id []) id := by
      simp [deleteRegistrationFlow, hfind, hrem]
    have hb1 := isBST_setCoursesAt t id [] hbst
    have hf1 := recordsFit_setCoursesAt t id [] hbst hfit (by simp)
    have hin : inorder (deleteRegistrationFlow t id code) =
        (inorder t).filter (fun r => !hasID id r) := by
      rw [hflow, deleteStudent_spec _ id hb1 hf1, inorder_setCoursesAt id [] t hbst,
        filter_map_withCourses]
    refine ⟨?_, ?_, ?_⟩
    · rw [hflow, findByID_eq_none_iff id _ (deleteStudent_isBST _ id hb1 hf1), ← hflow, hin]
      intro r hr heq
      have := (List.mem_filter.1 hr).2
      simp [(hasID_iff id r).2 heq] at this
    · have hpart := sorted_partition id (inorder t) hbst
      rw [hfindL] at hpart
      rw [countStudents_eq_length, countStudents_eq_length, hin, filter_not_hasID id _ hbst]
      conv_rhs => rw [hpart]
      simp only [List.length_append, List.length_cons, Option.toList, List.length_nil]
      push_cast; ring
    · rw [hin, filter_not_hasID_eq]
  · intro pre c post hcs hpre hc hne
    have hrem : removeCourseRecord d.courses code = (pre ++ post, 1) := by
      rw [hcs]; exact removeCourseRecord_at code c post hc pre hpre
    have hflow : deleteRegistrationFlow t id code = setCoursesAt t id (pre ++ post) := by
      simp only [deleteRegistrationFlow, hfind, hrem]
      simp [hne]
    have hin := inorder_setCoursesAt id (pre ++ post) t hbst
    have hb1 := isBST_setCoursesAt t id (pre ++ post) hbst
    refine ⟨by rw [hflow, hin], ?_, ?_⟩
    · rw [countStudents_eq_length, countStudents_eq_length, hflow, hin, List.length_map]
    · have hmem : withCourses id (pre ++ post) d ∈ inorder (setCoursesAt t id (pre ++ post)) := by
        rw [hin]; exact List.mem_map_of_mem _ hd
      have hval : withCourses id (pre ++ post) d =
          { name := d.name, studentID := d.studentID, major := d.major,
            courses := pre ++ post } := by simp [withCourses, hid]
      have hf := find_of_mem_sorted id hb1 hmem (by rw [withCourses_id]; exact hid)
      obtain ⟨l, r, h, hres⟩ := findByID_of_find id _ hb1 _ hf
      exact ⟨l, r, h, by rw [hflow, hres, hval]⟩

/-- The example scenario: after CS101 is removed, CS102 is the last course of student 12345
and removing it (written in lower case) deletes the node. -/
theorem deleteRegistrationFlow_effect_witness :
    findByID (deleteRegistrationFlow oneCourseTree (bytes "12345") (bytes "cs101"))
        (bytes "12345") = none ∧
      countStudents (deleteRegistrationFlow oneCourseTree (bytes "12345") (bytes "cs101")) =
        countStudents oneCourseTree - 1 :=
  ⟨((deleteRegistrationFlow_effect oneCourseTree (bytes "12345") (bytes "cs101")
      { name := bytes "Ali Hassan", studentID := bytes "12345", major := bytes "CS",
        courses := [cs101] } (by decide) (by decide) (by decide) (by decide)).1
      ⟨cs101, rfl, by decide⟩).1,
    ((deleteRegistrationFlow_effect oneCourseTree (bytes "12345") (bytes "cs101")
      { name := bytes "Ali Hassan", studentID := bytes "12345", major := bytes "CS",
        courses := [cs101] } (by decide) (by decide) (by decide) (by decide)).1
      ⟨cs101, rfl, by decide⟩).2.1⟩

/-! ## Text level of the codec: `%d` and `atoi` -/

/-- Value accumulated by the digit loop of `atoi` over the bytes `ds`. -/
theorem atoiDigits_append_digits : ∀ (ds tail : CStr) (v : Int),
    (∀ c ∈ ds, isdigit c = true) →
    atoiDigits (ds ++ tail) v =
      atoiDigits tail (ds.foldl (fun (a : Int) (c : Nat) => a * 10 + ((c : Int) - 48)) v)
  | [], _, _, _ => rfl
  | d :: ds, tail, v, h => by
    have hd := h d (List.mem_cons_self _ _)
    simp only [List.cons_append, atoiDigits, hd, if_true, List.foldl_cons]
    exact atoiDigits_append_digits ds tail _ (fun c hc => h c (List.mem_cons_of_mem _ hc))

theorem natDigitsAux_spec : ∀ (fuel n : Nat) (acc : CStr), n < fuel →
    ∃ ds : CStr, natDigitsAux fuel n acc = ds ++ acc ∧ ds ≠ [] ∧
      (∀ c ∈ ds, isdigit c = true) ∧
      ∀ v : Int, ds.foldl (fun (a : Int) (c : Nat) => a * 10 + ((c : Int) - 48)) v =
        v * 10 ^ ds.length + n
  | 0, _, _, h => by omega
  | fuel + 1, n, acc, h => by
    by_cases hn : n < 10
    · refine ⟨[48 + n], by simp [natDigitsAux, hn], by simp, ?_, ?_⟩
      · intro c hc
        simp only [List.mem_singleton] at hc
        subst hc
        simp only [isdigit, Bool.and_eq_true, decide_eq_true_eq]
        omega
      · intro v
        simp only [List.foldl_cons, List.foldl_nil, List.length_singleton, pow_one]
        push_cast; ring
    · obtain ⟨ds, hds, _, hdig, hval⟩ :=
        natDigitsAux_spec fuel (n / 10) ((48 + n % 10) :: acc) (by omega)
      refine ⟨ds ++ [48 + n % 10], ?_, by simp, ?_, ?_⟩
      · simp only [natDigitsAux, hn, if_false, hds, List.append_assoc, List.singleton_append]
      · intro c hc
        rcases List.mem_append.1 hc with hc | hc
        · exact hdig c hc
        · simp only [List.mem_singleton] at hc
          subst hc
          simp only [isdigit, Bool.and_eq_true, decide_eq_true_eq]
          omega
      · intro v
        rw [List.foldl_append, hval]
        simp only [List.foldl_cons, List.foldl_nil, List.length_append, List.length_singleton]
        have h10 : (n : Int) = (n / 10 : Nat) * 10 + (n % 10 : Nat) := by
          have := Nat.div_add_mod n 10
          omega
        push_cast
        rw [pow_succ]
        push_cast at h10
        linear_combination (-1 : Int) * h10

theorem natDigits_spec (n : Nat) :
    natDigits n ≠ [] ∧ (∀ c ∈ natDigits n, isdigit c = true) ∧ atoiDigits (natDigits n) 0 = n := by
  obtain ⟨ds, hds, hne, hdig, hval⟩ := natDigitsAux_spec (n + 1) n [] (by omega)
  have heq : natDigits n = ds := by unfold natDigits; rw [hds, List.append_nil]
  rw [heq]
  refine ⟨hne, hdig, ?_⟩
  have := atoiDigits_append_digits ds [] 0 hdig
  rw [List.append_nil] at this
  rw [this, hval 0]
  simp [atoiDigits]

theorem isdigit_facts (c : Nat) (h : isdigit c = true) :
    isspace c = false ∧ c ≠ 45 ∧ c ≠ 43 ∧ c ≠ 35 ∧ c ≠ 10 := by
  simp only [isdigit, Bool.and_eq_true, decide_eq_true_eq] at h
  refine ⟨?_, by omega, by omega, by omega, by omega⟩
  simp only [isspace, Bool.or_eq_false_iff, beq_eq_false_iff_ne, ne_eq, Bool.and_eq_false_iff,
    decide_eq_false_iff_not]
  omega

/-- The value printed by `%d` is read back by `atoi`. -/
theorem atoi_printInt (h : Int) : atoi (printInt h) = h := by
  unfold printInt
  split
  · rename_i hneg
    obtain ⟨_, _, hval⟩ := natDigits_spec h.natAbs
    have hsp : isspace 45 = false := by decide
    simp only [atoi, List.dropWhile_cons, hsp, Bool.false_eq_true, if_false]
    rw [hval]
    omega
  · rename_i hpos
    obtain ⟨hne, hdig, hval⟩ := natDigits_spec h.toNat
    cases hds : natDigits h.toNat with
    | nil => exact absurd hds hne
    | cons c cs =>
      rw [hds] at hdig hval
      obtain ⟨hsp, h45, h43, _, _⟩ := isdigit_facts c (hdig c (List.mem_cons_self _ _))
      simp only [atoi, List.dropWhile_cons, hsp]
      split
      · rename_i heq; simp only [Bool.false_eq_true, if_false, List.cons.injEq] at heq; omega
      · rename_i heq; simp only [Bool.false_eq_true, if_false, List.cons.injEq] at heq; omega
      · simp only [Bool.false_eq_true, if_false]
        rw [hval]; omega

theorem printInt_clean (h : Int) : cleanField (printInt h) := by
  unfold printInt cleanField
  split
  · obtain ⟨_, hdig, _⟩ := natDigits_spec h.natAbs
    refine ⟨by simp, ?_⟩
    intro c hc
    rcases List.mem_cons.1 hc with rfl | hc
    · exact ⟨by decide, by decide⟩
    · obtain ⟨_, _, _, h1, h2⟩ := isdigit_facts c (hdig c hc)
      exact ⟨h1, h2⟩
  · obtain ⟨hne, hdig, _⟩ := natDigits_spec h.toNat
    refine ⟨hne, ?_⟩
    intro c hc
    obtain ⟨_, _, _, h1, h2⟩ := isdigit_facts c (hdig c hc)
    exact ⟨h1, h2⟩

/-! ## Text level of the codec: lines and tokens -/

theorem takeWhile_line : ∀ (body rest : CStr), (∀ c ∈ body, c ≠ 10) →
    (body ++ 10 :: rest).takeWhile (fun c => c != 10) = body
  | [], _, _ => by simp
  | b :: body, rest, h => by
    have hb := h b (List.mem_cons_self _ _)
    have ih := takeWhile_line body rest (fun c hc => h c (List.mem_cons_of_mem _ hc))
    simp only [List.cons_append, List.takeWhile_cons, bne_iff_ne, ne_eq, hb, not_false_eq_true,
      decide_True, if_true, ih]

theorem fgetsAux_line : ∀ (body rest : CStr) (room : Nat), (∀ c ∈ body, c ≠ 10) →
    body.length < room → fgetsAux room (body ++ 10 :: rest) = (body ++ [10], rest)
  | [], rest, room, _, hr => by
    cases room with
    | zero => simp at hr
    | succ room => simp [fgetsAux]
  | b :: body, rest, room, h, hr => by
    cases room with
    | zero => simp at hr
    | succ room =>
      have hb := h b (List.mem_cons_self _ _)
      have ih := fgetsAux_line body rest room (fun c hc => h c (List.mem_cons_of_mem _ hc))
        (by simp only [List.length_cons] at hr; omega)
      rw [List.cons_append, fgetsAux, if_neg hb, ih]
      rfl

theorem dropWhile_hash_field (f rest : CStr) (hf : cleanField f) :
    (f ++ rest).dropWhile (fun c => c == 35) = f ++ rest := by
  obtain ⟨hne, hall⟩ := hf
  cases f with
  | nil => exact absurd rfl hne
  | cons a f =>
    have ha := (hall a (List.mem_cons_self _ _)).1
    simp [List.dropWhile_cons, ha]

theorem takeWhile_field : ∀ (f rest : CStr), (∀ c ∈ f, c ≠ 35 ∧ c ≠ 10) →
    (f ++ 35 :: rest).takeWhile (fun c => c != 35) = f ∧
      (f ++ 35 :: rest).dropWhile (fun c => c != 35) = 35 :: rest
  | [], _, _ => by simp
  | a :: f, rest, h => by
    have ha := (h a (List.mem_cons_self _ _)).1
    have ih := takeWhile_field f rest (fun c hc => h c (List.mem_cons_of_mem _ hc))
    simp only [List.cons_append, List.takeWhile_cons, List.dropWhile_cons, bne_iff_ne, ne_eq, ha,
      not_false_eq_true, decide_True, if_true, ih, and_self]

theorem takeWhile_field_end : ∀ (f : CStr), (∀ c ∈ f, c ≠ 35 ∧ c ≠ 10) →
    f.takeWhile (fun c => c != 35) = f ∧ f.dropWhile (fun c => c != 35) = []
  | [], _ => by simp
  | a :: f, h => by
    have ha := (h a (List.mem_cons_self _ _)).1
    have ih := takeWhile_field_end f (fun c hc => h c (List.mem_cons_of_mem _ hc))
    simp only [List.takeWhile_cons, List.dropWhile_cons, bne_iff_ne, ne_eq, ha,
      not_false_eq_true, decide_True, if_true, ih, and_self]

theorem strtok_field (f rest : CStr) (hf : cleanField f) :
    strtok (f ++ 35 :: rest) = some (f, rest) := by
  have h1 := dropWhile_hash_field f (35 :: rest) hf
  have h2 := takeWhile_field f rest hf.2
  have hne : f ++ 35 :: rest ≠ [] := by simp
  simp only [strtok, h1, hne, if_false, h2.1, h2.2, List.drop_one, List.tail_cons]

theorem strtok_last (f : CStr) (hf : cleanField f) : strtok f = some (f, []) := by
  have h1 := dropWhile_hash_field f [] hf
  rw [List.append_nil] at h1
  have h2 := takeWhile_field_end f hf.2
  simp only [strtok, h1, hf.1, if_false, h2.1, h2.2, List.drop_nil]

theorem collectTokens_seven (f1 f2 f3 f4 f5 f6 f7 : CStr)
    (h1 : cleanField f1) (h2 : cleanField f2) (h3 : cleanField f3) (h4 : cleanField f4)
    (h5 : cleanField f5) (h6 : cleanField f6) (h7 : cleanField f7) :
    collectTokens 7 (f1 ++ 35 :: (f2 ++ 35 :: (f3 ++ 35 :: (f4 ++ 35 :: (f5 ++ 35 ::
      (f6 ++ 35 :: f7)))))) = [f1, f2, f3, f4, f5, f6, f7] := by
  simp only [collectTokens, strtok_field _ _ h1, strtok_field _ _ h2, strtok_field _ _ h3,
    strtok_field _ _ h4, strtok_field _ _ h5, strtok_field _ _ h6, strtok_last _ h7]

theorem trim_of_no_space (s : CStr) (h1 : noLeadingSpace s) (h2 : noTrailingSpace s) :
    trim s = s := by
  have drop_id : ∀ l : CStr, noLeadingSpace l → l.dropWhile isspace = l := by
    intro l hl
    cases l with
    | nil => rfl
    | cons a l =>
      have := hl a rfl
      simp [List.dropWhile_cons, this]
  unfold trim
  simp only [drop_id s h1, drop_id s.reverse h2, List.reverse_reverse]

theorem noLeadingSpace_append (a b : CStr) (ha : a ≠ []) (h : noLeadingSpace a) :
    noLeadingSpace (a ++ b) := by
  cases a with
  | nil => exact absurd rfl ha
  | cons x a => intro c hc; exact h c (by simpa using hc)

theorem noTrailingSpace_append (a b : CStr) (hb : b ≠ []) (h : noTrailingSpace b) :
    noTrailingSpace (a ++ b) := by
  unfold noTrailingSpace at h ⊢
  rw [List.reverse_append]
  exact noLeadingSpace_append _ _ (by simpa using hb) h

theorem noTrailingSpace_cons (x : Nat) (b : CStr) (hb : b ≠ []) (h : noTrailingSpace b) :
    noTrailingSpace (x :: b) :=
  noTrailingSpace_append [x] b hb h

theorem formatLine_eq (d : StudentRecord) (c : CourseRecord) :
    formatLine d c = lineBody d c ++ [10] := by
  simp [formatLine, lineBody]

theorem lineBody_no_newline (d : StudentRecord) (c : CourseRecord) (hd : recordClean d)
    (hc : courseClean c) : ∀ x ∈ lineBody d c, x ≠ 10 := by
  obtain ⟨hn, _, _, hi, _, hm, _, _, _, _⟩ := hd
  obtain ⟨hcode, htitle, hsem, _, _⟩ := hc
  have hp := printInt_clean c.creditHours
  intro x hx
  simp only [lineBody, List.mem_append, List.mem_cons] at hx
  rcases hx with h | rfl | h | rfl | h | rfl | h | rfl | h | rfl | h | rfl | h
  · exact (hn.2 x h).2
  · decide
  · exact (hi.2 x h).2
  · decide
  · exact (hm.2 x h).2
  · decide
  · exact (hcode.2 x h).2
  · decide
  · exact (htitle.2 x h).2
  · decide
  · exact (hp.2 x h).2
  · decide
  · exact (hsem.2 x h).2

theorem createCourseRecord_of_fit (c : CourseRecord) (h : courseFits c) :
    createCourseRecord c.courseCode c.courseTitle c.creditHours c.semester = c := by
  simp only [createCourseRecord, copyBounded_of_lt _ _ h.1, copyBounded_of_lt _ _ h.2.1,
    copyBounded_of_lt _ _ h.2.2]

/-- One saved line is read back as the registration it was written from. -/
theorem loadLine_formatLine (d : StudentRecord) (c : CourseRecord) (state : AVLNode × Int)
    (hd : recordClean d) (hc : courseClean c) :
    loadLine (formatLine d c) state =
      ((insertRegistration state.1 d.name d.studentID d.major c).root, state.2 + 1) := by
  have hnl := lineBody_no_newline d c hd hc
  obtain ⟨hn, _, hlead, hi, _, hm, _, _, _, _⟩ := hd
  obtain ⟨hcode, htitle, hsem, hfit, htrail⟩ := hc
  have hp := printInt_clean c.creditHours
  have hcut : (formatLine d c).takeWhile (fun x => x != 10) = lineBody d c := by
    rw [formatLine_eq]; exact takeWhile_line _ [] hnl
  have hlead1 : noLeadingSpace (lineBody d c) := noLeadingSpace_append _ _ hn.1 hlead
  have htrail1 : noTrailingSpace (lineBody d c) := by
    unfold lineBody
    refine noTrailingSpace_append _ _ (by simp) (noTrailingSpace_cons _ _ (by simp) ?_)
    refine noTrailingSpace_append _ _ (by simp) (noTrailingSpace_cons _ _ (by simp) ?_)
    refine noTrailingSpace_append _ _ (by simp) (noTrailingSpace_cons _ _ (by simp) ?_)
    refine noTrailingSpace_append _ _ (by simp) (noTrailingSpace_cons _ _ (by simp) ?_)
    refine noTrailingSpace_append _ _ (by simp) (noTrailingSpace_cons _ _ (by simp) ?_)
    exact noTrailingSpace_append _ _ (by simp) (noTrailingSpace_cons _ _ hsem.1 htrail)
  have htrim : trim (lineBody d c) = lineBody d c := trim_of_no_space _ hlead1 htrail1
  have htok : collectTokens 7 (lineBody d c) =
      [d.name, d.studentID, d.major, c.courseCode, c.courseTitle, printInt c.creditHours,
        c.semester] := collectTokens_seven _ _ _ _ _ _ _ hn hi hm hcode htitle hp hsem
  have hlen : (lineBody d c).length ≠ 0 := by
    have : lineBody d c ≠ [] := by unfold lineBody; simp
    simpa using this
  simp only [loadLine, hcut, htrim, hlen, if_false, htok, List.length_cons, List.length_nil,
    ne_eq, not_true_eq_false, atoi_printInt, createCourseRecord_of_fit c hfit]

/-! ## The read loop never runs out of fuel -/

theorem fgetsAux_rest_le : ∀ (room : Nat) (input : List Nat),
    (fgetsAux room input).2.length ≤ input.length
  | 0, _ => by simp [fgetsAux]
  | _ + 1, [] => by simp [fgetsAux]
  | room + 1, c :: rest => by
    simp only [fgetsAux]
    split
    · simp
    · have := fgetsAux_rest_le room rest
      simp only [List.length_cons]; omega

theorem fgets_rest_lt (input line rest : List Nat)
    (h : fgets LINE_BUFFER input = some (line, rest)) : rest.length < input.length := by
  unfold fgets at h
  cases input with
  | nil => simp at h
  | cons c tl =>
    simp only [reduceCtorEq, if_false, Option.some.injEq, LINE_BUFFER] at h
    have hrest : rest = (fgetsAux 511 (c :: tl)).2 := by rw [h]
    rw [hrest]
    simp only [fgetsAux]
    split
    · simp
    · have := fgetsAux_rest_le 510 tl
      simp only [List.length_cons]; omega

/-- Any fuel of at least the length of the input gives the result of `loadFromFile`. -/
theorem loadLoop_fuel : ∀ (fuel : Nat) (input : List Nat) (state : AVLNode × Int),
    input.length ≤ fuel → loadLoop fuel input state = loadLoop input.length input state
  | 0, input, state, h => by
    have : input = [] := List.length_eq_zero.1 (by omega)
    subst this; rfl
  | fuel + 1, input, state, h => by
    cases hin : input with
    | nil => simp [loadLoop, fgets]
    | cons c tl =>
      rw [← hin]
      have hlen : input.length = tl.length + 1 := by rw [hin]; rfl
      rw [hlen]
      simp only [loadLoop]
      cases hf : fgets LINE_BUFFER input with
      | none => rfl
      | some p =>
        obtain ⟨line, rest⟩ := p
        have hlt := fgets_rest_lt input line rest hf
        simp only
        rw [loadLoop_fuel fuel rest _ (by omega), loadLoop_fuel tl.length rest _ (by omega)]

theorem loadLoop_line (d : StudentRecord) (c : CourseRecord) (rest : List Nat)
    (state : AVLNode × Int) (hd : recordClean d) (hc : courseClean c)
    (hlen : (formatLine d c).length < LINE_BUFFER) :
    loadLoop (formatLine d c ++ rest).length (formatLine d c ++ rest) state =
      loadLoop rest.length rest (replayCourse d state c) := by
  have hnl := lineBody_no_newline d c hd hc
  have hfg : fgets LINE_BUFFER (formatLine d c ++ rest) = some (formatLine d c, rest) := by
    rw [formatLine_eq] at hlen ⊢
    simp only [List.length_append, List.length_singleton, LINE_BUFFER] at hlen
    have haux := fgetsAux_line (lineBody d c) rest 511 hnl (by omega)
    have hne : lineBody d c ++ 10 :: rest ≠ [] := by simp
    simp only [List.append_assoc, List.singleton_append, fgets, LINE_BUFFER]
    rw [if_neg hne, haux]
  have hpos : (formatLine d c ++ rest).length = ((formatLine d c).length - 1 + rest.length) + 1 := by
    rw [formatLine_eq]; simp only [List.length_append, List.length_singleton]; omega
  rw [hpos]
  simp only [loadLoop, hfg]
  rw [loadLoop_fuel _ rest _ (by omega), loadLine_formatLine d c state hd hc]
  rfl

theorem loadLoop_courses (d : StudentRecord) (hd : recordClean d) :
    ∀ (cs : List CourseRecord) (rest : List Nat) (state : AVLNode × Int),
      (∀ c ∈ cs, courseClean c ∧ (formatLine d c).length < LINE_BUFFER) →
      loadLoop (saveCourseList d cs ++ rest).length (saveCourseList d cs ++ rest) state =
        loadLoop rest.length rest (cs.foldl (replayCourse d) state)
  | [], _, _, _ => rfl
  | c :: cs, rest, state, h => by
    have hc := h c (List.mem_cons_self _ _)
    simp only [saveCourseList, List.append_assoc, List.foldl_cons]
    rw [loadLoop_line d c _ state hd hc.1 hc.2]
    exact loadLoop_courses d hd cs rest _ (fun x hx => h x (List.mem_cons_of_mem _ hx))

theorem loadLoop_records : ∀ (ds : List StudentRecord) (rest : List Nat)
    (state : AVLNode × Int),
    (∀ d ∈ ds, recordClean d ∧ ∀ c ∈ d.courses, (formatLine d c).length < LINE_BUFFER) →
    loadLoop (saveRecords ds ++ rest).length (saveRecords ds ++ rest) state =
      loadLoop rest.length rest (replayRecords ds state)
  | [], _, _, _ => rfl
  | d :: ds, rest, state, h => by
    obtain ⟨hd, hl⟩ := h d (List.mem_cons_self _ _)
    simp only [saveRecords, saveNodeCourses, List.append_assoc, replayRecords, List.foldl_cons]
    rw [loadLoop_courses d hd d.courses _ state
      (fun c hc => ⟨hd.2.2.2.2.2.2.2.2.1 c hc, hl c hc⟩)]
    exact loadLoop_records ds rest _ (fun x hx => h x (List.mem_cons_of_mem _ hx))

theorem saveRecords_append : ∀ a b : List StudentRecord,
    saveRecords (a ++ b) = saveRecords a ++ saveRecords b
  | [], _ => rfl
  | d :: a, b => by simp [saveRecords, saveRecords_append a b]

theorem saveTreeRecursive_eq : ∀ t : AVLNode, saveTreeRecursive t = saveRecords (inorder t)
  | nil => rfl
  | node d l r _ => by
    simp only [saveTreeRecursive, inorder, saveRecords_append, saveRecords,
      saveTreeRecursive_eq l, saveTreeRecursive_eq r]

/-- Loading the saved text replays the registrations of the in-order sequence. -/
theorem loadFromFile_save (t root : AVLNode)
    (h : ∀ d ∈ inorder t, recordClean d ∧ ∀ c ∈ d.courses, (formatLine d c).length < LINE_BUFFER) :
    loadFromFileCount (some (saveTreeRecursive t)) root = replayRecords (inorder t) (root, 0) := by
  have := loadLoop_records (inorder t) [] (root, 0) h
  simp only [List.append_nil] at this
  simp only [loadFromFileCount, saveTreeRecursive_eq, this]
  rfl

/-! ## Replaying the saved lines rebuilds the records -/

theorem hasCourse_zero_iff : ∀ (cs : List CourseRecord) (code : CStr),
    hasCourse cs code = 0 ↔ ∀ x ∈ cs, equalsIgnoreCase x.courseCode code = 0
  | [], _ => by simp [hasCourse]
  | c :: cs, code => by
    simp only [hasCourse, List.mem_cons, forall_eq_or_imp]
    by_cases hc : equalsIgnoreCase c.courseCode code ≠ 0
    · rw [if_pos hc]
      constructor
      · intro h; omega
      · intro h; exact absurd h.1 hc
    · rw [if_neg hc, hasCourse_zero_iff cs code]
      have : equalsIgnoreCase c.courseCode code = 0 := by simpa using hc
      simp [this]

theorem replayCourse_first (d : StudentRecord) (c : CourseRecord) (state : AVLNode × Int)
    (hname : d.name.length < MAX_NAME_LEN) (hid : d.studentID.length < MAX_ID_LEN)
    (hmajor : d.major.length < MAX_MAJOR_LEN)
    (hbst : isBST state.1) (hlt : ∀ a ∈ inorder state.1, idLt a d) :
    isBST (replayCourse d state c).1 ∧
      inorder (replayCourse d state c).1 =
        inorder state.1 ++ [setCourses d [c]] := by
  refine ⟨insertRegistration_isBST _ _ _ _ _ hbst hid, ?_⟩
  have hall : ∀ x ∈ inorder state.1, strcmp d.studentID x.studentID > 0 := by
    intro x hx; rw [strcmp_gt_iff]; exact hlt x hx
  have h1 : (inorder state.1).filter (below d.studentID) = inorder state.1 :=
    filter_eq_self_of (fun x hx => by
      have := hall x hx; simp only [below, decide_eq_true_eq]; omega)
  have h2 : (inorder state.1).find? (hasID d.studentID) = none :=
    find_eq_none_of (fun x hx => by
      have := hall x hx; simp only [hasID, decide_eq_false_iff_not]; omega)
  have h3 : (inorder state.1).filter (above d.studentID) = [] :=
    filter_eq_nil_of (fun x hx => by
      have := hall x hx; simp only [above, decide_eq_false_iff_not]; omega)
  simp only [replayCourse]
  rw [(insertRegistration_spec d.name d.studentID d.major c state.1 hbst).1, h1, h2, h3]
  simp only [registeredRecord, setCourses, copyBounded_of_lt _ _ hname,
    copyBounded_of_lt _ _ hid, copyBounded_of_lt _ _ hmajor]

theorem replayCourse_more (d : StudentRecord) (before : List StudentRecord)
    (hname : d.name.length < MAX_NAME_LEN) (hid : d.studentID.length < MAX_ID_LEN)
    (hmajor : d.major.length < MAX_MAJOR_LEN) (hlt : ∀ a ∈ before, idLt a d) :
    ∀ (cs done : List CourseRecord) (state : AVLNode × Int),
      isBST state.1 →
      inorder state.1 = before ++ [setCourses d done] →
      (done ++ cs).Pairwise (fun a b => equalsIgnoreCase a.courseCode b.courseCode = 0) →
      isBST (cs.foldl (replayCourse d) state).1 ∧
        inorder (cs.foldl (replayCourse d) state).1 = before ++ [setCourses d (done ++ cs)]
  | [], done, state, hbst, hin, _ => by
    simp only [List.foldl_nil, List.append_nil]
    exact ⟨hbst, hin⟩
  | c :: cs, done, state, hbst, hin, hpw => by
    have hbst1 : isBST (replayCourse d state c).1 :=
      insertRegistration_isBST _ _ _ _ _ hbst hid
    have hdone : ∀ x ∈ done, equalsIgnoreCase x.courseCode c.courseCode = 0 :=
      fun x hx => (List.pairwise_append.1 hpw).2.2 x hx c (List.mem_cons_self _ _)
    have happ : appendCourseRecord done c = (done ++ [c], 1) :=
      appendCourseRecord_absent done c ((hasCourse_zero_iff done c.courseCode).2 hdone)
    have hsplit := @split_here d.studentID (setCourses d done) before []
      (strcmp_self d.studentID) hlt (by simp)
    have hin1 : inorder (replayCourse d state c).1 =
        before ++ [setCourses d (done ++ [c])] := by
      simp only [replayCourse]
      rw [(insertRegistration_spec d.name d.studentID d.major c state.1 hbst).1, hin,
        hsplit.1, hsplit.2.1, hsplit.2.2.1]
      simp only [registeredRecord, setCourses, copyBounded_of_lt _ _ hname,
        copyBounded_of_lt _ _ hmajor, happ]
    have hpw1 : ((done ++ [c]) ++ cs).Pairwise
        (fun a b => equalsIgnoreCase a.courseCode b.courseCode = 0) := by
      simpa using hpw
    have ih := replayCourse_more d before hname hid hmajor hlt cs (done ++ [c])
      (replayCourse d state c) hbst1 hin1 hpw1
    simp only [List.foldl_cons]
    simpa using ih

theorem replay_record (d : StudentRecord) (state : AVLNode × Int) (hd : recordClean d)
    (hbst : isBST state.1) (hlt : ∀ a ∈ inorder state.1, idLt a d) :
    isBST (d.courses.foldl (replayCourse d) state).1 ∧
      inorder (d.courses.foldl (replayCourse d) state).1 = inorder state.1 ++ [d] := by
  obtain ⟨_, hname, _, _, hid, _, hmajor, hne, _, hpw⟩ := hd
  cases hcs : d.courses with
  | nil => exact absurd hcs hne
  | cons c cs =>
    obtain ⟨hb1, hin1⟩ := replayCourse_first d c state hname hid hmajor hbst hlt
    have := replayCourse_more d (inorder state.1) hname hid hmajor hlt cs [c]
      (replayCourse d state c) hb1 hin1 (by rw [hcs] at hpw; simpa using hpw)
    simp only [List.foldl_cons]
    refine ⟨this.1, ?_⟩
    rw [this.2]
    have hd_eq : setCourses d ([c] ++ cs) = d := by
      cases d; simp only [setCourses, List.singleton_append] at hcs ⊢; simp_all
    rw [hd_eq]

theorem replay_records : ∀ (todo before : List StudentRecord) (state : AVLNode × Int),
    (before ++ todo).Pairwise idLt → (∀ d ∈ todo, recordClean d) →
    isBST state.1 → inorder state.1 = before →
    inorder (replayRecords todo state).1 = before ++ todo
  | [], before, state, _, _, _, hin => by simp [replayRecords, hin]
  | d :: todo, before, state, hpw, hclean, hbst, hin => by
    have hlt : ∀ a ∈ inorder state.1, idLt a d := by
      intro a ha
      rw [hin] at ha
      exact (List.pairwise_append.1 hpw).2.2 a ha d (List.mem_cons_self _ _)
    obtain ⟨hb1, hin1⟩ := replay_record d state (hclean d (List.mem_cons_self _ _)) hbst hlt
    have ih := replay_records todo (before ++ [d]) (d.courses.foldl (replayCourse d) state)
      (by simpa using hpw) (fun x hx => hclean x (List.mem_cons_of_mem _ hx)) hb1
      (by rw [hin1, hin])
    simp only [replayRecords, List.foldl_cons] at ih ⊢
    rw [ih]; simp

/-- Round trip for a tree whose records are clean and whose saved lines fit the line buffer. -/
theorem roundtrip_of_clean (t : AVLNode) (hbst : isBST t)
    (hclean : ∀ d ∈ inorder t, recordClean d) (hfit : linesFit t) :
    inorder (loadFromFile (some (saveTreeRecursive t)) nil) = inorder t := by
  unfold loadFromFile
  rw [loadFromFile_save t nil (fun d hd => ⟨hclean d hd, hfit d hd⟩)]
  have := replay_records (inorder t) [] (nil, 0) (by simpa using hbst) hclean
    (by simp [isBST, inorder]) rfl
  simpa using this

/-! ## Trees built by registrations are clean -/

theorem pairwise_codes_congr {l1 l2 : List CourseRecord}
    (h : l1.map (fun c => c.courseCode) = l2.map (fun c => c.courseCode))
    (hpw : l1.Pairwise (fun a b => equalsIgnoreCase a.courseCode b.courseCode = 0)) :
    l2.Pairwise (fun a b => equalsIgnoreCase a.courseCode b.courseCode = 0) := by
  have h1 : (l1.map (fun c => c.courseCode)).Pairwise (fun a b => equalsIgnoreCase a b = 0) :=
    List.pairwise_map.2 hpw
  rw [h] at h1
  exact List.pairwise_map.1 h1

theorem appendCourseRecord_clean (cs : List CourseRecord) (c : CourseRecord)
    (hcs : ∀ x ∈ cs, courseClean x)
    (hpw : cs.Pairwise (fun a b => equalsIgnoreCase a.courseCode b.courseCode = 0))
    (hc : courseClean c) :
    (appendCourseRecord cs c).1 ≠ [] ∧ (∀ x ∈ (appendCourseRecord cs c).1, courseClean x) ∧
      (appendCourseRecord cs c).1.Pairwise
        (fun a b => equalsIgnoreCase a.courseCode b.courseCode = 0) := by
  by_cases hpres : hasCourse cs c.courseCode = 0
  · rw [appendCourseRecord_absent cs c hpres]
    refine ⟨by simp, ?_, ?_⟩
    · intro x hx
      rcases List.mem_append.1 hx with hx | hx
      · exact hcs x hx
      · rw [List.mem_singleton.1 hx]; exact hc
    · rw [List.pairwise_append]
      refine ⟨hpw, List.pairwise_singleton _ _, ?_⟩
      intro a ha b hb
      rw [List.mem_singleton.1 hb]
      exact (hasCourse_zero_iff cs c.courseCode).1 hpres a ha
  · obtain ⟨pre, c0, post, hsplit, _, _, happ⟩ := appendCourseRecord_present cs c hpres
    have hc0 : courseClean c0 := hcs c0 (by rw [hsplit]; simp)
    obtain ⟨_, htitle, hsem, hfit, htrail⟩ := hc
    rw [happ, copyBounded_of_lt _ _ hfit.2.1, copyBounded_of_lt _ _ hfit.2.2]
    refine ⟨by simp, ?_, ?_⟩
    · intro x hx
      rcases List.mem_append.1 hx with hx | hx
      · exact hcs x (by rw [hsplit]; simp [hx])
      · rcases List.mem_cons.1 hx with rfl | hx
        · exact ⟨hc0.1, htitle, hsem, ⟨hc0.2.2.2.1.1, hfit.2.1, hfit.2.2⟩, htrail⟩
        · exact hcs x (by rw [hsplit]; simp [hx])
    · refine pairwise_codes_congr ?_ hpw
      rw [hsplit]; simp

theorem registeredRecord_clean (r : Registration) (hr : validRegistration r)
    (prev : Option StudentRecord) (hprev : ∀ d, prev = some d → recordClean d) :
    recordClean (registeredRecord r.name r.id r.major r.course prev) := by
  obtain ⟨hn, hnl, hlead, hi, hil, hm, hml, hc⟩ := hr
  cases prev with
  | none =>
    simp only [registeredRecord, copyBounded_of_lt _ _ hnl, copyBounded_of_lt _ _ hil,
      copyBounded_of_lt _ _ hml]
    exact ⟨hn, hnl, hlead, hi, hil, hm, hml, by simp, by simpa using hc,
      List.pairwise_singleton _ _⟩
  | some d =>
    obtain ⟨_, _, _, hdi, hdil, _, _, _, hdcs, hdpw⟩ := hprev d rfl
    obtain ⟨h1, h2, h3⟩ := appendCourseRecord_clean d.courses r.course hdcs hdpw hc
    simp only [registeredRecord, copyBounded_of_lt _ _ hnl, copyBounded_of_lt _ _ hml]
    exact ⟨hn, hnl, hlead, hdi, hdil, hm, hml, h1, h2, h3⟩

theorem insertRegistration_clean (t : AVLNode) (r : Registration) (hr : validRegistration r)
    (hbst : isBST t) (hclean : ∀ d ∈ inorder t, recordClean d) :
    isBST (insertRegistration t r.name r.id r.major r.course).root ∧
      ∀ d ∈ inorder (insertRegistration t r.name r.id r.major r.course).root, recordClean d := by
  refine ⟨insertRegistration_isBST t _ _ _ _ hbst hr.2.2.2.2.1, ?_⟩
  rw [(insertRegistration_spec r.name r.id r.major r.course t hbst).1]
  intro d hd
  rcases List.mem_append.1 hd with hd | hd
  · exact hclean d (List.mem_filter.1 hd).1
  · rcases List.mem_cons.1 hd with rfl | hd
    · exact registeredRecord_clean r hr _
        (fun d0 h0 => hclean d0 (List.mem_of_find?_eq_some h0))
    · exact hclean d (List.mem_filter.1 hd).1

theorem registerAll_clean : ∀ (rs : List Registration) (t : AVLNode),
    (∀ r ∈ rs, validRegistration r) → isBST t → (∀ d ∈ inorder t, recordClean d) →
    isBST (registerAll t rs) ∧ ∀ d ∈ inorder (registerAll t rs), recordClean d
  | [], _, _, hbst, hclean => ⟨hbst, hclean⟩
  | r :: rs, t, hv, hbst, hclean => by
    obtain ⟨hb1, hc1⟩ := insertRegistration_clean t r (hv r (List.mem_cons_self _ _)) hbst hclean
    exact registerAll_clean rs _ (fun x hx => hv x (List.mem_cons_of_mem _ hx)) hb1 hc1

/-! ## The data-model classes give clean fields -/

theorem cleanField_of_class (s : CStr) (hne : s ≠ [])
    (h : ∀ c ∈ s, isalnum c = true ∨ c = 32) : cleanField s := by
  refine ⟨hne, ?_⟩
  intro c hc
  rcases h c hc with h1 | h1
  · simp only [isalnum, isalpha, isdigit, Bool.or_eq_true, Bool.and_eq_true,
      decide_eq_true_eq] at h1
    omega
  · omega

theorem validRegistration_of_dataModel (r : Registration) (h : validPerDataModel r)
    (htitle : cleanField r.course.courseTitle) (hlead : noLeadingSpace r.name)
    (htrail : noTrailingSpace r.course.semester) : validRegistration r := by
  obtain ⟨hn, hnl, hi, hil, hm, hml, hcode, _, hsem, _, hfit⟩ := h
  have alpha_alnum : ∀ c : Nat, isalpha c = true ∨ c = 32 → isalnum c = true ∨ c = 32 := by
    intro c hc
    rcases hc with hc | hc
    · left; simp [isalnum, hc]
    · right; exact hc
  have hn1 : cleanField r.name :=
    cleanField_of_class _ hn.1 (fun c hc => alpha_alnum c (hn.2 c hc))
  have hm1 : cleanField r.major :=
    cleanField_of_class _ hm.1 (fun c hc => alpha_alnum c (hm.2 c hc))
  have hi1 : cleanField r.id := by
    unfold isDigitsOnly at hi
    split at hi
    · omega
    · rename_i hne
      split at hi
      · rename_i hall
        refine cleanField_of_class _ hne (fun c hc => Or.inl ?_)
        have := List.all_eq_true.1 hall c hc
        simp [isalnum, this]
      · omega
  have hcode1 : cleanField r.course.courseCode := by
    unfold isCourseCode at hcode
    split at hcode
    · omega
    · rename_i hne
      split at hcode
      · rename_i hall
        exact cleanField_of_class _ hne (fun c hc => Or.inl (List.all_eq_true.1 hall c hc))
      · omega
  have hsem1 : cleanField r.course.semester := cleanField_of_class _ hsem.1 hsem.2
  exact ⟨hn1, hnl, hlead, hi1, hil, hm1, hml, hcode1, htitle, hsem1, hfit, htrail⟩

/-! ## Persistence round trip and malformed lines -/

set_option maxRecDepth 100000 in
/-- Counterexamples to C9 as stated. Each of the four registrations is valid per the data
model of the claim (letters and spaces, digits, alphanumeric, every field non-empty and
fitting its buffer), yet the tree built from it is not reproduced by loading the saved text:
the line of `longRegistration` has 513 characters and `fgets` cuts it after 511; `trim` removes
the leading space of a name and the trailing space of a semester; a `#` inside the title
shifts the fields. -/
theorem roundtrip_fails_on_valid_registrations :
    (validPerDataModel longRegistration ∧
      inorder (loadFromFile (some (saveTreeRecursive (registerAll nil [longRegistration]))) nil)
        ≠ inorder (registerAll nil [longRegistration])) ∧
    (validPerDataModel leadingSpaceRegistration ∧
      inorder (loadFromFile
          (some (saveTreeRecursive (registerAll nil [leadingSpaceRegistration]))) nil)
        ≠ inorder (registerAll nil [leadingSpaceRegistration])) ∧
    (validPerDataModel trailingSpaceRegistration ∧
      inorder (loadFromFile
          (some (saveTreeRecursive (registerAll nil [trailingSpaceRegistration]))) nil)
        ≠ inorder (registerAll nil [trailingSpaceRegistration])) ∧
    (validPerDataModel hashTitleRegistration ∧
      inorder (loadFromFile
          (some (saveTreeRecursive (registerAll nil [hashTitleRegistration]))) nil)
        ≠ inorder (registerAll nil [hashTitleRegistration])) := by
  decide

/-- C9 (amended). Persistence round trip: for every tree built from registrations (any number,
in particular N ≥ 1) whose fields are valid per the data model and in which, in addition, the
course title contains neither `#` nor a line feed, the name does not start with white space
and the semester does not end with white space, and such that every line written by
`saveTreeRecursive` has fewer than 511 characters before its line feed, loading the saved text
into an empty root rebuilds a tree whose in-order traversal yields the same records
(studentId, name, major, ordered course list) as the original. -/
theorem persistence_roundtrip (rs : List Registration)
    (hvalid : ∀ r ∈ rs, validPerDataModel r ∧ cleanField r.course.courseTitle ∧
      noLeadingSpace r.name ∧ noTrailingSpace r.course.semester)
    (hlines : linesFit (registerAll nil rs)) :
    inorder (loadFromFile (some (saveTreeRecursive (registerAll nil rs))) nil) =
      inorder (registerAll nil rs) := by
  have hv : ∀ r ∈ rs, validRegistration r := fun r hr =>
    validRegistration_of_dataModel r (hvalid r hr).1 (hvalid r hr).2.1 (hvalid r hr).2.2.1
      (hvalid r hr).2.2.2
  obtain ⟨hbst, hclean⟩ := registerAll_clean rs nil hv (by simp [isBST, inorder])
    (by simp [inorder])
  exact roundtrip_of_clean _ hbst hclean hlines

/-- Two students, one of them with two courses, saved and loaded again. -/
theorem persistence_roundtrip_witness :
    inorder (loadFromFile (some (saveTreeRecursive (registerAll nil sampleRegistrations))) nil) =
      inorder (registerAll nil sampleRegistrations) :=
  persistence_roundtrip sampleRegistrations (by decide) (by decide)

/-- Evaluation at the failing input of C10: the line
`Ali Hassan#12345#CS#CS101#Intro#3#Fall2024#extra` splits on `#` into eight fields, and
`loadFromFile` does not skip it: the loop body replays its first seven fields through
`insertRegistration` and counts the line as loaded, as it does for the seven-field line. -/
theorem loadFromFile_replays_eight_fields :
    (collectTokens 8 (trim (eightFieldLine.takeWhile (fun c => c != 10)))).length = 8 ∧
      loadLine eightFieldLine (nil, 0) = (oneCourseTree, 1) ∧
      loadFromFileCount (some eightFieldLine) nil = (oneCourseTree, 1) ∧
      loadFromFileCount (some (formatLine
        { name := bytes "Ali Hassan", studentID := bytes "12345", major := bytes "CS",
          courses := [] } cs101)) nil = (oneCourseTree, 1) := by
  decide

/-! ## Names up to letter case -/

open SlotState

theorem equalsIgnoreCase_iff : ∀ a b : CStr,
    equalsIgnoreCase a b ≠ 0 ↔ a.map tolower = b.map tolower
  | [], [] => by simp [equalsIgnoreCase]
  | [], _ :: _ => by simp [equalsIgnoreCase]
  | _ :: _, [] => by simp [equalsIgnoreCase]
  | x :: a, y :: b => by
    simp only [equalsIgnoreCase, List.map_cons, List.cons.injEq]
    by_cases h : tolower x = tolower y
    · simp only [h, ne_eq, not_true_eq_false, if_false, true_and]
      exact equalsIgnoreCase_iff a b
    · simp [h]

theorem equalsIgnoreCase_zero_iff (a b : CStr) :
    equalsIgnoreCase a b = 0 ↔ a.map tolower ≠ b.map tolower := by
  constructor
  · intro h heq
    exact (equalsIgnoreCase_iff a b).2 heq h
  · intro h
    by_contra hne
    exact h ((equalsIgnoreCase_iff a b).1 hne)

theorem equalsIgnoreCase_refl (a : CStr) : equalsIgnoreCase a a ≠ 0 :=
  (equalsIgnoreCase_iff a a).2 rfl

theorem equalsIgnoreCase_symm {a b : CStr} (h : equalsIgnoreCase a b ≠ 0) :
    equalsIgnoreCase b a ≠ 0 :=
  (equalsIgnoreCase_iff b a).2 ((equalsIgnoreCase_iff a b).1 h).symm

theorem equalsIgnoreCase_trans {a b c : CStr} (h1 : equalsIgnoreCase a b ≠ 0)
    (h2 : equalsIgnoreCase b c ≠ 0) : equalsIgnoreCase a c ≠ 0 :=
  (equalsIgnoreCase_iff a c).2
    (((equalsIgnoreCase_iff a b).1 h1).trans ((equalsIgnoreCase_iff b c).1 h2))

theorem hashLoop_congr : ∀ (a b : CStr) (h : Nat), a.map tolower = b.map tolower →
    hashLoop a h = hashLoop b h
  | [], [], _, _ => rfl
  | [], _ :: _, _, e => by simp at e
  | _ :: _, [], _, e => by simp at e
  | x :: a, y :: b, h, e => by
    simp only [List.map_cons, List.cons.injEq] at e
    simp only [hashLoop, e.1]
    exact hashLoop_congr a b _ e.2

theorem hashString_congr (a b : CStr) (m : Int) (h : equalsIgnoreCase a b ≠ 0) :
    hashString a m = hashString b m := by
  unfold hashString
  rw [hashLoop_congr a b 0 ((equalsIgnoreCase_iff a b).1 h)]

/-! ## Reading and writing slots -/

theorem entryAt_of_le (es : List HashEntry) (p : Nat) (h : es.length ≤ p) :
    entryAt es p = emptyEntry := by
  unfold entryAt
  rw [List.getElem?_eq_none h]; rfl

theorem lt_of_state_ne_empty (es : List HashEntry) (p : Nat)
    (h : (entryAt es p).state ≠ HASH_EMPTY) : p < es.length := by
  by_contra hge
  rw [entryAt_of_le es p (by omega)] at h
  exact h rfl

theorem entryAt_set_eq (es : List HashEntry) (p : Nat) (y : HashEntry) (h : p < es.length) :
    entryAt (es.set p y) p = y := by
  unfold entryAt
  rw [List.getElem?_set_self h]; rfl

theorem entryAt_set_ne (es : List HashEntry) (p q : Nat) (y : HashEntry) (h : p ≠ q) :
    entryAt (es.set p y) q = entryAt es q := by
  unfold entryAt
  rw [List.getElem?_set_ne h]

theorem countOccupied_set : ∀ (es : List HashEntry) (p : Nat) (y : HashEntry), p < es.length →
    countOccupied (es.set p y) + (if (entryAt es p).state = HASH_OCCUPIED then 1 else 0) =
      countOccupied es + (if y.state = HASH_OCCUPIED then 1 else 0)
  | [], _, _, h => by simp at h
  | e :: es, 0, y, _ => by
    simp only [List.set_cons_zero, countOccupied, List.countP_cons, entryAt,
      List.getElem?_cons_zero, Option.getD_some, decide_eq_true_eq]
    omega
  | e :: es, p + 1, y, h => by
    have ih := countOccupied_set es p y (by simpa using h)
    simp only [List.set_cons_succ, countOccupied, List.countP_cons, entryAt,
      List.getElem?_cons_succ, decide_eq_true_eq] at ih ⊢
    omega

theorem countOccupied_le (es : List HashEntry) : countOccupied es ≤ es.length :=
  List.countP_le_length _

theorem countOccupied_eq_length (es : List HashEntry)
    (h : ∀ p, p < es.length → (entryAt es p).state = HASH_OCCUPIED) :
    countOccupied es = es.length := by
  unfold countOccupied
  rw [List.countP_eq_length]
  intro e he
  obtain ⟨p, hp, hpe⟩ := List.getElem_of_mem he
  have := h p hp
  unfold entryAt at this
  rw [List.getElem?_eq_getElem hp] at this
  simp only [Option.getD_some, hpe] at this
  simpa using this

theorem countOccupied_replicate (n : Nat) : countOccupied (List.replicate n emptyEntry) = 0 := by
  unfold countOccupied
  rw [List.countP_eq_zero]
  intro e he
  rw [List.eq_of_mem_replicate he]
  simp [emptyEntry]

theorem entryAt_replicate (n p : Nat) : entryAt (List.replicate n emptyEntry) p = emptyEntry := by
  unfold entryAt
  by_cases h : p < n
  · rw [List.getElem?_replicate]; simp [h]
  · rw [List.getElem?_eq_none (by simpa using h)]; rfl

/-! ## The probe sequence visits every slot -/

theorem mem_probeSequence (index : Nat) (capacity : Int) (q : Nat) :
    q ∈ probeSequence index capacity ↔ q < capacity.toNat := by
  unfold probeSequence
  simp only [List.mem_map, List.mem_range]
  constructor
  · rintro ⟨i, hi, rfl⟩
    exact Nat.mod_lt _ (by omega)
  · intro hq
    refine ⟨(q + capacity.toNat - index % capacity.toNat) % capacity.toNat,
      Nat.mod_lt _ (by omega), ?_⟩
    have hr : index % capacity.toNat < capacity.toNat := Nat.mod_lt _ (by omega)
    have : index % capacity.toNat + (q + capacity.toNat - index % capacity.toNat) =
        q + capacity.toNat := by omega
    rw [Nat.add_mod_mod, ← Nat.mod_add_mod, this, Nat.add_mod_right, Nat.mod_eq_of_lt hq]

/-- Two ways to cut the same list at different elements: one of the two elements lies in
the front part of the other cut. -/
theorem mem_of_two_cuts {α : Type} : ∀ (a b c d : List α) (x y : α),
    a ++ x :: b = c ++ y :: d → x ≠ y → x ∈ c ∨ y ∈ a
  | [], _, [], _, x, y, h, hne => by
    simp only [List.nil_append, List.cons.injEq] at h
    exact absurd h.1 hne
  | [], _, z :: c, _, x, y, h, _ => by
    simp only [List.nil_append, List.cons_append, List.cons.injEq] at h
    left; rw [h.1]; simp
  | z :: a, _, [], _, x, y, h, _ => by
    simp only [List.nil_append, List.cons_append, List.cons.injEq] at h
    right; rw [← h.1]; simp
  | z :: a, b, w :: c, d, x, y, h, hne => by
    simp only [List.cons_append, List.cons.injEq] at h
    rcases mem_of_two_cuts a b c d x y h.2 hne with h1 | h1
    · left; simp [h1]
    · right; simp [h1]

/-! ## The two scans -/

open SlotState

theorem hashSearchScan_result (es : List HashEntry) (n : CStr) : ∀ ps : List Nat,
    hashSearchScan es n ps = -1 ∨
      ∃ p ∈ ps, hashSearchScan es n ps = (p : Int) ∧ matchAt es n p
  | [] => Or.inl rfl
  | probe :: rest => by
    simp only [hashSearchScan]
    split_ifs with h1 h2
    · exact Or.inl rfl
    · exact Or.inr ⟨probe, List.mem_cons_self _ _, rfl, h2⟩
    · rcases hashSearchScan_result es n rest with h | ⟨p, hp, hres, hm⟩
      · exact Or.inl h
      · exact Or.inr ⟨p, List.mem_cons_of_mem _ hp, hres, hm⟩

theorem hashSearchScan_hit (es : List HashEntry) (n : CStr) (q : Nat) (post : List Nat)
    (hq : matchAt es n q) : ∀ pre : List Nat,
    (∀ x ∈ pre, (entryAt es x).state ≠ HASH_EMPTY) →
    0 ≤ hashSearchScan es n (pre ++ q :: post)
  | [], _ => by
    have h1 : (entryAt es q).state ≠ HASH_EMPTY := by rw [hq.1]; decide
    have hq1 : (entryAt es q).state = HASH_OCCUPIED ∧
        equalsIgnoreCase (entryAt es q).name n ≠ 0 := hq
    simp only [List.nil_append, hashSearchScan, h1, if_false]
    rw [if_pos hq1]
    omega
  | x :: pre, h => by
    have hx := h x (List.mem_cons_self _ _)
    simp only [List.cons_append, hashSearchScan, hx, if_false]
    split_ifs
    · omega
    · exact hashSearchScan_hit es n q post hq pre (fun y hy => h y (List.mem_cons_of_mem _ hy))

theorem hashSearchScan_congr (es es1 : List HashEntry) (n : CStr) : ∀ ps : List Nat,
    (∀ x ∈ ps, ((entryAt es x).state = HASH_EMPTY ↔ (entryAt es1 x).state = HASH_EMPTY) ∧
      (matchAt es n x ↔ matchAt es1 n x)) →
    hashSearchScan es n ps = hashSearchScan es1 n ps
  | [], _ => rfl
  | probe :: rest, h => by
    obtain ⟨h1, h2⟩ := h probe (List.mem_cons_self _ _)
    have ih := hashSearchScan_congr es es1 n rest (fun y hy => h y (List.mem_cons_of_mem _ hy))
    unfold matchAt at h2
    simp only [hashSearchScan]
    by_cases c1 : (entryAt es probe).state = HASH_EMPTY
    · rw [if_pos c1, if_pos (h1.1 c1)]
    · rw [if_neg c1, if_neg (fun hh => c1 (h1.2 hh))]
      by_cases c2 : (entryAt es probe).state = HASH_OCCUPIED ∧
          equalsIgnoreCase (entryAt es probe).name n ≠ 0
      · rw [if_pos c2, if_pos (h2.1 c2)]
      · rw [if_neg c2, if_neg (fun hh => c2 (h2.2 hh)), ih]

theorem state_cases (s : SlotState) (h1 : s ≠ HASH_EMPTY) (h2 : s ≠ HASH_DELETED) :
    s = HASH_OCCUPIED := by
  cases s <;> simp_all

/-- What `hashInsertScan` returns, given what the probes already visited (`done`) were. -/
theorem hashInsertScan_spec (es : List HashEntry) (size : Int) (n : CStr) (ref : AVLNode) :
    ∀ (ps done : List Nat) (fd : Int),
      (∀ x ∈ done, (entryAt es x).state ≠ HASH_EMPTY ∧ ¬ matchAt es n x) →
      (0 ≤ fd → fd.toNat ∈ done ∧ (entryAt es fd.toNat).state = HASH_DELETED) →
      (fd < 0 → ∀ x ∈ done, (entryAt es x).state = HASH_OCCUPIED) →
      (∀ x ∈ ps, x < es.length) →
      insertCases es size n ref (done ++ ps) (hashInsertScan es size n ref ps fd)
  | [], done, fd, hdone, hfd, hnofd, _ => by
    simp only [hashInsertScan, List.append_nil]
    by_cases c : fd ≥ 0
    · rw [if_pos c]
      obtain ⟨hmem, hdel⟩ := hfd c
      obtain ⟨a, b, hab⟩ := List.append_of_mem hmem
      refine Or.inr (Or.inl ⟨fd.toNat, a, b, hab, ?_, ?_, ?_, rfl, Or.inr ?_⟩)
      · intro x hx; exact (hdone x (by rw [hab]; simp [hx])).1
      · exact lt_of_state_ne_empty es _ (by rw [hdel]; decide)
      · rw [hdel]; decide
      · intro x hx; exact (hdone x hx).2
    · rw [if_neg c]
      exact Or.inr (Or.inr ⟨rfl, fun x hx => ⟨hnofd (by omega) x hx, (hdone x hx).2⟩⟩)
  | probe :: rest, done, fd, hdone, hfd, hnofd, hps => by
    have hplt : probe < es.length := hps probe (List.mem_cons_self _ _)
    have hrest : ∀ x ∈ rest, x < es.length := fun x hx => hps x (List.mem_cons_of_mem _ hx)
    have hassoc : (done ++ [probe]) ++ rest = done ++ probe :: rest := by simp
    simp only [hashInsertScan]
    by_cases c1 : (entryAt es probe).state = HASH_EMPTY
    · rw [if_pos c1]
      by_cases c : fd ≥ 0
      · rw [if_pos c]
        obtain ⟨hmem, hdel⟩ := hfd c
        obtain ⟨a, b, hab⟩ := List.append_of_mem hmem
        refine Or.inr (Or.inl ⟨fd.toNat, a, b ++ probe :: rest, by rw [hab]; simp, ?_, ?_, ?_, rfl,
          Or.inl ⟨done, probe, rest, rfl, c1, hdone⟩⟩)
        · intro x hx; exact (hdone x (by rw [hab]; simp [hx])).1
        · exact lt_of_state_ne_empty es _ (by rw [hdel]; decide)
        · rw [hdel]; decide
      · rw [if_neg c]
        refine Or.inr (Or.inl ⟨probe, done, rest, rfl, fun x hx => (hdone x hx).1, hplt, ?_, rfl,
          Or.inl ⟨done, probe, rest, rfl, c1, hdone⟩⟩)
        rw [c1]; decide
    · rw [if_neg c1]
      by_cases c2 : (entryAt es probe).state = HASH_DELETED ∧ fd < 0
      · rw [if_pos c2]
        have ih := hashInsertScan_spec es size n ref rest (done ++ [probe]) (probe : Int)
          (by
            intro x hx
            rcases List.mem_append.1 hx with hx | hx
            · exact hdone x hx
            · rw [List.mem_singleton.1 hx]
              refine ⟨c1, fun hm => ?_⟩
              have hocc : (entryAt es probe).state = HASH_OCCUPIED := hm.1
              rw [c2.1] at hocc
              exact absurd hocc (by decide))
          (by
            intro _
            simp only [Int.toNat_ofNat, List.mem_append, List.mem_singleton, or_true, true_and]
            exact c2.1)
          (by intro hneg; omega)
          hrest
        rw [hassoc] at ih
        exact ih
      · rw [if_neg c2]
        by_cases c3 : (entryAt es probe).state = HASH_OCCUPIED ∧
            equalsIgnoreCase (entryAt es probe).name n ≠ 0
        · rw [if_pos c3]
          refine Or.inl ⟨done, probe, rest, rfl, hdone, c3, ?_⟩
          rw [c3.1]; rfl
        · rw [if_neg c3]
          have ih := hashInsertScan_spec es size n ref rest (done ++ [probe]) fd
            (by
              intro x hx
              rcases List.mem_append.1 hx with hx | hx
              · exact hdone x hx
              · rw [List.mem_singleton.1 hx]
                exact ⟨c1, c3⟩)
            (by
              intro hge
              obtain ⟨hmem, hdel⟩ := hfd hge
              exact ⟨List.mem_append_left _ hmem, hdel⟩)
            (by
              intro hneg x hx
              rcases List.mem_append.1 hx with hx | hx
              · exact hnofd hneg x hx
              · rw [List.mem_singleton.1 hx]
                exact state_cases _ c1 (fun hd => c2 ⟨hd, hneg⟩))
            hrest
          rw [hassoc] at ih
          exact ih

/-! ## Well-formed tables -/

open SlotState

theorem storedEntry_of_fit (n : CStr) (ref : AVLNode) (hfit : n.length < MAX_NAME_LEN) :
    storedEntry n ref = { state := HASH_OCCUPIED, name := n, reference := ref } := by
  unfold storedEntry
  rw [copyBounded_of_lt n _ hfit]

/-- Storing `n` in a slot that lies on the probe path of `n`, when no other slot holds `n`,
keeps the probe-sequence invariant and the uniqueness of names. -/
theorem invariants_set_stored (es : List HashEntry) (cap : Int) (target : Nat) (n : CStr)
    (ref : AVLNode) (hfit : n.length < MAX_NAME_LEN) (ht : target < es.length)
    (hpi : probeInvariant es cap) (hu : uniqueNames es)
    (hpath : ∃ pre post, probeSequence (hashString n cap) cap = pre ++ target :: post ∧
      ∀ x ∈ pre, (entryAt es x).state ≠ HASH_EMPTY)
    (hother : ∀ r, r ≠ target → ¬ matchAt es n r) :
    probeInvariant (es.set target (storedEntry n ref)) cap ∧
      uniqueNames (es.set target (storedEntry n ref)) := by
  rw [storedEntry_of_fit n ref hfit]
  have hmono : ∀ x, (entryAt es x).state ≠ HASH_EMPTY →
      (entryAt (es.set target { state := HASH_OCCUPIED, name := n, reference := ref }) x).state
        ≠ HASH_EMPTY := by
    intro x hx
    by_cases hxt : target = x
    · subst hxt; rw [entryAt_set_eq _ _ _ ht]; simp
    · rw [entryAt_set_ne _ _ _ _ hxt]; exact hx
  constructor
  · intro p hp
    by_cases hpt : target = p
    · subst hpt
      rw [entryAt_set_eq _ _ _ ht] at hp ⊢
      obtain ⟨pre, post, hseq, hpre⟩ := hpath
      exact ⟨pre, post, hseq, fun x hx => hmono x (hpre x hx)⟩
    · rw [entryAt_set_ne _ _ _ _ hpt] at hp ⊢
      obtain ⟨pre, post, hseq, hpre⟩ := hpi p hp
      exact ⟨pre, post, hseq, fun x hx => hmono x (hpre x hx)⟩
  · intro p q hp hq heq
    by_cases hpt : target = p
    · by_cases hqt : target = q
      · rw [← hpt, ← hqt]
      · exfalso
        subst hpt
        rw [entryAt_set_eq _ _ _ ht] at heq
        rw [entryAt_set_ne _ _ _ _ hqt] at hq heq
        exact hother q (fun h => hqt h.symm) ⟨hq, equalsIgnoreCase_symm heq⟩
    · by_cases hqt : target = q
      · exfalso
        subst hqt
        rw [entryAt_set_eq _ _ _ ht] at heq
        rw [entryAt_set_ne _ _ _ _ hpt] at hp heq
        exact hother p (fun h => hpt h.symm) ⟨hp, heq⟩
      · rw [entryAt_set_ne _ _ _ _ hpt] at hp heq
        rw [entryAt_set_ne _ _ _ _ hqt] at hq heq
        exact hu p q hp hq heq

/-- On a well-formed array, an empty slot on the probe path of `n` before any slot holding
`n` means that no slot holds `n`. -/
theorem no_match_of_empty (es : List HashEntry) (cap : Int) (n : CStr)
    (hpi : probeInvariant es cap) (pre2 post2 : List Nat) (e : Nat)
    (hseq : probeSequence (hashString n cap) cap = pre2 ++ e :: post2)
    (he : (entryAt es e).state = HASH_EMPTY)
    (hpre : ∀ x ∈ pre2, (entryAt es x).state ≠ HASH_EMPTY ∧ ¬ matchAt es n x) :
    ∀ r, ¬ matchAt es n r := by
  intro r hr
  obtain ⟨pre, post, hs, hne⟩ := hpi r hr.1
  rw [hashString_congr _ n cap hr.2, hseq] at hs
  have hre : e ≠ r := by
    intro h; rw [h] at he; rw [hr.1] at he; exact absurd he (by decide)
  rcases mem_of_two_cuts pre2 post2 pre post e r hs hre with h | h
  · exact hne e h he
  · exact (hpre r h).2 hr

theorem no_match_of_scanned (es : List HashEntry) (cap : Int) (n : CStr) (index : Nat)
    (hlen : es.length = cap.toNat)
    (hall : ∀ x ∈ probeSequence index cap, ¬ matchAt es n x) : ∀ r, ¬ matchAt es n r := by
  intro r hr
  have hlt : r < es.length := lt_of_state_ne_empty es r (by rw [hr.1]; decide)
  exact hall r ((mem_probeSequence index cap r).2 (by omega)) hr

/-- Effect of the scan of `hashInsert` on a well-formed array that is not full: it succeeds,
the array stays well formed, and either the slot holding the name is rewritten in place or,
no slot holding the name, the name is stored in a slot that was not occupied. -/
theorem hashInsertScan_wf (es : List HashEntry) (cap size : Int) (n : CStr) (ref : AVLNode)
    (hlen : es.length = cap.toNat) (hsize : size = countOccupied es)
    (hpi : probeInvariant es cap) (hu : uniqueNames es) (hfit : n.length < MAX_NAME_LEN)
    (hlt : size < cap) :
    (hashInsertScan es size n ref (probeSequence (hashString n cap) cap) (-1)).result = 1 ∧
    probeInvariant
      (hashInsertScan es size n ref (probeSequence (hashString n cap) cap) (-1)).entries cap ∧
    uniqueNames
      (hashInsertScan es size n ref (probeSequence (hashString n cap) cap) (-1)).entries ∧
    (hashInsertScan es size n ref (probeSequence (hashString n cap) cap) (-1)).size =
      countOccupied
        (hashInsertScan es size n ref (probeSequence (hashString n cap) cap) (-1)).entries ∧
    ∃ target, target < es.length ∧
      (hashInsertScan es size n ref (probeSequence (hashString n cap) cap) (-1)).entries =
        es.set target (storedEntry n ref) ∧
      ((matchAt es n target ∧
          (hashInsertScan es size n ref (probeSequence (hashString n cap) cap) (-1)).size = size) ∨
        ((∀ q, ¬ matchAt es n q) ∧ (entryAt es target).state ≠ HASH_OCCUPIED ∧
          (hashInsertScan es size n ref (probeSequence (hashString n cap) cap) (-1)).size =
            size + 1)) := by
  have hspec := hashInsertScan_spec es size n ref (probeSequence (hashString n cap) cap) [] (-1)
    (by simp) (by intro h; omega) (by simp)
    (fun x hx => by rw [hlen]; exact (mem_probeSequence _ cap x).1 hx)
  rw [List.nil_append] at hspec
  have hstored : (storedEntry n ref).state = HASH_OCCUPIED := rfl
  rcases hspec with ⟨pre, q, post, hseq, hpre, hq, hout⟩ | ⟨target, pre, post, hseq, hpre, ht,
      hstate, hout, hno⟩ | ⟨hout, hall⟩
  · have hqlt : q < es.length := lt_of_state_ne_empty es q (by rw [hq.1]; decide)
    have hpath : ∃ pre post, probeSequence (hashString n cap) cap = pre ++ q :: post ∧
        ∀ x ∈ pre, (entryAt es x).state ≠ HASH_EMPTY := by
      obtain ⟨pre1, post1, hs, hne⟩ := hpi q hq.1
      rw [hashString_congr _ n cap hq.2] at hs
      exact ⟨pre1, post1, hs, hne⟩
    have hother : ∀ r, r ≠ q → ¬ matchAt es n r := by
      intro r hrq hr
      exact hrq (hu r q hr.1 hq.1 (equalsIgnoreCase_trans hr.2 (equalsIgnoreCase_symm hq.2)))
    obtain ⟨h1, h2⟩ := invariants_set_stored es cap q n ref hfit hqlt hpi hu hpath hother
    have hcount := countOccupied_set es q (storedEntry n ref) hqlt
    rw [if_pos hq.1, if_pos hstored] at hcount
    rw [hout]
    refine ⟨rfl, h1, h2, ?_, q, hqlt, rfl, Or.inl ⟨hq, rfl⟩⟩
    simp only
    omega
  · have hnomatch : ∀ r, ¬ matchAt es n r := by
      rcases hno with ⟨pre2, e, post2, hs2, he, hp2⟩ | hall
      · exact no_match_of_empty es cap n hpi pre2 post2 e hs2 he hp2
      · exact no_match_of_scanned es cap n _ hlen hall
    obtain ⟨h1, h2⟩ := invariants_set_stored es cap target n ref hfit ht hpi hu
      ⟨pre, post, hseq, hpre⟩ (fun r _ => hnomatch r)
    have hcount := countOccupied_set es target (storedEntry n ref) ht
    rw [if_neg hstate, if_pos hstored] at hcount
    rw [hout]
    refine ⟨rfl, h1, h2, ?_, target, ht, rfl, Or.inr ⟨hnomatch, hstate, rfl⟩⟩
    simp only [occupy]
    omega
  · exfalso
    have hfull : countOccupied es = es.length :=
      countOccupied_eq_length es (fun p hp =>
        (hall p ((mem_probeSequence _ cap p).2 (by omega))).1)
    omega

theorem length_hashInsertScan (es : List HashEntry) (size : Int) (n : CStr) (ref : AVLNode) :
    ∀ (ps : List Nat) (fd : Int),
      (hashInsertScan es size n ref ps fd).entries.length = es.length
  | [], fd => by
    simp only [hashInsertScan]
    split <;> simp [occupy]
  | probe :: rest, fd => by
    simp only [hashInsertScan]
    split_ifs <;> simp [occupy, length_hashInsertScan es size n ref rest]

theorem tableWF_init (capacity : Int) (h : 1 ≤ capacity) : tableWF (initHashTable capacity) := by
  refine ⟨List.replicate capacity.toNat emptyEntry, rfl, h, by simp [initHashTable], ?_, ?_, ?_⟩
  · simp [initHashTable, countOccupied_replicate]
  · intro p hp
    rw [entryAt_replicate] at hp
    exact absurd hp (by decide)
  · intro p q hp
    rw [entryAt_replicate] at hp
    exact absurd hp (by decide)

theorem tableWF_insert (t : HashTable) (n : CStr) (ref : AVLNode) (hwf : tableWF t)
    (hfit : n.length < MAX_NAME_LEN) : tableWF (hashInsert t n ref).1 := by
  obtain ⟨es, hes, hcap, hlen, hsize, hpi, hu⟩ := hwf
  unfold hashInsert
  rw [hes]
  by_cases hfull : t.size ≥ t.capacity
  · simp only [hfull, if_true]
    exact ⟨es, hes, hcap, hlen, hsize, hpi, hu⟩
  · simp only [hfull, if_false]
    obtain ⟨_, h1, h2, h3, _⟩ :=
      hashInsertScan_wf es t.capacity t.size n ref hlen hsize hpi hu hfit (by omega)
    exact ⟨_, rfl, hcap, by rw [length_hashInsertScan]; exact hlen, h3, h1, h2⟩

theorem hashSearch_cases (t : HashTable) (es : List HashEntry) (hes : t.entries = some es)
    (n : CStr) :
    hashSearch t n = -1 ∨ ∃ p : Nat, hashSearch t n = (p : Int) ∧ matchAt es n p := by
  unfold hashSearch
  rw [hes]
  rcases hashSearchScan_result es n
    (probeSequence (hashString n t.capacity) t.capacity) with h | ⟨p, _, hp, hm⟩
  · exact Or.inl h
  · exact Or.inr ⟨p, hp, hm⟩

theorem tableWF_delete (t : HashTable) (n : CStr) (hwf : tableWF t) :
    tableWF (hashDelete t n).1 := by
  obtain ⟨es, hes, hcap, hlen, hsize, hpi, hu⟩ := hwf
  unfold hashDelete
  rcases hashSearch_cases t es hes n with h | ⟨p, hp, hm⟩
  · simp only [h]
    exact ⟨es, hes, hcap, hlen, hsize, hpi, hu⟩
  · have hplt : p < es.length := lt_of_state_ne_empty es p (by rw [hm.1]; decide)
    have hnn : ¬ ((p : Int) < 0) := by omega
    simp only [hp, hnn, if_false, hes, Int.toNat_ofNat]
    have hmono : ∀ x, (entryAt es x).state ≠ HASH_EMPTY →
        (entryAt (es.set p deletedEntry) x).state ≠ HASH_EMPTY := by
      intro x hx
      by_cases hxt : p = x
      · subst hxt; rw [entryAt_set_eq _ _ _ hplt]; decide
      · rw [entryAt_set_ne _ _ _ _ hxt]; exact hx
    have hocc : ∀ x, (entryAt (es.set p deletedEntry) x).state = HASH_OCCUPIED →
        p ≠ x ∧ entryAt (es.set p deletedEntry) x = entryAt es x := by
      intro x hx
      by_cases hxt : p = x
      · subst hxt; rw [entryAt_set_eq _ _ _ hplt] at hx; exact absurd hx (by decide)
      · exact ⟨hxt, entryAt_set_ne _ _ _ _ hxt⟩
    have hcount := countOccupied_set es p deletedEntry hplt
    rw [if_pos hm.1, if_neg (by decide)] at hcount
    refine ⟨_, rfl, hcap, by simpa using hlen, ?_, ?_, ?_⟩
    · simp only; omega
    · intro x hx
      obtain ⟨_, hsame⟩ := hocc x hx
      rw [hsame] at hx ⊢
      obtain ⟨pre, post, hseq, hpre⟩ := hpi x hx
      exact ⟨pre, post, hseq, fun y hy => hmono y (hpre y hy)⟩
    · intro x y hx hy heq
      obtain ⟨_, hsx⟩ := hocc x hx
      obtain ⟨_, hsy⟩ := hocc y hy
      rw [hsx] at hx heq
      rw [hsy] at hy heq
      exact hu x y hx hy heq

theorem tableWF_of_reachable (t : HashTable) (h : Reachable t) : tableWF t := by
  induction h with
  | init capacity hc => exact tableWF_init capacity hc
  | insert t n ref _ hfit ih => exact tableWF_insert t n ref ih hfit
  | delete t n _ ih => exact tableWF_delete t n ih

/-! ## Search, deletion and insertion on reachable tables -/

open SlotState

theorem hashSearch_of_match (t : HashTable) (es : List HashEntry) (hes : t.entries = some es)
    (hpi : probeInvariant es t.capacity) (hu : uniqueNames es) (n : CStr) (q : Nat)
    (hq : matchAt es n q) : hashSearch t n = (q : Int) := by
  obtain ⟨pre, post, hseq, hpre⟩ := hpi q hq.1
  rw [hashString_congr _ n t.capacity hq.2] at hseq
  have hhit := hashSearchScan_hit es n q post hq pre hpre
  rw [← hseq] at hhit
  rcases hashSearch_cases t es hes n with h | ⟨p, hp, hm⟩
  · unfold hashSearch at h
    rw [hes] at h
    simp only at h
    omega
  · rw [hp, hu p q hm.1 hq.1 (equalsIgnoreCase_trans hm.2 (equalsIgnoreCase_symm hq.2))]

/-- C12. Probe-sequence correctness of the name index: on every table reached from a freshly
initialised table (capacity at least 1) by calls of `hashInsert` (with names that fit the
name buffer, as `node->data.name` does) and `hashDelete`, and for every name, `hashSearch`
returns a slot index iff some occupied slot stores a name equal to it ignoring case; the
returned index is below the capacity and is such a slot; a miss is the value -1. -/
theorem hashSearch_finds_present (t : HashTable) (h : Reachable t) (name : CStr) :
    (0 ≤ hashSearch t name ↔ ∃ p, storesName t name p) ∧
      (0 ≤ hashSearch t name →
        hashSearch t name < t.capacity ∧ storesName t name (hashSearch t name).toNat) ∧
      (hashSearch t name < 0 → hashSearch t name = -1) := by
  obtain ⟨es, hes, hcap, hlen, hsize, hpi, hu⟩ := tableWF_of_reachable t h
  have hget : t.entries.getD [] = es := by rw [hes]; rfl
  unfold storesName
  rw [hget]
  rcases hashSearch_cases t es hes name with hmiss | ⟨p, hp, hm⟩
  · refine ⟨⟨fun h0 => by omega, ?_⟩, fun h0 => by omega, fun _ => hmiss⟩
    rintro ⟨q, hq⟩
    rw [hashSearch_of_match t es hes hpi hu name q hq]
    omega
  · have hplt : p < es.length := lt_of_state_ne_empty es p (by rw [hm.1]; decide)
    refine ⟨⟨fun _ => ⟨p, hm⟩, fun _ => by omega⟩, fun _ => ⟨by omega, ?_⟩, fun h0 => by omega⟩
    rw [hp, Int.toNat_ofNat]
    exact hm

/-- `Sara` is found behind the tombstone that the deletion of `Ali` left in slot 1. -/
theorem hashSearch_finds_present_witness :
    hashSearch tombstoneTable (bytes "SARA") = 2 ∧
      (0 ≤ hashSearch tombstoneTable (bytes "SARA") ↔
        ∃ p, storesName tombstoneTable (bytes "SARA") p) :=
  ⟨by decide,
    (hashSearch_finds_present tombstoneTable
      (Reachable.delete _ _ (Reachable.insert _ _ _ (Reachable.insert _ _ _
        (Reachable.init 3 (by decide)) (by decide)) (by decide))) (bytes "SARA")).1⟩

/-- C14. Tombstone deletion on a reachable table: `hashDelete` returns 1 iff `hashSearch` was
a hit before the call; then the hit slot becomes a tombstone with cleared name and reference,
every other slot is unchanged, `size` decreases by one, `hashSearch` of the name is a miss
afterwards, and `hashSearch` of every name that is not equal to it ignoring case returns what
it returned before; when `hashSearch` was a miss the table is unchanged and 0 is returned. -/
theorem hashDelete_tombstone (t : HashTable) (h : Reachable t) (n : CStr) :
    ((hashDelete t n).2 = 1 ↔ 0 ≤ hashSearch t n) ∧
      (0 ≤ hashSearch t n →
        slot (hashDelete t n).1 (hashSearch t n).toNat = deletedEntry ∧
        (∀ q, q ≠ (hashSearch t n).toNat → slot (hashDelete t n).1 q = slot t q) ∧
        (hashDelete t n).1.size = t.size - 1 ∧
        hashSearch (hashDelete t n).1 n = -1 ∧
        ∀ n1, equalsIgnoreCase n1 n = 0 →
          hashSearch (hashDelete t n).1 n1 = hashSearch t n1) ∧
      (hashSearch t n < 0 → hashDelete t n = (t, 0)) := by
  obtain ⟨es, hes, hcap, hlen, hsize, hpi, hu⟩ := tableWF_of_reachable t h
  rcases hashSearch_cases t es hes n with hmiss | ⟨p, hp, hm⟩
  · have hdel : hashDelete t n = (t, 0) := by simp [hashDelete, hmiss]
    refine ⟨?_, fun h0 => by omega, fun _ => hdel⟩
    rw [hdel, hmiss]
    simp
  · have hplt : p < es.length := lt_of_state_ne_empty es p (by rw [hm.1]; decide)
    have hnn : ¬ ((p : Int) < 0) := by omega
    have hdel : hashDelete t n =
        ({ entries := some (es.set p deletedEntry), capacity := t.capacity,
           size := t.size - 1 }, 1) := by
      simp only [hashDelete, hp, hnn, if_false, hes, Int.toNat_ofNat]
    have hcases := hashSearch_cases (hashDelete t n).1 (es.set p deletedEntry)
      (by rw [hdel]) n
    rw [hdel] at hcases
    rw [hdel, hp, Int.toNat_ofNat]
    refine ⟨⟨fun _ => by omega, fun _ => rfl⟩, fun _ => ⟨?_, ?_, rfl, ?_, ?_⟩, fun h0 => by omega⟩
    · simp only [slot, Option.getD_some]
      exact entryAt_set_eq es p deletedEntry hplt
    · intro q hq
      simp only [slot, hes, Option.getD_some]
      exact entryAt_set_ne es p q deletedEntry (fun hh => hq hh.symm)
    · rcases hcases with hm1 | ⟨p1, _, hm1⟩
      · exact hm1
      · exfalso
        have hne : p ≠ p1 := by
          intro hh
          have := hm1.1
          rw [← hh, entryAt_set_eq es p deletedEntry hplt] at this
          exact absurd this (by decide)
        have hm2 : matchAt es n p1 := by
          unfold matchAt at hm1 ⊢
          rw [entryAt_set_ne es p p1 deletedEntry hne] at hm1
          exact hm1
        exact hne (hu p p1 hm.1 hm2.1
          (equalsIgnoreCase_trans hm.2 (equalsIgnoreCase_symm hm2.2)))
    · intro n1 hn1
      unfold hashSearch
      simp only [hes]
      symm
      apply hashSearchScan_congr
      intro x _
      by_cases hx : p = x
      · subst hx
        unfold matchAt
        rw [entryAt_set_eq es p deletedEntry hplt, hm.1]
        refine ⟨by simp [deletedEntry], ?_⟩
        constructor
        · intro hh
          exfalso
          have h1 : equalsIgnoreCase n1 n ≠ 0 :=
            equalsIgnoreCase_trans (equalsIgnoreCase_symm hh.2) hm.2
          exact h1 hn1
        · intro hh
          exact absurd hh.1 (by simp [deletedEntry])
      · unfold matchAt
        rw [entryAt_set_ne es p x deletedEntry hx]
        exact ⟨Iff.rfl, Iff.rfl⟩

/-- Deleting `Ali` from the table that holds `Ali` and `Sara` in colliding slots. -/
theorem hashDelete_tombstone_witness :
    (hashDelete (hashInsert (hashInsert (initHashTable 3) (bytes "Ali") oneCourseTree).1
        (bytes "Sara") oneCourseTree).1 (bytes "ALI")).2 = 1 ∧
      hashSearch tombstoneTable (bytes "Ali") = -1 :=
  ⟨by decide,
    ((hashDelete_tombstone
      (hashInsert (hashInsert (initHashTable 3) (bytes "Ali") oneCourseTree).1
        (bytes "Sara") oneCourseTree).1
      (Reachable.insert _ _ _ (Reachable.insert _ _ _
        (Reachable.init 3 (by decide)) (by decide)) (by decide)) (bytes "Ali")).2.1
      (by decide)).2.2.2.1⟩

/-! ## Building the index from the tree -/

open SlotState

theorem hashInsert_effect (t : HashTable) (es : List HashEntry) (n : CStr) (ref : AVLNode)
    (hes : t.entries = some es) (hlen : es.length = t.capacity.toNat)
    (hsize : t.size = countOccupied es) (hpi : probeInvariant es t.capacity)
    (hu : uniqueNames es) (hfit : n.length < MAX_NAME_LEN) (hlt : t.size < t.capacity) :
    (hashInsert t n ref).2 = 1 ∧ (hashInsert t n ref).1.capacity = t.capacity ∧
      ∃ target, target < es.length ∧
        (hashInsert t n ref).1.entries = some (es.set target (storedEntry n ref)) ∧
        ((matchAt es n target ∧ (hashInsert t n ref).1.size = t.size) ∨
          ((∀ q, ¬ matchAt es n q) ∧ (entryAt es target).state ≠ HASH_OCCUPIED ∧
            (hashInsert t n ref).1.size = t.size + 1)) := by
  obtain ⟨h1, _, _, _, target, ht, hent, hcase⟩ :=
    hashInsertScan_wf es t.capacity t.size n ref hlen hsize hpi hu hfit hlt
  have hnot : ¬ t.size ≥ t.capacity := by omega
  unfold hashInsert
  simp only [hes, hnot, if_false]
  exact ⟨h1, trivial, target, ht, by rw [hent], hcase⟩

theorem hashInsert_full (t : HashTable) (n : CStr) (ref : AVLNode)
    (h : t.capacity ≤ t.size) : hashInsert t n ref = (t, 0) := by
  unfold hashInsert
  cases t.entries with
  | none => rfl
  | some es => simp [h]

theorem traverse_records : ∀ t : AVLNode,
    (traverseAndInsertToList t).map recordOf = (inorder t).map some
  | nil => rfl
  | node d l r h => by
    simp [traverseAndInsertToList, inorder, traverse_records l, traverse_records r, recordOf]

theorem traverse_length (t : AVLNode) :
    ((traverseAndInsertToList t).length : Int) = countStudents t := by
  have := congrArg List.length (traverse_records t)
  simp only [List.length_map] at this
  rw [countStudents_eq_length, this]

theorem nameOf_of_record (nd : AVLNode) (d : StudentRecord) (h : recordOf nd = some d) :
    nameOf nd = d.name := by
  cases nd with
  | nil => simp [recordOf] at h
  | node d1 l r hh => simp only [recordOf, Option.some.injEq] at h; rw [← h]; rfl

theorem traverse_names_fit (t : AVLNode) (hfit : recordsFit t) :
    ∀ nd ∈ traverseAndInsertToList t, (nameOf nd).length < MAX_NAME_LEN := by
  intro nd hnd
  have h1 : recordOf nd ∈ (traverseAndInsertToList t).map recordOf := List.mem_map_of_mem _ hnd
  rw [traverse_records] at h1
  obtain ⟨d, hd, hdeq⟩ := List.mem_map.1 h1
  rw [nameOf_of_record nd d hdeq.symm]
  exact (hfit d hd).1

theorem nextPrimeLoop_ge : ∀ (fuel : Nat) (n : Int), n ≤ nextPrimeLoop fuel n
  | 0, _ => le_refl _
  | fuel + 1, n => by
    simp only [nextPrimeLoop]
    split
    · have := nextPrimeLoop_ge fuel (n + 1); omega
    · exact le_refl _

/-- State of the table while `buildHashTable` stores the nodes: after the nodes `pre` were
stored, the nodes `rest` are stored. -/
theorem insertNodes_spec : ∀ (rest pre : List AVLNode) (t : HashTable),
    Reachable t → (∀ nd ∈ rest, (nameOf nd).length < MAX_NAME_LEN) →
    t.size ≤ pre.length → ((pre.length : Int) + rest.length) < t.capacity →
    (∀ p, (slot t p).state = HASH_OCCUPIED →
      (slot t p).reference ∈ pre ∧ (slot t p).name = nameOf (slot t p).reference) →
    (∀ nd ∈ pre, ∃ p, storesName t (nameOf nd) p) →
    Reachable (insertNodes t rest) ∧ (insertNodes t rest).capacity = t.capacity ∧
      (insertNodes t rest).size ≤ (pre.length : Int) + rest.length ∧
      (∀ p, (slot (insertNodes t rest) p).state = HASH_OCCUPIED →
        (slot (insertNodes t rest) p).reference ∈ pre ++ rest ∧
        (slot (insertNodes t rest) p).name = nameOf (slot (insertNodes t rest) p).reference) ∧
      (∀ nd ∈ pre ++ rest, ∃ p, storesName (insertNodes t rest) (nameOf nd) p) ∧
      (∀ a nd b, rest = a ++ nd :: b → (hashInsert (insertNodes t a) (nameOf nd) nd).2 = 1)
  | [], pre, t, hr, _, hsize, _, hslots, hstored => by
    simp only [insertNodes, List.foldl_nil, List.length_nil, Int.ofNat_zero, add_zero,
      List.append_nil]
    refine ⟨hr, trivial, by simpa using hsize, hslots, hstored, ?_⟩
    intro a nd b hab
    simp at hab
  | nd :: rest, pre, t, hr, hfit, hsize, hcap, hslots, hstored => by
    obtain ⟨es, hes, _, hlen, hsz, hpi, hu⟩ := tableWF_of_reachable t hr
    have hget : t.entries.getD [] = es := by rw [hes]; rfl
    have hndfit := hfit nd (List.mem_cons_self _ _)
    have hlt : t.size < t.capacity := by
      simp only [List.length_cons] at hcap
      push_cast at hcap
      omega
    obtain ⟨hres, hcapeq, target, ht, hent, hcase⟩ :=
      hashInsert_effect t es (nameOf nd) nd hes hlen hsz hpi hu hndfit hlt
    have hget1 : (hashInsert t (nameOf nd) nd).1.entries.getD [] =
        es.set target (storedEntry (nameOf nd) nd) := by rw [hent]; rfl
    have hstoredEq := storedEntry_of_fit (nameOf nd) nd hndfit
    have hsize1 : (hashInsert t (nameOf nd) nd).1.size ≤ ((pre ++ [nd]).length : Int) := by
      simp only [List.length_append, List.length_singleton, List.length_cons, List.length_nil]
      push_cast
      rcases hcase with ⟨_, hs⟩ | ⟨_, _, hs⟩ <;> omega
    have hslots1 : ∀ p, (slot (hashInsert t (nameOf nd) nd).1 p).state = HASH_OCCUPIED →
        (slot (hashInsert t (nameOf nd) nd).1 p).reference ∈ pre ++ [nd] ∧
        (slot (hashInsert t (nameOf nd) nd).1 p).name =
          nameOf (slot (hashInsert t (nameOf nd) nd).1 p).reference := by
      intro p hp
      unfold slot at hp ⊢
      rw [hget1] at hp ⊢
      by_cases hpt : target = p
      · subst hpt
        rw [entryAt_set_eq _ _ _ ht, hstoredEq]
        simp
      · rw [entryAt_set_ne _ _ _ _ hpt] at hp ⊢
        have := hslots p (by unfold slot; rw [hget]; exact hp)
        unfold slot at this
        rw [hget] at this
        exact ⟨List.mem_append_left _ this.1, this.2⟩
    have hstored1 : ∀ x ∈ pre ++ [nd], ∃ p, storesName (hashInsert t (nameOf nd) nd).1
        (nameOf x) p := by
      intro x hx
      unfold storesName
      rw [hget1]
      have hnew : matchAt (es.set target (storedEntry (nameOf nd) nd)) (nameOf nd) target := by
        unfold matchAt
        rw [entryAt_set_eq _ _ _ ht, hstoredEq]
        exact ⟨rfl, equalsIgnoreCase_refl _⟩
      rcases List.mem_append.1 hx with hx | hx
      · obtain ⟨p, hp⟩ := hstored x hx
        unfold storesName at hp
        rw [hget] at hp
        by_cases hpt : target = p
        · subst hpt
          rcases hcase with ⟨hm, _⟩ | ⟨_, hno, _⟩
          · refine ⟨target, ?_⟩
            unfold matchAt
            rw [entryAt_set_eq _ _ _ ht, hstoredEq]
            exact ⟨rfl, equalsIgnoreCase_trans (equalsIgnoreCase_symm hm.2) hp.2⟩
          · exact absurd hp.1 hno
        · refine ⟨p, ?_⟩
          unfold matchAt
          rw [entryAt_set_ne _ _ _ _ hpt]
          exact hp
      · rw [List.mem_singleton.1 hx]
        exact ⟨target, hnew⟩
    have hcap1 : (((pre ++ [nd]).length : Int) + rest.length) <
        (hashInsert t (nameOf nd) nd).1.capacity := by
      rw [hcapeq]
      simp only [List.length_append, List.length_singleton, List.length_cons, List.length_nil] at hcap ⊢
      push_cast at hcap ⊢
      omega
    obtain ⟨i1, i2, i3, i4, i5, i6⟩ := insertNodes_spec rest (pre ++ [nd])
      (hashInsert t (nameOf nd) nd).1 (Reachable.insert t _ nd hr hndfit)
      (fun x hx => hfit x (List.mem_cons_of_mem _ hx)) hsize1 hcap1 hslots1 hstored1
    have hstep : insertNodes t (nd :: rest) =
        insertNodes (hashInsert t (nameOf nd) nd).1 rest := rfl
    rw [hstep]
    have happ : pre ++ [nd] ++ rest = pre ++ nd :: rest := by simp
    rw [happ] at i4 i5
    refine ⟨i1, by rw [i2, hcapeq], ?_, i4, i5, ?_⟩
    · simp only [List.length_append, List.length_singleton, List.length_cons, List.length_nil] at i3 ⊢
      push_cast at i3 ⊢
      omega
    · intro a x b hab
      cases a with
      | nil =>
        simp only [List.nil_append, List.cons.injEq] at hab
        rw [← hab.1]
        exact hres
      | cons y a =>
        simp only [List.cons_append, List.cons.injEq] at hab
        rw [← hab.1]
        exact i6 a x b hab.2

/-! ## The primality test and the capacity rule -/

theorem isPrimeLoop_spec : ∀ (fuel I N : Nat), 5 ≤ I → I % 6 = 5 → N < I + fuel →
    N % 2 ≠ 0 → N % 3 ≠ 0 → 3 < N → (∀ d, 2 ≤ d → d ∣ N → I ≤ d) →
    (isPrimeLoop fuel (I : Int) (N : Int) = 1 ↔ N.Prime) ∧
      (isPrimeLoop fuel (I : Int) (N : Int) = 0 ∨ isPrimeLoop fuel (I : Int) (N : Int) = 1) := by
  have prime_of_small : ∀ (I N : Nat), 3 < N → N < I * I → (∀ d, 2 ≤ d → d ∣ N → I ≤ d) →
      N.Prime := by
    intro I N hN hlt hdiv
    rw [Nat.prime_def_le_sqrt]
    refine ⟨by omega, ?_⟩
    intro m hm hsq hmd
    have h1 : m * m ≤ N := Nat.le_sqrt.1 hsq
    have h2 : I ≤ m := hdiv m hm hmd
    have h3 : I * I ≤ m * m := Nat.mul_le_mul h2 h2
    omega
  intro fuel
  induction fuel with
  | zero =>
    intro I N hI _ hlt _ _ hN hdiv
    have hp : N.Prime := by
      apply prime_of_small I N hN _ hdiv
      have : I ≤ I * I := Nat.le_mul_self I
      omega
    simp only [isPrimeLoop, true_iff, or_true, and_true]
    exact hp
  | succ fuel ih =>
    intro I N hI hmod hlt h2 h3 hN hdiv
    have hcond : ((I : Int) * I ≤ N) ↔ I * I ≤ N := by exact_mod_cast Iff.rfl
    have hm1 : ((N : Int) % (I : Int) = 0) ↔ N % I = 0 := by exact_mod_cast Iff.rfl
    have hm2 : ((N : Int) % ((I : Int) + 2) = 0) ↔ N % (I + 2) = 0 := by
      exact_mod_cast Iff.rfl
    simp only [isPrimeLoop, hcond, hm1, hm2]
    by_cases c : I * I ≤ N
    · rw [if_pos c]
      by_cases cd : N % I = 0 ∨ N % (I + 2) = 0
      · rw [if_pos cd]
        refine ⟨⟨fun h => by omega, fun hp => ?_⟩, Or.inl rfl⟩
        exfalso
        have hbig : I + 2 < N := by nlinarith
        rcases cd with cd | cd
        · rcases (Nat.dvd_prime hp).1 (Nat.dvd_of_mod_eq_zero cd) with h | h <;> omega
        · rcases (Nat.dvd_prime hp).1 (Nat.dvd_of_mod_eq_zero cd) with h | h <;> omega
      · rw [if_neg cd]
        have hcast : ((I : Int) + 6) = ((I + 6 : Nat) : Int) := by push_cast; ring
        rw [hcast]
        apply ih (I + 6) N (by omega) (by omega) (by omega) h2 h3 hN
        intro d hd hdN
        have hId := hdiv d hd hdN
        by_contra hlt6
        have hnd1 : ¬ 2 ∣ d := fun h => h2 (Nat.mod_eq_zero_of_dvd (Dvd.dvd.trans h hdN))
        have hnd2 : ¬ 3 ∣ d := fun h => h3 (Nat.mod_eq_zero_of_dvd (Dvd.dvd.trans h hdN))
        have hdI : d ≠ I := fun h => cd (Or.inl (by rw [← h]; exact Nat.mod_eq_zero_of_dvd hdN))
        have hdI2 : d ≠ I + 2 :=
          fun h => cd (Or.inr (by rw [← h]; exact Nat.mod_eq_zero_of_dvd hdN))
        omega
    · rw [if_neg c]
      simp only [true_iff, or_true, and_true]
      exact prime_of_small I N hN (by omega) hdiv

/-- The test of `isPrime` decides primality (without overflow of `i * i`). -/
theorem isPrime_spec (N : Nat) :
    (isPrime (N : Int) = 1 ↔ N.Prime) ∧ (isPrime (N : Int) = 0 ∨ isPrime (N : Int) = 1) := by
  unfold isPrime
  by_cases h1 : (N : Int) ≤ 1
  · rw [if_pos h1]
    refine ⟨⟨fun h => by omega, fun hp => ?_⟩, Or.inl rfl⟩
    have := hp.two_le
    omega
  · rw [if_neg h1]
    by_cases h3 : (N : Int) ≤ 3
    · rw [if_pos h3]
      simp only [true_iff, or_true, and_true]
      have : N = 2 ∨ N = 3 := by omega
      rcases this with rfl | rfl <;> norm_num
    · rw [if_neg h3]
      have hc2 : ((N : Int) % 2 = 0) ↔ N % 2 = 0 := by omega
      have hc3 : ((N : Int) % 3 = 0) ↔ N % 3 = 0 := by omega
      simp only [hc2, hc3]
      by_cases hd : N % 2 = 0 ∨ N % 3 = 0
      · rw [if_pos hd]
        refine ⟨⟨fun h => by omega, fun hp => ?_⟩, Or.inl rfl⟩
        exfalso
        rcases hd with hd | hd
        · rcases (Nat.dvd_prime hp).1 (Nat.dvd_of_mod_eq_zero hd) with h | h <;> omega
        · rcases (Nat.dvd_prime hp).1 (Nat.dvd_of_mod_eq_zero hd) with h | h <;> omega
      · rw [if_neg hd]
        have hcast : (5 : Int) = ((5 : Nat) : Int) := rfl
        rw [Int.toNat_ofNat, hcast]
        apply isPrimeLoop_spec N 5 N (le_refl _) (by norm_num) (by omega) (by omega) (by omega)
          (by omega)
        intro d hd2 hdN
        by_contra hlt
        have hnd1 : ¬ 2 ∣ d := fun h => hd (Or.inl (Nat.mod_eq_zero_of_dvd (Dvd.dvd.trans h hdN)))
        have hnd2 : ¬ 3 ∣ d := fun h => hd (Or.inr (Nat.mod_eq_zero_of_dvd (Dvd.dvd.trans h hdN)))
        omega

theorem nextPrimeLoop_spec : ∀ (fuel n : Nat), (∃ p, p.Prime ∧ n ≤ p ∧ p < n + fuel) →
    ∃ p : Nat, nextPrimeLoop fuel (n : Int) = (p : Int) ∧ p.Prime ∧ n ≤ p ∧
      ∀ q : Nat, q.Prime → n ≤ q → p ≤ q
  | 0, n, ⟨p, _, h1, h2⟩ => by omega
  | fuel + 1, n, ⟨p, hp, h1, h2⟩ => by
    obtain ⟨hiff, hval⟩ := isPrime_spec n
    simp only [nextPrimeLoop]
    by_cases c : isPrime (n : Int) = 0
    · rw [if_pos c]
      have hnp : ¬ n.Prime := fun h => by have := hiff.2 h; omega
      have hne : p ≠ n := fun h => hnp (h ▸ hp)
      have hcast : ((n : Int) + 1) = ((n + 1 : Nat) : Int) := by push_cast; ring
      rw [hcast]
      obtain ⟨p1, e1, hp1, hle1, hmin1⟩ :=
        nextPrimeLoop_spec fuel (n + 1) ⟨p, hp, by omega, by omega⟩
      refine ⟨p1, e1, hp1, by omega, ?_⟩
      intro q hq hnq
      have : q ≠ n := fun h => hnp (h ▸ hq)
      exact hmin1 q hq (by omega)
    · rw [if_neg c]
      have hn : n.Prime := hiff.1 (by omega)
      exact ⟨n, rfl, hn, le_refl _, fun q _ hq => hq⟩

/-- `nextPrime` terminates with the smallest prime that is at least `n`, for every fuel of
at least `n + 3` rounds. -/
theorem nextPrime_spec (n : Nat) :
    ∃ p : Nat, nextPrime (n : Int) = (p : Int) ∧ p.Prime ∧ n ≤ p ∧
      (∀ q : Nat, q.Prime → n ≤ q → p ≤ q) ∧
      ∀ fuel, n + 3 ≤ fuel → nextPrimeLoop fuel (n : Int) = (p : Int) := by
  have hex : ∃ p, p.Prime ∧ n ≤ p ∧ p < n + (n + 3) := by
    by_cases h0 : n = 0
    · exact ⟨2, Nat.prime_two, by omega, by omega⟩
    · obtain ⟨p, hp, h1, h2⟩ := Nat.exists_prime_lt_and_le_two_mul n h0
      exact ⟨p, hp, by omega, by omega⟩
  obtain ⟨p, e, hp, hle, hmin⟩ := nextPrimeLoop_spec (n + 3) n hex
  have hfuel : (n : Int).natAbs + 3 = n + 3 := by simp
  refine ⟨p, by unfold nextPrime; rw [hfuel]; exact e, hp, hle, hmin, ?_⟩
  intro fuel hfuel1
  obtain ⟨p0, hp0, hle0, hlt0⟩ := hex
  obtain ⟨p1, e1, hp1, hle1, hmin1⟩ := nextPrimeLoop_spec fuel n ⟨p0, hp0, hle0, by omega⟩
  rw [e1]
  have : p1 = p := Nat.le_antisymm (hmin1 p hp hle) (hmin p1 hp1 hle1)
  rw [this]

/-! ## The build, the capacity rule and full tables -/

open SlotState

theorem hashInsertScan_size (es : List HashEntry) (size : Int) (n : CStr) (ref : AVLNode) :
    ∀ (ps : List Nat) (fd : Int),
      size ≤ (hashInsertScan es size n ref ps fd).size ∧
        (hashInsertScan es size n ref ps fd).size ≤ size + 1
  | [], fd => by
    simp only [hashInsertScan]
    split <;> simp
  | probe :: rest, fd => by
    have ih := hashInsertScan_size es size n ref rest
    simp only [hashInsertScan]
    split_ifs <;> first | exact ih _ | simp

theorem hashInsert_size (t : HashTable) (n : CStr) (ref : AVLNode) :
    (hashInsert t n ref).1.capacity = t.capacity ∧ t.size ≤ (hashInsert t n ref).1.size ∧
      (hashInsert t n ref).1.size ≤ t.size + 1 := by
  unfold hashInsert
  cases t.entries with
  | none => simp
  | some es =>
    by_cases h : t.size ≥ t.capacity
    · simp [h]
    · simp only [h, if_false]
      exact ⟨trivial, hashInsertScan_size es t.size n ref _ _⟩

theorem insertNodes_size : ∀ (nodes : List AVLNode) (t : HashTable),
    (insertNodes t nodes).capacity = t.capacity ∧ t.size ≤ (insertNodes t nodes).size ∧
      (insertNodes t nodes).size ≤ t.size + nodes.length
  | [], t => by simp [insertNodes]
  | nd :: nodes, t => by
    have hstep : insertNodes t (nd :: nodes) =
        insertNodes (hashInsert t (nameOf nd) nd).1 nodes := rfl
    obtain ⟨h1, h2, h3⟩ := insertNodes_size nodes (hashInsert t (nameOf nd) nd).1
    obtain ⟨k1, k2, k3⟩ := hashInsert_size t (nameOf nd) nd
    rw [hstep]
    simp only [List.length_cons]
    push_cast
    exact ⟨by rw [h1, k1], by omega, by omega⟩

theorem insertNodes_reachable : ∀ (nodes : List AVLNode) (t : HashTable), Reachable t →
    (∀ nd ∈ nodes, (nameOf nd).length < MAX_NAME_LEN) → Reachable (insertNodes t nodes)
  | [], _, hr, _ => hr
  | nd :: nodes, t, hr, hfit =>
    insertNodes_reachable nodes (hashInsert t (nameOf nd) nd).1
      (Reachable.insert t _ nd hr (hfit nd (List.mem_cons_self _ _)))
      (fun x hx => hfit x (List.mem_cons_of_mem _ hx))

theorem buildHashTable_eq (table : HashTable) (root : AVLNode) (h : countStudents root ≠ 0) :
    buildHashTable table root =
      insertNodes (initHashTable (nextPrime (countStudents root * 2 + 1)))
        (traverseAndInsertToList root) := by
  unfold buildHashTable
  simp only [h, if_false]

theorem countStudents_nonneg (root : AVLNode) : 0 ≤ countStudents root := by
  rw [countStudents_eq_length]; omega

/-- The table that `buildHashTable` leaves for a tree that is not empty. -/
theorem buildHashTable_spec (table : HashTable) (root : AVLNode) (hfit : recordsFit root)
    (hne : countStudents root ≠ 0) :
    Reachable (buildHashTable table root) ∧
      (buildHashTable table root).capacity = nextPrime (countStudents root * 2 + 1) ∧
      (∀ p, (slot (buildHashTable table root) p).state = HASH_OCCUPIED →
        (slot (buildHashTable table root) p).reference ∈ traverseAndInsertToList root ∧
        (slot (buildHashTable table root) p).name =
          nameOf (slot (buildHashTable table root) p).reference) ∧
      (∀ nd ∈ traverseAndInsertToList root,
        ∃ p, storesName (buildHashTable table root) (nameOf nd) p) ∧
      (∀ a nd b, traverseAndInsertToList root = a ++ nd :: b →
        (hashInsert (insertNodes (initHashTable (nextPrime (countStudents root * 2 + 1))) a)
          (nameOf nd) nd).2 = 1) := by
  rw [buildHashTable_eq table root hne]
  have hpos := countStudents_nonneg root
  have hcap : countStudents root * 2 + 1 ≤ nextPrime (countStudents root * 2 + 1) :=
    nextPrimeLoop_ge _ _
  have hinit : ∀ p, (slot (initHashTable (nextPrime (countStudents root * 2 + 1))) p).state ≠
      HASH_OCCUPIED := by
    intro p
    unfold slot initHashTable
    simp only [Option.getD_some]
    rw [entryAt_replicate]
    decide
  obtain ⟨i1, i2, _, i4, i5, i6⟩ := insertNodes_spec (traverseAndInsertToList root) []
    (initHashTable (nextPrime (countStudents root * 2 + 1)))
    (Reachable.init _ (by omega)) (traverse_names_fit root hfit)
    (by simp [initHashTable])
    (by
      rw [traverse_length]
      simp only [List.length_nil, initHashTable]
      push_cast
      omega)
    (fun p hp => absurd hp (hinit p))
    (fun nd hnd => by simp at hnd)
  simp only [List.nil_append] at i4 i5
  exact ⟨i1, i2, i4, i5, i6⟩

theorem countOccupied_lt (es : List HashEntry) (p : Nat) (hp : p < es.length)
    (h : (entryAt es p).state ≠ HASH_OCCUPIED) : countOccupied es < es.length := by
  have hle := countOccupied_le es
  by_contra hnot
  have heq : countOccupied es = es.length := by omega
  unfold countOccupied at heq
  rw [List.countP_eq_length] at heq
  have hmem : es[p] ∈ es := List.getElem_mem hp
  have := heq _ hmem
  simp only [decide_eq_true_eq] at this
  apply h
  unfold entryAt
  rw [List.getElem?_eq_getElem hp]
  exact this

theorem exists_free_slot (es : List HashEntry) (h : countOccupied es < es.length) :
    ∃ p, p < es.length ∧ (entryAt es p).state ≠ HASH_OCCUPIED := by
  by_contra hno
  have hall : ∀ p, p < es.length → (entryAt es p).state = HASH_OCCUPIED := by
    intro p hp
    by_contra hs
    exact hno ⟨p, hp, hs⟩
  have := countOccupied_eq_length es hall
  omega

/-- C13. Hash round trip after a build: for every tree whose records fit their buffers (as
every tree in C memory does) and every student `s` of the tree, after `buildHashTable`
the call `hashSearch(table, s.name)` is a hit, the hit slot is occupied by a name equal to
`s.name` ignoring case, its stored reference is a node of the tree whose name equals `s.name`
ignoring case, every `hashInsert` of the build returns 1, and the capacity exceeds the
student count. -/
theorem buildHashTable_roundtrip (table : HashTable) (root : AVLNode) (hfit : recordsFit root)
    (s : StudentRecord) (hs : s ∈ inorder root) :
    0 ≤ hashSearch (buildHashTable table root) s.name ∧
      storesName (buildHashTable table root) s.name
        (hashSearch (buildHashTable table root) s.name).toNat ∧
      (slot (buildHashTable table root)
        (hashSearch (buildHashTable table root) s.name).toNat).reference ∈
          traverseAndInsertToList root ∧
      equalsIgnoreCase (nameOf (slot (buildHashTable table root)
        (hashSearch (buildHashTable table root) s.name).toNat).reference) s.name ≠ 0 ∧
      (∀ a nd b, traverseAndInsertToList root = a ++ nd :: b →
        (hashInsert (insertNodes (initHashTable (nextPrime (countStudents root * 2 + 1))) a)
          (nameOf nd) nd).2 = 1) ∧
      countStudents root < (buildHashTable table root).capacity := by
  have hne : countStudents root ≠ 0 := by
    rw [countStudents_eq_length]
    have := List.length_pos_of_mem hs
    omega
  obtain ⟨hr, hcap, hslots, hstored, hins⟩ := buildHashTable_spec table root hfit hne
  have hmem : some s ∈ (traverseAndInsertToList root).map recordOf := by
    rw [traverse_records]
    exact List.mem_map_of_mem _ hs
  obtain ⟨nd, hnd, hrec⟩ := List.mem_map.1 hmem
  obtain ⟨p, hp⟩ := hstored nd hnd
  rw [nameOf_of_record nd s hrec] at hp
  obtain ⟨es, hes, _, _, _, hpi, hu⟩ := tableWF_of_reachable _ hr
  have hget : (buildHashTable table root).entries.getD [] = es := by rw [hes]; rfl
  have hm : matchAt es s.name p := by
    unfold storesName at hp
    rw [hget] at hp
    exact hp
  have hsearch := hashSearch_of_match _ es hes hpi hu s.name p hm
  have hsl := hslots p (by unfold slot; rw [hget]; exact hm.1)
  have hge : countStudents root * 2 + 1 ≤ nextPrime (countStudents root * 2 + 1) :=
    nextPrimeLoop_ge _ _
  have hpos := countStudents_nonneg root
  rw [hsearch, Int.toNat_ofNat]
  refine ⟨by omega, hp, hsl.1, ?_, hins, by rw [hcap]; omega⟩
  rw [← hsl.2]
  unfold slot
  rw [hget]
  exact hm.2

/-- Each of the three students of `threeStudentTree` is found after the build. -/
theorem buildHashTable_roundtrip_witness :
    recordsFit threeStudentTree ∧
      ∀ s ∈ inorder threeStudentTree,
        0 ≤ hashSearch (buildHashTable unbuiltTable threeStudentTree) s.name ∧
        equalsIgnoreCase (nameOf (slot (buildHashTable unbuiltTable threeStudentTree)
          (hashSearch (buildHashTable unbuiltTable threeStudentTree) s.name).toNat).reference)
          s.name ≠ 0 :=
  ⟨by decide, fun s hs =>
    ⟨(buildHashTable_roundtrip unbuiltTable threeStudentTree (by decide) s hs).1,
      (buildHashTable_roundtrip unbuiltTable threeStudentTree (by decide) s hs).2.2.2.1⟩⟩

/-- C15 as stated fails: the table of three slots built for one student and then filled by
`insertIntoHashFlow` with two more students is well formed, the name `Ali Hassan` is stored
in its slot 1, and `hashInsert` of that name returns 0 and leaves the table as it is, because
of the test `table->size >= table->capacity` at the start of `hashInsert`. -/
theorem hashInsert_full_table_rejects_stored_name :
    tableWF fullTable ∧ storesName fullTable (bytes "Ali Hassan") 1 ∧
      fullTable.size = 3 ∧ fullTable.capacity = 3 ∧
      hashInsert fullTable (bytes "Ali Hassan") twoCourseTree = (fullTable, 0) := by
  refine ⟨?_, by decide, by decide, by decide, by decide⟩
  apply tableWF_of_reachable
  apply insertNodes_reachable
  · exact (buildHashTable_spec unbuiltTable oneCourseTree (by decide) (by decide)).1
  · exact traverse_names_fit threeStudentTree (by decide)

/-- C15, amended. On every table reached from a freshly initialised table by calls of
`hashInsert` and `hashDelete`, and for every name that fits the name buffer: `hashInsert`
returns 1 iff `size < capacity`, which holds iff some slot is Empty or a Tombstone; it returns
0 and changes nothing iff every slot is occupied, also when the name is already stored. When
`size < capacity` and the name is stored (ignoring case) in slot `p`, that slot gets the new
name and reference, all other slots and `size` are unchanged; when it is not stored, one slot
that was not occupied receives the entry and `size` grows by one. -/
theorem hashInsert_result (t : HashTable) (h : Reachable t) (n : CStr)
    (hfit : n.length < MAX_NAME_LEN) (ref : AVLNode) :
    ((hashInsert t n ref).2 = 1 ↔ t.size < t.capacity) ∧
      (t.size < t.capacity ↔
        ∃ p : Nat, (p : Int) < t.capacity ∧ (slot t p).state ≠ HASH_OCCUPIED) ∧
      (t.capacity ≤ t.size → hashInsert t n ref = (t, 0)) ∧
      (t.size < t.capacity → ∀ p, storesName t n p →
        slot (hashInsert t n ref).1 p = storedEntry n ref ∧
        (∀ q, q ≠ p → slot (hashInsert t n ref).1 q = slot t q) ∧
        (hashInsert t n ref).1.size = t.size) ∧
      (t.size < t.capacity → (∀ p, ¬ storesName t n p) →
        ∃ target : Nat, (target : Int) < t.capacity ∧ (slot t target).state ≠ HASH_OCCUPIED ∧
          slot (hashInsert t n ref).1 target = storedEntry n ref ∧
          (∀ q, q ≠ target → slot (hashInsert t n ref).1 q = slot t q) ∧
          (hashInsert t n ref).1.size = t.size + 1) := by
  obtain ⟨es, hes, hcap, hlen, hsize, hpi, hu⟩ := tableWF_of_reachable t h
  have hget : t.entries.getD [] = es := by rw [hes]; rfl
  have hfull := hashInsert_full t n ref
  have heff := hashInsert_effect t es n ref hes hlen hsize hpi hu hfit
  refine ⟨⟨fun h1 => ?_, fun hlt => (heff hlt).1⟩, ⟨fun hlt => ?_, ?_⟩, hfull, ?_, ?_⟩
  · by_contra hge
    rw [hfull (by omega)] at h1
    simp at h1
  · obtain ⟨p, hp, hst⟩ := exists_free_slot es (by omega)
    exact ⟨p, by omega, by unfold slot; rw [hget]; exact hst⟩
  · rintro ⟨p, hp, hst⟩
    unfold slot at hst
    rw [hget] at hst
    have := countOccupied_lt es p (by omega) hst
    omega
  · intro hlt p hp
    unfold storesName at hp
    rw [hget] at hp
    obtain ⟨_, _, target, ht, hent, hcase⟩ := heff hlt
    have hget1 : (hashInsert t n ref).1.entries.getD [] = es.set target (storedEntry n ref) := by
      rw [hent]; rfl
    unfold slot
    rw [hget1, hget]
    rcases hcase with ⟨hm, hs⟩ | ⟨hno, _, _⟩
    · have hpt : target = p :=
        hu target p hm.1 hp.1 (equalsIgnoreCase_trans hm.2 (equalsIgnoreCase_symm hp.2))
      subst hpt
      exact ⟨entryAt_set_eq _ _ _ ht, fun q hq => entryAt_set_ne _ _ _ _ (Ne.symm hq), hs⟩
    · exact absurd hp (hno p)
  · intro hlt hno
    obtain ⟨_, _, target, ht, hent, hcase⟩ := heff hlt
    have hget1 : (hashInsert t n ref).1.entries.getD [] = es.set target (storedEntry n ref) := by
      rw [hent]; rfl
    unfold slot
    rw [hget1, hget]
    rcases hcase with ⟨hm, _⟩ | ⟨_, hst, hs⟩
    · exact absurd (by unfold storesName; rw [hget]; exact hm) (hno target)
    · exact ⟨target, by omega, hst, entryAt_set_eq _ _ _ ht,
        fun q hq => entryAt_set_ne _ _ _ _ (Ne.symm hq), hs⟩

/-- On the table with a tombstone, `SARA` is stored again over `Sara` in slot 2. -/
theorem hashInsert_result_witness :
    (hashInsert tombstoneTable (bytes "SARA") nil).2 = 1 ∧
      slot (hashInsert tombstoneTable (bytes "SARA") nil).1 2 = storedEntry (bytes "SARA") nil ∧
      ((hashInsert tombstoneTable (bytes "SARA") nil).2 = 1 ↔
        tombstoneTable.size < tombstoneTable.capacity) :=
  ⟨by decide, by decide,
    (hashInsert_result tombstoneTable
      (Reachable.delete _ _ (Reachable.insert _ _ _ (Reachable.insert _ _ _
        (Reachable.init 3 (by decide)) (by decide)) (by decide))) (bytes "SARA") (by decide)
      nil).1⟩

/-- C16. Capacity rule, with exact `int` arithmetic: for every tree with `n >= 1` students
and every previous table, `nextPrime(2n+1)` ends at a prime (for every bound of at least
`2n+4` rounds the loop returns the same value, on which `isPrime` returns 1), the capacity of
the table left by `buildHashTable` is that value, the smallest prime `p` with `p >= 2n+1`,
and `0 <= 2*size <= capacity` holds after the build. -/
theorem buildHashTable_capacity_rule (table : HashTable) (root : AVLNode)
    (hn : 1 ≤ countStudents root) :
    ∃ p : Nat, (buildHashTable table root).capacity = (p : Int) ∧ p.Prime ∧
      2 * countStudents root + 1 ≤ (p : Int) ∧
      (∀ q : Nat, q.Prime → 2 * countStudents root + 1 ≤ (q : Int) → p ≤ q) ∧
      nextPrime (countStudents root * 2 + 1) = (p : Int) ∧
      (∀ fuel, (countStudents root * 2 + 1).natAbs + 3 ≤ fuel →
        nextPrimeLoop fuel (countStudents root * 2 + 1) = (p : Int)) ∧
      isPrime (p : Int) = 1 ∧
      0 ≤ (buildHashTable table root).size ∧
      2 * (buildHashTable table root).size ≤ (buildHashTable table root).capacity := by
  have hne : countStudents root ≠ 0 := by omega
  have hcount := countStudents_eq_length root
  have hcast : countStudents root * 2 + 1 = (((inorder root).length * 2 + 1 : Nat) : Int) := by
    rw [hcount]; push_cast; ring
  obtain ⟨p, hp, hprime, hle, hmin, hfuel⟩ := nextPrime_spec ((inorder root).length * 2 + 1)
  obtain ⟨h1, h2, h3⟩ := insertNodes_size (traverseAndInsertToList root)
    (initHashTable (nextPrime (countStudents root * 2 + 1)))
  have hlen := traverse_length root
  rw [buildHashTable_eq table root hne, h1]
  rw [hcast] at h1 h2 h3 ⊢
  rw [hp] at h1 h2 h3 ⊢
  simp only [initHashTable] at h2 h3 ⊢
  refine ⟨p, rfl, hprime, by omega, ?_, rfl, ?_, (isPrime_spec p).1.2 hprime, h2, by omega⟩
  · intro q hq hqle
    exact hmin q hq (by omega)
  · intro fuel hf
    apply hfuel
    simp only [Int.natAbs_ofNat] at hf
    exact hf

/-- Three students give capacity 7, the smallest prime that is at least 7. -/
theorem buildHashTable_capacity_rule_witness :
    1 ≤ countStudents threeStudentTree ∧
      (buildHashTable unbuiltTable threeStudentTree).capacity = 7 ∧
      ∃ p : Nat, (buildHashTable unbuiltTable threeStudentTree).capacity = (p : Int) ∧ p.Prime :=
  ⟨by decide, by decide,
    match buildHashTable_capacity_rule unbuiltTable threeStudentTree (by decide) with
    | ⟨p, h1, h2, _⟩ => ⟨p, h1, h2⟩⟩

/-- C19 fails for the empty tree: `buildHashTable` returns at `studentCount == 0` before the
old array is freed, so it leaves every table as it was. The table built for student 12345 and
then rebuilt from the empty tree still has `Ali Hassan` in its occupied slot 1, with a
reference to a node that is not in the empty tree. -/
theorem buildHashTable_empty_tree_keeps_entries :
    (∀ table : HashTable, buildHashTable table nil = table) ∧
      (slot (buildHashTable (buildHashTable unbuiltTable oneCourseTree) nil) 1).state =
        HASH_OCCUPIED ∧
      (slot (buildHashTable (buildHashTable unbuiltTable oneCourseTree) nil) 1).name =
        bytes "Ali Hassan" ∧
      (slot (buildHashTable (buildHashTable unbuiltTable oneCourseTree) nil) 1).reference =
        oneCourseTree ∧
      (slot (buildHashTable (buildHashTable unbuiltTable oneCourseTree) nil) 1).reference ∉
        traverseAndInsertToList nil ∧
      (buildHashTable (buildHashTable unbuiltTable oneCourseTree) nil).size = 1 :=
  ⟨fun _ => rfl, by decide, by decide, by decide, by decide, by decide⟩

/-! ## The saved text, the hash function, the name example and the course upsert -/

open SlotState

theorem saveCourseList_eq (d : StudentRecord) : ∀ cs : List CourseRecord,
    saveCourseList d cs =
      ((cs.map (fun c => (d, c))).map (fun p => formatLine p.1 p.2)).flatten
  | [] => rfl
  | c :: cs => by
    simp only [saveCourseList, List.map_cons, List.flatten_cons, saveCourseList_eq d cs]

theorem saveRecords_eq : ∀ ds : List StudentRecord,
    saveRecords ds =
      (((ds.flatMap (fun d => d.courses.map (fun c => (d, c)))).map
        (fun p => formatLine p.1 p.2))).flatten
  | [] => rfl
  | d :: ds => by
    simp only [saveRecords, saveNodeCourses, List.flatMap_cons, List.map_append,
      List.flatten_append, saveRecords_eq ds, saveCourseList_eq d d.courses]

theorem coursesWithID_own (d : StudentRecord) : ∀ cs : List CourseRecord,
    coursesWithID (cs.map (fun c => (d, c))) d.studentID = cs
  | [] => rfl
  | c :: cs => by
    have ih := coursesWithID_own d cs
    unfold coursesWithID at ih ⊢
    simp only [List.map_cons, List.filterMap_cons, if_true, ih]

theorem coursesWithID_other (pairs : List (StudentRecord × CourseRecord)) (id : CStr)
    (h : ∀ p ∈ pairs, p.1.studentID ≠ id) : coursesWithID pairs id = [] := by
  unfold coursesWithID
  rw [List.filterMap_eq_nil_iff]
  intro p hp
  simp [h p hp]

theorem idLt_ne {a b : StudentRecord} (h : idLt a b) : a.studentID ≠ b.studentID := by
  intro heq
  unfold idLt at h
  rw [heq, strcmp_self] at h
  omega

theorem coursesWithID_records : ∀ ds : List StudentRecord, ds.Pairwise idLt →
    ∀ d ∈ ds, coursesWithID (ds.flatMap (fun x => x.courses.map (fun c => (x, c))))
      d.studentID = d.courses
  | [], _, d, hd => by simp at hd
  | x :: ds, hpw, d, hd => by
    rw [List.pairwise_cons] at hpw
    have happ : coursesWithID ((x :: ds).flatMap (fun x => x.courses.map (fun c => (x, c))))
        d.studentID =
        coursesWithID (x.courses.map (fun c => (x, c))) d.studentID ++
          coursesWithID (ds.flatMap (fun x => x.courses.map (fun c => (x, c)))) d.studentID := by
      unfold coursesWithID
      rw [List.flatMap_cons, List.filterMap_append]
    rw [happ]
    rcases List.mem_cons.1 hd with hdx | hdx
    · subst hdx
      rw [coursesWithID_own, coursesWithID_other, List.append_nil]
      intro p hp
      obtain ⟨y, hy, hpy⟩ := List.mem_flatMap.1 hp
      obtain ⟨c, _, hc⟩ := List.mem_map.1 hpy
      rw [← hc]
      exact Ne.symm (idLt_ne (hpw.1 y hy))
    · rw [coursesWithID_other, List.nil_append, coursesWithID_records ds hpw.2 d hdx]
      intro p hp
      obtain ⟨c, _, hc⟩ := List.mem_map.1 hp
      rw [← hc]
      exact idLt_ne (hpw.1 d hdx)

theorem count_feed_lines : ∀ ps : List (StudentRecord × CourseRecord),
    (∀ p ∈ ps, 10 ∉ lineBody p.1 p.2) →
    ((ps.map (fun p => formatLine p.1 p.2)).flatten).count 10 = ps.length
  | [], _ => rfl
  | p :: ps, h => by
    have ih := count_feed_lines ps (fun q hq => h q (List.mem_cons_of_mem _ hq))
    have h0 : (lineBody p.1 p.2).count 10 = 0 :=
      List.count_eq_zero.2 (h p (List.mem_cons_self _ _))
    rw [List.map_cons, List.flatten_cons, List.count_append, ih, formatLine_eq,
      List.count_append, h0, List.length_cons]
    simp
    omega

theorem length_linePairs : ∀ ds : List StudentRecord,
    (ds.flatMap (fun d => d.courses.map (fun c => (d, c)))).length =
      (ds.map (fun d => d.courses.length)).sum
  | [] => rfl
  | d :: ds => by
    simp only [List.flatMap_cons, List.length_append, List.length_map, List.map_cons,
      List.sum_cons, length_linePairs ds]

/-- C11. Save output shape and order: the text written by `saveTreeRecursive` is the
concatenation of one line per (student, course) pair of the tree, each line being
`name#studentId#major#courseCode#courseTitle#creditHours#semester` followed by a line feed,
with the credit hours as printed by `%d`; on a BST-ordered tree the identifiers of successive
lines never decrease and the lines that carry the identifier of a student are the courses of
that student in list order; the number of lines is the total number of courses (and is the
number of line feeds when no line body contains one), so a student with zero courses has no
line. -/
theorem saveTreeRecursive_lines (t : AVLNode) (h : (inorder t).Pairwise idLt) :
    saveTreeRecursive t = ((linePairs t).map (fun p => formatLine p.1 p.2)).flatten ∧
      (∀ (d : StudentRecord) (c : CourseRecord), formatLine d c =
        d.name ++ [35] ++ d.studentID ++ [35] ++ d.major ++ [35] ++ c.courseCode ++ [35] ++
          c.courseTitle ++ [35] ++ printInt c.creditHours ++ [35] ++ c.semester ++ [10]) ∧
      (linePairs t).Pairwise (fun a b => strcmp a.1.studentID b.1.studentID ≤ 0) ∧
      (∀ d ∈ inorder t, coursesWithID (linePairs t) d.studentID = d.courses) ∧
      (linePairs t).length = totalCourses t ∧
      ((∀ p ∈ linePairs t, 10 ∉ lineBody p.1 p.2) →
        (saveTreeRecursive t).count 10 = totalCourses t) ∧
      (∀ d ∈ inorder t, d.courses = [] → ∀ p ∈ linePairs t, p.1.studentID ≠ d.studentID) := by
  have hlen : (linePairs t).length = totalCourses t := length_linePairs (inorder t)
  have hsave : saveTreeRecursive t =
      ((linePairs t).map (fun p => formatLine p.1 p.2)).flatten := by
    rw [saveTreeRecursive_eq, saveRecords_eq]; rfl
  have hown := coursesWithID_records (inorder t) h
  refine ⟨hsave, ?_, ?_, hown, hlen, ?_, ?_⟩
  · intro d c
    simp [formatLine]
  · unfold linePairs
    rw [List.pairwise_flatMap]
    constructor
    · intro d _
      rw [List.pairwise_map]
      exact List.pairwise_of_forall (fun _ _ => by simp only [strcmp_self]; omega)
    · refine List.Pairwise.imp ?_ h
      intro a b hab x hx y hy
      obtain ⟨c, _, hc⟩ := List.mem_map.1 hx
      obtain ⟨c1, _, hc1⟩ := List.mem_map.1 hy
      rw [← hc, ← hc1]
      exact le_of_lt hab
  · intro hno
    rw [hsave, count_feed_lines _ hno, hlen]
  · intro d hd hempty p hp heq
    have h1 := hown d hd
    rw [hempty] at h1
    unfold coursesWithID at h1
    rw [List.filterMap_eq_nil_iff] at h1
    have := h1 p hp
    simp [heq] at this

/-- The tree of three students whose second student has no course is saved as three lines,
none of them for the identifier 12350. -/
theorem saveTreeRecursive_lines_witness :
    (inorder noCourseTree).Pairwise idLt ∧
      (inorder noCourseTree).map (fun d => d.courses.length) = [2, 0, 1] ∧
      (saveTreeRecursive noCourseTree).count 10 = 3 ∧
      (linePairs noCourseTree).length = totalCourses noCourseTree ∧
      saveTreeRecursive noCourseTree =
        ((linePairs noCourseTree).map (fun p => formatLine p.1 p.2)).flatten :=
  ⟨by decide, by decide, by decide,
    (saveTreeRecursive_lines noCourseTree (by decide)).2.2.2.2.1,
    (saveTreeRecursive_lines noCourseTree (by decide)).1⟩

/-! ### The hash function -/

theorem hashLoop_poly : ∀ (s : CStr) (h : Nat),
    hashLoop s h % ULONG_MODULUS = (h * 131 ^ s.length + polynomialValue s) % ULONG_MODULUS
  | [], h => by simp [hashLoop, polynomialValue]
  | c :: s, h => by
    simp only [hashLoop, polynomialValue, List.length_cons]
    rw [hashLoop_poly s]
    have e : h * 131 ^ (s.length + 1) + (tolower c * 131 ^ s.length + polynomialValue s) =
        (h * 131 + tolower c) * 131 ^ s.length + polynomialValue s := by ring
    rw [e]
    exact Nat.ModEq.add_right _ (Nat.ModEq.mul_right _ (Nat.mod_modEq _ _))

theorem hashLoop_lt : ∀ (s : CStr) (h : Nat), h < ULONG_MODULUS → hashLoop s h < ULONG_MODULUS
  | [], _, hh => hh
  | c :: s, h, _ => by
    simp only [hashLoop]
    exact hashLoop_lt s _ (Nat.mod_lt _ (by decide))

theorem hashString_eq (name : CStr) (m : Int) :
    hashString name m = (polynomialValue name % ULONG_MODULUS) % m.toNat := by
  unfold hashString
  have h1 := hashLoop_poly name 0
  rw [Nat.mod_eq_of_lt (hashLoop_lt name 0 (by decide))] at h1
  rw [h1]
  simp

theorem tolower_lt (c : Nat) (h : c < 256) : tolower c < 256 := by
  unfold tolower
  split <;> omega

theorem polynomialValue_bound : ∀ s : CStr, (∀ c ∈ s, c < 256) →
    polynomialValue s * 130 < 256 * 131 ^ s.length
  | [], _ => by simp [polynomialValue]
  | c :: s, h => by
    have ih := polynomialValue_bound s (fun x hx => h x (List.mem_cons_of_mem _ hx))
    have hc := tolower_lt c (h c (List.mem_cons_self _ _))
    have hmul : tolower c * 131 ^ s.length ≤ 255 * 131 ^ s.length :=
      Nat.mul_le_mul_right _ (by omega)
    simp only [polynomialValue, List.length_cons, pow_succ]
    generalize 131 ^ s.length = K at ih hmul ⊢
    generalize tolower c * K = X at hmul ⊢
    omega

/-- C18 as stated fails: the name `Ali Hassan` has 10 characters, its polynomial value
1111517239796929113400 exceeds the range of `unsigned long` and is a multiple of 7, while
`hashString` returns 6 for the capacity 7. -/
theorem hashString_differs_from_polynomial :
    (bytes "Ali Hassan").length ≤ 127 ∧
      polynomialValue (bytes "Ali Hassan") = 1111517239796929113400 ∧
      polynomialValue (bytes "Ali Hassan") % 7 = 0 ∧
      hashString (bytes "Ali Hassan") 7 = 6 ∧
      hashString (bytes "Ali Hassan") 7 ≠ polynomialValue (bytes "Ali Hassan") % (7 : Int).toNat := by
  decide

/-- C18, amended. For every name and every capacity `m >= 1`, `hashString(name, m)` is the
polynomial value `sum lower(c_i) * 131^(k-i)` reduced modulo `2^64` (the accumulation in
`unsigned long` wraps around) and then modulo `m`; it is below `m`; it is the polynomial
value modulo `m` whenever that value is below `2^64`, which holds for every name of at most 8
characters. -/
theorem hashString_polynomial (name : CStr) (m : Int) (hm : 1 ≤ m) :
    hashString name m = (polynomialValue name % 2 ^ 64) % m.toNat ∧
      ((hashString name m : Nat) : Int) < m ∧
      (polynomialValue name < 2 ^ 64 → hashString name m = polynomialValue name % m.toNat) ∧
      ((∀ c ∈ name, c < 256) → name.length ≤ 8 →
        hashString name m = polynomialValue name % m.toNat) := by
  have heq : hashString name m = (polynomialValue name % 2 ^ 64) % m.toNat :=
    hashString_eq name m
  have hsmall : polynomialValue name < 2 ^ 64 →
      hashString name m = polynomialValue name % m.toNat := by
    intro hlt
    rw [heq, Nat.mod_eq_of_lt hlt]
  refine ⟨heq, ?_, hsmall, ?_⟩
  · have hpos : 0 < m.toNat := by omega
    have := Nat.mod_lt (polynomialValue name % 2 ^ 64) hpos
    rw [heq]
    omega
  · intro hbytes hlen
    apply hsmall
    have hb := polynomialValue_bound name hbytes
    have hpow : 131 ^ name.length ≤ 131 ^ 8 := Nat.pow_le_pow_right (by decide) hlen
    norm_num at hpow ⊢
    omega

/-- The name `Ali` and the capacity 7: the hash is 4, the polynomial value modulo 7. -/
theorem hashString_polynomial_witness :
    hashString (bytes "Ali") 7 = 4 ∧
      hashString (bytes "Ali") 7 = (polynomialValue (bytes "Ali") % 2 ^ 64) % (7 : Int).toNat :=
  ⟨by decide, (hashString_polynomial (bytes "Ali") 7 (by decide)).1⟩

/-! ### The example of the three names -/

/-- C17 as stated fails: with the stored names `Ali`, `ali ` and `Sara` the build leaves three
occupied slots and `size = 3`, not 2. -/
theorem buildHashTable_three_names_not_two :
    (inorder threeNameTree).map (fun d => d.name) = [bytes "Ali", bytes "ali ", bytes "Sara"] ∧
      (buildHashTable unbuiltTable threeNameTree).size ≠ 2 ∧
      countOccupied ((buildHashTable unbuiltTable threeNameTree).entries.getD []) ≠ 2 := by
  decide

/-- C17, amended. `equalsIgnoreCase` does not trim: `Ali` and `ali ` are different names for
the index, and the build over the students `Ali`, `ali ` and `Sara` yields a table of 7 slots
with three occupied slots (size = 3), the names being stored in the slots 4, 3 and 2. With
the names `Ali`, `ali` and `Sara` the table has two occupied slots (size = 2): the insertion
of `ali` returns 1, leaves the size at 1 and rewrites slot 4, which held `Ali` and the first
student, with the name `ali` and the second student. -/
theorem buildHashTable_three_names :
    equalsIgnoreCase (bytes "Ali") (bytes "ali ") = 0 ∧
      (inorder threeNameTree).map (fun d => d.name) = [bytes "Ali", bytes "ali ", bytes "Sara"] ∧
      (buildHashTable unbuiltTable threeNameTree).capacity = 7 ∧
      (buildHashTable unbuiltTable threeNameTree).size = 3 ∧
      countOccupied ((buildHashTable unbuiltTable threeNameTree).entries.getD []) = 3 ∧
      (slot (buildHashTable unbuiltTable threeNameTree) 4).name = bytes "Ali" ∧
      (slot (buildHashTable unbuiltTable threeNameTree) 3).name = bytes "ali " ∧
      (slot (buildHashTable unbuiltTable threeNameTree) 2).name = bytes "Sara" ∧
      (inorder sameNameTree).map (fun d => d.name) = [bytes "Ali", bytes "ali", bytes "Sara"] ∧
      (buildHashTable unbuiltTable sameNameTree).size = 2 ∧
      countOccupied ((buildHashTable unbuiltTable sameNameTree).entries.getD []) = 2 ∧
      (slot (insertNodes (initHashTable 7) ((traverseAndInsertToList sameNameTree).take 1))
        4).name = bytes "Ali" ∧
      (hashInsert (insertNodes (initHashTable 7) ((traverseAndInsertToList sameNameTree).take 1))
        (bytes "ali") nil).2 = 1 ∧
      (insertNodes (initHashTable 7) ((traverseAndInsertToList sameNameTree).take 2)).size = 1 ∧
      (slot (buildHashTable unbuiltTable sameNameTree) 4).name = bytes "ali" ∧
      (recordOf (slot (buildHashTable unbuiltTable sameNameTree) 4).reference).map
        (fun d => d.studentID) = some (bytes "2") := by
  decide

/-! ### The course upsert -/

/-- C20. Course upsert, for a new entry `e` that fits the buffers of `struct CourseRecord`:
`appendCourseRecord` returns 1 iff no entry of the list has a code equal to `e.code` ignoring
case, and then the new list is the old list followed by `e`; otherwise it returns 0, the list
keeps its length and the codes of its entries in order, the first entry whose code matches
gets the title, credit hours and semester of `e`, and all other entries are unchanged. -/
theorem appendCourseRecord_upsert (cs : List CourseRecord) (e : CourseRecord)
    (he : courseFits e) :
    ((appendCourseRecord cs e).2 = 1 ↔
        ∀ x ∈ cs, equalsIgnoreCase x.courseCode e.courseCode = 0) ∧
      ((appendCourseRecord cs e).2 = 1 → (appendCourseRecord cs e).1 = cs ++ [e]) ∧
      ((appendCourseRecord cs e).2 ≠ 1 →
        (appendCourseRecord cs e).2 = 0 ∧
        (appendCourseRecord cs e).1.length = cs.length ∧
        (appendCourseRecord cs e).1.map (fun c => c.courseCode) =
          cs.map (fun c => c.courseCode) ∧
        ∃ pre c post, cs = pre ++ c :: post ∧
          (∀ x ∈ pre, equalsIgnoreCase x.courseCode e.courseCode = 0) ∧
          equalsIgnoreCase c.courseCode e.courseCode ≠ 0 ∧
          (appendCourseRecord cs e).1 =
            pre ++ { courseCode := c.courseCode, courseTitle := e.courseTitle,
                     creditHours := e.creditHours, semester := e.semester } :: post) := by
  obtain ⟨_, htitle, hsem⟩ := he
  by_cases hpres : hasCourse cs e.courseCode = 0
  · have habs := appendCourseRecord_absent cs e hpres
    rw [habs]
    refine ⟨⟨fun _ => (hasCourse_zero_iff cs e.courseCode).1 hpres, fun _ => rfl⟩,
      fun _ => rfl, fun hne => absurd rfl hne⟩
  · obtain ⟨pre, c, post, hcs, hpre, hc, happ⟩ := appendCourseRecord_present cs e hpres
    rw [copyBounded_of_lt _ _ htitle, copyBounded_of_lt _ _ hsem] at happ
    rw [happ]
    refine ⟨⟨fun h1 => by simp at h1, fun hall => ?_⟩, fun h1 => by simp at h1, fun _ => ?_⟩
    · exact absurd ((hasCourse_zero_iff cs e.courseCode).2 hall) hpres
    · refine ⟨rfl, ?_, ?_, pre, c, post, hcs, hpre, hc, rfl⟩
      · rw [hcs]; simp
      · rw [hcs]; simp

/-- The course CS102 is appended to a list that holds CS101, and an entry with the code CS101
overwrites the entry that is there. -/
theorem appendCourseRecord_upsert_witness :
    courseFits cs102 ∧ appendCourseRecord [cs101] cs102 = ([cs101, cs102], 1) ∧
      ((appendCourseRecord [cs101] cs102).2 = 1 ↔
        ∀ x ∈ [cs101], equalsIgnoreCase x.courseCode cs102.courseCode = 0) :=
  ⟨by decide, by decide, (appendCourseRecord_upsert [cs101] cs102 (by decide)).1⟩

/-! ## Course removal, unique course codes and lookup by name -/

/-- C21. Course removal: `removeCourseRecord` returns 1 iff `hasCourse` held before the call;
then the new list is the old list without the first entry whose code equals `c` ignoring
case, the other entries in their order; otherwise 0 is returned and the list is unchanged.
When the codes of the list are pairwise different ignoring case, `hasCourse` does not hold
after the call. -/
theorem removeCourseRecord_effect (cs : List CourseRecord) (c : CStr) :
    ((removeCourseRecord cs c).2 = 1 ↔ hasCourse cs c ≠ 0) ∧
      (hasCourse cs c ≠ 0 →
        ∃ pre x post, cs = pre ++ x :: post ∧
          (∀ y ∈ pre, equalsIgnoreCase y.courseCode c = 0) ∧
          equalsIgnoreCase x.courseCode c ≠ 0 ∧
          removeCourseRecord cs c = (pre ++ post, 1)) ∧
      (hasCourse cs c = 0 → removeCourseRecord cs c = (cs, 0)) ∧
      (uniqueCodes cs → hasCourse (removeCourseRecord cs c).1 c = 0) := by
  by_cases h : hasCourse cs c = 0
  · have habs := removeCourseRecord_absent cs c h
    rw [habs]
    exact ⟨⟨fun h1 => by simp at h1, fun h1 => absurd h h1⟩, fun h1 => absurd h h1,
      fun _ => rfl, fun _ => h⟩
  · obtain ⟨pre, x, post, hcs, hpre, hx, hrem⟩ := removeCourseRecord_present cs c h
    rw [hrem]
    refine ⟨⟨fun _ => h, fun _ => rfl⟩, fun _ => ⟨pre, x, post, hcs, hpre, hx, rfl⟩,
      fun h0 => absurd h0 h, fun hu => ?_⟩
    rw [hasCourse_zero_iff]
    intro y hy
    rcases List.mem_append.1 hy with hy | hy
    · exact hpre y hy
    · by_contra hne
      unfold uniqueCodes at hu
      rw [hcs, List.pairwise_append, List.pairwise_cons] at hu
      exact equalsIgnoreCase_trans hx (equalsIgnoreCase_symm hne) (hu.2.1.1 y hy)

/-- The code `cs101` removes the entry CS101 of the list `[CS101, CS102]`. -/
theorem removeCourseRecord_effect_witness :
    uniqueCodes [cs101, cs102] ∧
      removeCourseRecord [cs101, cs102] (bytes "cs101") = ([cs102], 1) ∧
      hasCourse (removeCourseRecord [cs101, cs102] (bytes "cs101")).1 (bytes "cs101") = 0 :=
  ⟨by decide, by decide,
    (removeCourseRecord_effect [cs101, cs102] (bytes "cs101")).2.2.2 (by decide)⟩

theorem uniqueCodes_append (cs : List CourseRecord) (e : CourseRecord) (h : uniqueCodes cs) :
    uniqueCodes (appendCourseRecord cs e).1 := by
  unfold uniqueCodes at h ⊢
  by_cases hpres : hasCourse cs e.courseCode = 0
  · rw [appendCourseRecord_absent cs e hpres, List.pairwise_append]
    refine ⟨h, List.pairwise_singleton _ _, ?_⟩
    intro a ha b hb
    rw [List.mem_singleton.1 hb]
    exact (hasCourse_zero_iff cs e.courseCode).1 hpres a ha
  · obtain ⟨pre, c0, post, hsplit, _, _, happ⟩ := appendCourseRecord_present cs e hpres
    rw [happ]
    refine pairwise_codes_congr ?_ h
    rw [hsplit]; simp

theorem removeCourseRecord_sublist (cs : List CourseRecord) (code : CStr) :
    (removeCourseRecord cs code).1.Sublist cs := by
  by_cases h : hasCourse cs code = 0
  · rw [removeCourseRecord_absent cs code h]
  · obtain ⟨pre, x, post, hcs, _, _, hrem⟩ := removeCourseRecord_present cs code h
    rw [hrem, hcs]
    exact List.Sublist.append_left (List.sublist_cons_self x post) pre

theorem uniqueCodes_remove (cs : List CourseRecord) (code : CStr) (h : uniqueCodes cs) :
    uniqueCodes (removeCourseRecord cs code).1 :=
  List.Pairwise.sublist (removeCourseRecord_sublist cs code) h

theorem courseFits_append (cs : List CourseRecord) (e : CourseRecord)
    (hcs : ∀ c ∈ cs, courseFits c) (he : courseFits e) :
    ∀ c ∈ (appendCourseRecord cs e).1, courseFits c := by
  by_cases hpres : hasCourse cs e.courseCode = 0
  · rw [appendCourseRecord_absent cs e hpres]
    intro c hc
    rcases List.mem_append.1 hc with hc | hc
    · exact hcs c hc
    · rw [List.mem_singleton.1 hc]; exact he
  · obtain ⟨pre, c0, post, hsplit, _, _, happ⟩ := appendCourseRecord_present cs e hpres
    have hc0 : courseFits c0 := hcs c0 (by rw [hsplit]; simp)
    rw [happ, copyBounded_of_lt _ _ he.2.1, copyBounded_of_lt _ _ he.2.2]
    intro c hc
    rcases List.mem_append.1 hc with hc | hc
    · exact hcs c (by rw [hsplit]; simp [hc])
    · rcases List.mem_cons.1 hc with rfl | hc
      · exact ⟨hc0.1, he.2.1, he.2.2⟩
      · exact hcs c (by rw [hsplit]; simp [hc])

theorem length_copyBounded_lt (s : CStr) (n : Nat) (hn : 0 < n) :
    (copyBounded s n).length < n := by
  unfold copyBounded
  rw [List.length_take]
  omega

/-- Where the records of the tree after `insertRegistration` come from, whatever the order
of the tree is. -/
theorem insertRegistration_mem (name id major : CStr) (course : CourseRecord) :
    ∀ (t : AVLNode) (x : StudentRecord),
      x ∈ inorder (insertRegistration t name id major course).root →
      x ∈ inorder t ∨
        x = { name := copyBounded name MAX_NAME_LEN, studentID := copyBounded id MAX_ID_LEN,
              major := copyBounded major MAX_MAJOR_LEN, courses := [course] } ∨
        ∃ d ∈ inorder t,
          x = { name := copyBounded name MAX_NAME_LEN, studentID := d.studentID,
                major := copyBounded major MAX_MAJOR_LEN,
                courses := (appendCourseRecord d.courses course).1 }
  | nil, x, hx => by
    simp [insertRegistration, createNode, inorder, appendCourseRecord, updateMatching] at hx
    exact Or.inr (Or.inl hx)
  | node d l r h, x, hx => by
    by_cases c1 : strcmp id d.studentID < 0
    · simp only [insertRegistration, c1, if_true, inorder_insertFixup, inorder, List.mem_append,
        List.mem_cons] at hx
      rcases hx with hx | hx | hx
      · rcases insertRegistration_mem name id major course l x hx with h1 | h1 | ⟨d0, hd0, h1⟩
        · exact Or.inl (by simp [inorder, h1])
        · exact Or.inr (Or.inl h1)
        · exact Or.inr (Or.inr ⟨d0, by simp [inorder, hd0], h1⟩)
      · exact Or.inl (by simp [inorder, hx])
      · exact Or.inl (by simp [inorder, hx])
    · by_cases c2 : strcmp id d.studentID > 0
      · simp only [insertRegistration, c1, c2, if_true, if_false, inorder_insertFixup, inorder,
          List.mem_append, List.mem_cons] at hx
        rcases hx with hx | hx | hx
        · exact Or.inl (by simp [inorder, hx])
        · exact Or.inl (by simp [inorder, hx])
        · rcases insertRegistration_mem name id major course r x hx with h1 | h1 | ⟨d0, hd0, h1⟩
          · exact Or.inl (by simp [inorder, h1])
          · exact Or.inr (Or.inl h1)
          · exact Or.inr (Or.inr ⟨d0, by simp [inorder, hd0], h1⟩)
      · simp only [insertRegistration, c1, c2, if_false] at hx
        have hx1 : x ∈ inorder l ∨
            x = { name := copyBounded name MAX_NAME_LEN, studentID := d.studentID,
                  major := copyBounded major MAX_MAJOR_LEN,
                  courses := (appendCourseRecord d.courses course).1 } ∨ x ∈ inorder r := by
          split at hx <;>
            simpa only [inorder, inorder_insertFixup, List.mem_append, List.mem_cons] using hx
        rcases hx1 with hx1 | hx1 | hx1
        · exact Or.inl (by simp [inorder, hx1])
        · exact Or.inr (Or.inr ⟨d, by simp [inorder], hx1⟩)
        · exact Or.inl (by simp [inorder, hx1])

/-- Every record of the tree after `deleteStudent` is a record of the tree before. -/
theorem deleteStudent_mem : ∀ (t : AVLNode) (id : CStr), recordsFit t →
    ∀ x ∈ inorder (deleteStudent t id), x ∈ inorder t
  | nil, _, _, x, hx => by simp [deleteStudent, inorder] at hx
  | node d l r h, id, hfit, x, hx => by
    have hfl : recordsFit l := fun y hy => hfit y (by simp [inorder, hy])
    have hfr : recordsFit r := fun y hy => hfit y (by simp [inorder, hy])
    by_cases c1 : strcmp id d.studentID < 0
    · simp only [deleteStudent, c1, if_true, inorder_deleteFixup, inorder, List.mem_append,
        List.mem_cons] at hx
      rcases hx with hx | hx | hx
      · exact (by simp [inorder, deleteStudent_mem l id hfl x hx])
      · simp [inorder, hx]
      · simp [inorder, hx]
    · by_cases c2 : strcmp id d.studentID > 0
      · simp only [deleteStudent, c1, c2, if_true, if_false, inorder_deleteFixup, inorder,
          List.mem_append, List.mem_cons] at hx
        rcases hx with hx | hx | hx
        · simp [inorder, hx]
        · simp [inorder, hx]
        · exact (by simp [inorder, deleteStudent_mem r id hfr x hx])
      · simp only [deleteStudent, c1, c2, if_false] at hx
        cases l with
        | nil =>
          cases r with
          | nil => simp [inorder] at hx
          | node rd rl rr rh =>
            simp only [true_or, if_true, ne_eq, not_true_eq_false, if_false, reduceCtorEq,
              inorder_deleteFixup] at hx
            simp only [inorder, List.nil_append, List.mem_cons]
            exact Or.inr (by simpa [inorder] using hx)
        | node ld ll lr lh =>
          cases r with
          | nil =>
            simp only [or_true, if_true, ne_eq, reduceCtorEq, not_false_eq_true, if_false,
              inorder_deleteFixup] at hx
            rw [inorder, List.mem_append]
            exact Or.inl hx
          | node rd rl rr rh =>
            simp only [reduceCtorEq, or_self, if_false] at hx
            have hne := minValueNode_ne_nil rd rl rr rh
            cases hmin : minValueNode (node rd rl rr rh) with
            | nil => exact absurd hmin hne
            | node td tl tr th =>
              rw [hmin] at hx
              obtain ⟨rest, hrest⟩ := minValueNode_spec _ td tl tr th hmin
              have htd : td ∈ inorder (node rd rl rr rh) := by rw [hrest]; simp
              have hcopy : copyStudentRecord td = td := copyStudentRecord_of_fit td (hfr td htd)
              simp only [inorder_deleteFixup, hcopy] at hx
              rw [inorder, List.mem_append, List.mem_cons] at hx
              rw [inorder, List.mem_append, List.mem_cons]
              rcases hx with hx | hx | hx
              · exact Or.inl hx
              · exact Or.inr (Or.inr (hx ▸ htd))
              · exact Or.inr (Or.inr
                  (deleteStudent_mem (node rd rl rr rh) td.studentID hfr x hx))

theorem findByID_mem (id : CStr) : ∀ (t : AVLNode) (d : StudentRecord) (l r : AVLNode) (h : Int),
    findByID t id = some (node d l r h) → d ∈ inorder t
  | nil, _, _, _, _, hf => by simp [findByID] at hf
  | node d0 l0 r0 h0, d, l, r, h, hf => by
    simp only [findByID] at hf
    split_ifs at hf with c1 c2
    · simp only [Option.some.injEq, node.injEq] at hf
      simp [inorder, hf.1]
    · simp [inorder, findByID_mem id l0 d l r h hf]
    · simp [inorder, findByID_mem id r0 d l r h hf]

/-- Where the records of the tree after the store of `setCoursesAt` come from. -/
theorem setCoursesAt_mem (id : CStr) (courses : List CourseRecord) :
    ∀ (t : AVLNode) (x : StudentRecord), x ∈ inorder (setCoursesAt t id courses) →
      x ∈ inorder t ∨ ∃ d l r h, findByID t id = some (node d l r h) ∧
        x = { name := d.name, studentID := d.studentID, major := d.major, courses := courses }
  | nil, x, hx => by simp [setCoursesAt, inorder] at hx
  | node d0 l0 r0 h0, x, hx => by
    simp only [setCoursesAt, findByID] at hx ⊢
    split_ifs at hx ⊢ with c1 c2
    · simp only [inorder, List.mem_append, List.mem_cons] at hx
      rcases hx with hx | hx | hx
      · exact Or.inl (by simp [inorder, hx])
      · exact Or.inr ⟨d0, l0, r0, h0, rfl, hx⟩
      · exact Or.inl (by simp [inorder, hx])
    · simp only [inorder, List.mem_append, List.mem_cons] at hx
      rcases hx with hx | hx | hx
      · rcases setCoursesAt_mem id courses l0 x hx with h1 | h1
        · exact Or.inl (by simp [inorder, h1])
        · exact Or.inr h1
      · exact Or.inl (by simp [inorder, hx])
      · exact Or.inl (by simp [inorder, hx])
    · simp only [inorder, List.mem_append, List.mem_cons] at hx
      rcases hx with hx | hx | hx
      · exact Or.inl (by simp [inorder, hx])
      · exact Or.inl (by simp [inorder, hx])
      · rcases setCoursesAt_mem id courses r0 x hx with h1 | h1
        · exact Or.inl (by simp [inorder, h1])
        · exact Or.inr h1

/-- The records of a built tree fit their buffers and hold pairwise different codes. -/
theorem treeBuilt_records (t : AVLNode) (ht : TreeBuilt t) :
    ∀ d ∈ inorder t, recordFits d ∧ uniqueCodes d.courses := by
  induction ht with
  | empty => intro d hd; simp [inorder] at hd
  | insert t name id major course _ hfit ih =>
    intro x hx
    have hn := length_copyBounded_lt name MAX_NAME_LEN (by decide)
    have hm := length_copyBounded_lt major MAX_MAJOR_LEN (by decide)
    rcases insertRegistration_mem name id major course t x hx with h1 | h1 | ⟨d, hd, h1⟩
    · exact ih x h1
    · rw [h1]
      refine ⟨⟨hn, length_copyBounded_lt id MAX_ID_LEN (by decide), hm, ?_⟩,
        List.pairwise_singleton _ _⟩
      intro c hc
      rw [List.mem_singleton.1 hc]
      exact hfit
    · obtain ⟨hdf, hdu⟩ := ih d hd
      rw [h1]
      exact ⟨⟨hn, hdf.2.1, hm, courseFits_append d.courses course hdf.2.2.2 hfit⟩,
        uniqueCodes_append d.courses course hdu⟩
  | removeCourse t id code _ ih =>
    intro x hx
    unfold deleteRegistrationFlow at hx
    cases hfind : findByID t id with
    | none => rw [hfind] at hx; exact ih x hx
    | some nd =>
      cases nd with
      | nil => rw [hfind] at hx; exact ih x hx
      | node d l r h =>
        rw [hfind] at hx
        simp only at hx
        obtain ⟨hdf, hdu⟩ := ih d (findByID_mem id t d l r h hfind)
        have hsub := removeCourseRecord_sublist d.courses code
        have hinner : ∀ y ∈ inorder (setCoursesAt t id (removeCourseRecord d.courses code).1),
            recordFits y ∧ uniqueCodes y.courses := by
          intro y hy
          rcases setCoursesAt_mem id _ t y hy with h1 | ⟨d1, l1, r1, h1, hf1, hy1⟩
          · exact ih y h1
          · rw [hfind] at hf1
            simp only [Option.some.injEq, node.injEq] at hf1
            rw [hy1, ← hf1.1]
            exact ⟨⟨hdf.1, hdf.2.1, hdf.2.2.1, fun c hc => hdf.2.2.2 c (hsub.subset hc)⟩,
              uniqueCodes_remove d.courses code hdu⟩
        split_ifs at hx
        · exact ih x hx
        · exact hinner x (deleteStudent_mem _ id (fun y hy => (hinner y hy).1) x hx)
        · exact hinner x hx
  | delete t id _ ih =>
    intro x hx
    exact ih x (deleteStudent_mem t id (fun y hy => (ih y hy).1) x hx)

theorem courseListReachable_unique (cs : List CourseRecord) (h : CourseListReachable cs) :
    uniqueCodes cs := by
  induction h with
  | empty => exact List.Pairwise.nil
  | append cs e _ ih => exact uniqueCodes_append cs e ih
  | remove cs code _ ih => exact uniqueCodes_remove cs code ih

/-- C22. Unique course codes: after any finite sequence of `appendCourseRecord` and
`removeCourseRecord` calls starting from the empty list, no two entries of the course list
have codes that are equal ignoring case; and in every tree built from the empty tree by
`insertRegistration`, the remove-course operation and `deleteStudent`, the course list of
every student record has this property (and every record fits its buffers). -/
theorem course_codes_unique (cs : List CourseRecord) (hcs : CourseListReachable cs)
    (t : AVLNode) (ht : TreeBuilt t) :
    uniqueCodes cs ∧ (∀ d ∈ inorder t, uniqueCodes d.courses) ∧ recordsFit t :=
  ⟨courseListReachable_unique cs hcs, fun d hd => (treeBuilt_records t ht d hd).2,
    fun d hd => (treeBuilt_records t ht d hd).1⟩

/-- The list left by three appends and one removal, and the tree of three students. -/
theorem course_codes_unique_witness :
    sampleCourseList.map (fun c => c.courseTitle) = [bytes "Programming"] ∧
      uniqueCodes sampleCourseList ∧
      ∀ d ∈ inorder threeStudentTree, uniqueCodes d.courses :=
  ⟨by decide,
    (course_codes_unique sampleCourseList
      (CourseListReachable.remove _ _ (CourseListReachable.append _ _
        (CourseListReachable.append _ _
          (CourseListReachable.append _ _ CourseListReachable.empty))))
      threeStudentTree
      (TreeBuilt.insert _ _ _ _ _ (TreeBuilt.insert _ _ _ _ _ (TreeBuilt.insert _ _ _ _ _
        (TreeBuilt.insert _ _ _ _ _ TreeBuilt.empty (by decide)) (by decide)) (by decide))
        (by decide))).1,
    (course_codes_unique sampleCourseList
      (CourseListReachable.remove _ _ (CourseListReachable.append _ _
        (CourseListReachable.append _ _
          (CourseListReachable.append _ _ CourseListReachable.empty))))
      threeStudentTree
      (TreeBuilt.insert _ _ _ _ _ (TreeBuilt.insert _ _ _ _ _ (TreeBuilt.insert _ _ _ _ _
        (TreeBuilt.insert _ _ _ _ _ TreeBuilt.empty (by decide)) (by decide)) (by decide))
        (by decide))).2.1⟩

/-! ### Lookup by name -/

theorem collectByName_data (name : CStr) : ∀ (t : AVLNode) (list : NodeList),
    (collectByName t name list).data =
        list.data ++ (traverseAndInsertToList t).filter (nameMatches name) ∧
      (collectByName t name list).size =
        list.size + ((traverseAndInsertToList t).filter (nameMatches name)).length ∧
      (0 ≤ list.size → list.size ≤ list.capacity →
        (collectByName t name list).size ≤ (collectByName t name list).capacity)
  | nil, list => by simp [collectByName, traverseAndInsertToList]
  | node d l r h, list => by
    obtain ⟨l1, l2, l3⟩ := collectByName_data name l list
    have hlen : (0 : Int) ≤ ((traverseAndInsertToList l).filter (nameMatches name)).length :=
      Int.ofNat_nonneg _
    by_cases hm : equalsIgnoreCase d.name name ≠ 0
    · have hm1 : nameMatches name (node d l r h) = true := by simp [nameMatches, nameOf, hm]
      have hstep : collectByName (node d l r h) name list =
          collectByName r name (appendNode (collectByName l name list) (node d l r h)) := by
        simp only [collectByName, hm, if_true, ne_eq, not_false_eq_true]
      obtain ⟨r1, r2, r3⟩ := collectByName_data name r
        (appendNode (collectByName l name list) (node d l r h))
      have ha1 : (appendNode (collectByName l name list) (node d l r h)).data =
          (collectByName l name list).data ++ [node d l r h] := rfl
      have ha2 : (appendNode (collectByName l name list) (node d l r h)).size =
          (collectByName l name list).size + 1 := rfl
      rw [hstep]
      refine ⟨?_, ?_, ?_⟩
      · rw [r1, ha1, l1]
        simp only [traverseAndInsertToList, List.filter_append, List.filter_cons, hm1, if_true,
          List.append_assoc, List.singleton_append]
      · rw [r2, ha2, l2]
        simp only [traverseAndInsertToList, List.filter_append, List.filter_cons, hm1, if_true,
          List.length_append, List.length_cons]
        push_cast; ring
      · intro h0 hcap
        have hl3 := l3 h0 hcap
        apply r3
        · rw [ha2, l2]; omega
        · rw [ha2]
          simp only [appendNode]
          split_ifs <;> omega
    · have hm1 : nameMatches name (node d l r h) = false := by simp [nameMatches, nameOf, hm]
      have hstep : collectByName (node d l r h) name list =
          collectByName r name (collectByName l name list) := by
        simp only [collectByName, hm, if_false]
      obtain ⟨r1, r2, r3⟩ := collectByName_data name r (collectByName l name list)
      rw [hstep]
      refine ⟨?_, ?_, ?_⟩
      · rw [r1, l1]
        simp [traverseAndInsertToList, List.filter_append, List.filter_cons, hm1]
      · rw [r2, l2]
        simp only [traverseAndInsertToList, List.filter_append, List.filter_cons, hm1,
          List.length_append]
        simp
        ring
      · intro h0 hcap
        exact r3 (by rw [l2]; omega) (l3 h0 hcap)

theorem filter_named_records (name : CStr) : ∀ t : AVLNode,
    ((traverseAndInsertToList t).filter (nameMatches name)).map recordOf =
      ((inorder t).filter (recordNamed name)).map some
  | nil => rfl
  | node d l r h => by
    have e : nameMatches name (node d l r h) = recordNamed name d := rfl
    have ihl := filter_named_records name l
    have ihr := filter_named_records name r
    cases hrn : recordNamed name d <;>
      simp [traverseAndInsertToList, inorder, List.filter_append, List.filter_cons, e, hrn, ihl,
        ihr, recordOf]

/-- C23. Lookup by name: `collectByName` on an empty list returns the nodes of the in-order
traversal whose name equals the query ignoring case, in that order, and counts them in `size`
(which stays within `capacity`); the records of the result are the in-order records with such
a name. On a BST-ordered tree the identifiers of the result strictly increase and for every
student with that name exactly one node of the result holds the record of that student; the
result is empty when no student has that name. The function only reads the tree, so the list is all it returns. -/
theorem collectByName_result (root : AVLNode) (name : CStr) :
    (collectByName root name initNodeList).data =
        (traverseAndInsertToList root).filter (nameMatches name) ∧
      (collectByName root name initNodeList).data.map recordOf =
        ((inorder root).filter (recordNamed name)).map some ∧
      (collectByName root name initNodeList).size =
        (collectByName root name initNodeList).data.length ∧
      (collectByName root name initNodeList).size ≤
        (collectByName root name initNodeList).capacity ∧
      (isBST root →
        ((inorder root).filter (recordNamed name)).Pairwise idLt ∧
        ∀ d ∈ inorder root, equalsIgnoreCase d.name name ≠ 0 →
          (collectByName root name initNodeList).data.countP
            (fun nd => decide (recordOf nd = some d)) = 1) ∧
      ((∀ d ∈ inorder root, equalsIgnoreCase d.name name = 0) →
        (collectByName root name initNodeList).data = []) := by
  obtain ⟨h1, h2, h3⟩ := collectByName_data name root initNodeList
  have e1 : initNodeList.data = [] := rfl
  have e2 : initNodeList.size = 0 := rfl
  rw [e1, List.nil_append] at h1
  rw [e2, zero_add] at h2
  have hrec := filter_named_records name root
  rw [← h1] at hrec
  refine ⟨h1, hrec, by rw [h2, h1], h3 (by decide) (by decide), ?_, ?_⟩
  · intro hbst
    have hpw : ((inorder root).filter (recordNamed name)).Pairwise idLt :=
      List.Pairwise.sublist (List.filter_sublist _) hbst
    refine ⟨hpw, ?_⟩
    intro d hd hm
    have hnd : ((inorder root).filter (recordNamed name)).Nodup :=
      List.Pairwise.imp (fun hab => idLt_ne hab ∘ congrArg StudentRecord.studentID) hpw
    have hmem : d ∈ (inorder root).filter (recordNamed name) := by
      rw [List.mem_filter]
      exact ⟨hd, by simp [recordNamed, hm]⟩
    have hcount : (collectByName root name initNodeList).data.countP
        (fun nd => decide (recordOf nd = some d)) =
        ((collectByName root name initNodeList).data.map recordOf).countP
          (fun o => decide (o = some d)) := by
      rw [List.countP_map]; rfl
    have hfun : ((fun o : Option StudentRecord => decide (o = some d)) ∘ some) =
        (fun x => x == d) := by
      funext x
      simp only [Function.comp, Option.some.injEq]
      rfl
    rw [hcount, hrec, List.countP_map, hfun]
    exact List.count_eq_one_of_mem hnd hmem
  · intro hno
    have hnil : ((inorder root).filter (recordNamed name)).map some = [] := by
      rw [List.map_eq_nil_iff, List.filter_eq_nil_iff]
      intro d hd
      simp [recordNamed, hno d hd]
    rw [← hrec] at hnil
    exact List.map_eq_nil_iff.1 hnil

/-- The query `ALI` on the tree with the names `Ali`, `ali` and `Sara` returns the students 1
and 2, in this order. -/
theorem collectByName_result_witness :
    isBST sameNameTree ∧
      (collectByName sameNameTree (bytes "ALI") initNodeList).data.map recordOf =
        ((inorder sameNameTree).filter (recordNamed (bytes "ALI"))).map some ∧
      ((collectByName sameNameTree (bytes "ALI") initNodeList).data.map nameOf) =
        [bytes "Ali", bytes "ali"] ∧
      ((inorder sameNameTree).filter (recordNamed (bytes "ALI"))).Pairwise idLt :=
  ⟨by decide, (collectByName_result sameNameTree (bytes "ALI")).2.1, by decide,
    ((collectByName_result sameNameTree (bytes "ALI")).2.2.2.2.1 (by decide)).1⟩

/-! ## Loaded identifiers, the name index, the line codec and the primality test -/

open SlotState

set_option maxRecDepth 100000 in
/-- C24 fails, by the defect of C6: a file of two lines with the same identifier of 32 digits
is loaded into a tree of two nodes that store the same 31 digits. The first line stores the
identifier cut to 31 characters; for the second line `insertRegistration` compares the token
of 32 characters with the stored 31, goes right and creates a second node. The in-order
sequence of stored identifiers is not strictly increasing. -/
theorem loadFromFile_duplicate_identifier :
    (parseLine (bytes "Ali Hassan#11111111111111111111111111111111#CS#CS101#Intro#3#Fall2024" ++
        [10])).map (fun p => p.2.1.length) = some 32 ∧
      (inorder (loadFromFile (some longIdFile) nil)).map (fun d => d.studentID) =
        [List.replicate 31 49, List.replicate 31 49] ∧
      countStudents (loadFromFile (some longIdFile) nil) = 2 ∧
      ¬ isBST (loadFromFile (some longIdFile) nil) := by
  decide

/-! ### Well-formedness of the name index -/

theorem equalsIgnoreCase_length {a b : CStr} (h : equalsIgnoreCase a b ≠ 0) :
    a.length = b.length := by
  have := congrArg List.length ((equalsIgnoreCase_iff a b).1 h)
  simpa using this

theorem equalsIgnoreCase_values : ∀ a b : CStr,
    equalsIgnoreCase a b = 0 ∨ equalsIgnoreCase a b = 1
  | [], [] => Or.inr rfl
  | [], _ :: _ => Or.inl rfl
  | _ :: _, [] => Or.inl rfl
  | x :: a, y :: b => by
    simp only [equalsIgnoreCase]
    split
    · exact Or.inl rfl
    · exact equalsIgnoreCase_values a b

/-- The names stored in a reachable table fit the name buffer. -/
theorem reachable_names_fit (t : HashTable) (h : Reachable t) :
    ∀ p, (slot t p).state = HASH_OCCUPIED → (slot t p).name.length < MAX_NAME_LEN := by
  induction h with
  | init capacity _ =>
    intro p hp
    unfold slot initHashTable at hp
    simp only [Option.getD_some] at hp
    rw [entryAt_replicate] at hp
    exact absurd hp (by decide)
  | insert t n ref hr hfit ih =>
    obtain ⟨es, hes, _, hlen, hsize, hpi, hu⟩ := tableWF_of_reachable t hr
    have hget : t.entries.getD [] = es := by rw [hes]; rfl
    by_cases hfull : t.capacity ≤ t.size
    · rw [hashInsert_full t n ref hfull]
      exact ih
    · obtain ⟨_, _, target, ht, hent, _⟩ :=
        hashInsert_effect t es n ref hes hlen hsize hpi hu hfit (by omega)
      have hget1 : (hashInsert t n ref).1.entries.getD [] =
          es.set target (storedEntry n ref) := by rw [hent]; rfl
      intro p hp
      unfold slot at hp ⊢
      rw [hget1] at hp ⊢
      by_cases hpt : target = p
      · subst hpt
        rw [entryAt_set_eq _ _ _ ht, storedEntry_of_fit n ref hfit]
        exact hfit
      · rw [entryAt_set_ne _ _ _ _ hpt] at hp ⊢
        have := ih p (by unfold slot; rw [hget]; exact hp)
        unfold slot at this
        rw [hget] at this
        exact this
  | delete t n hr ih =>
    intro p hp
    by_cases hneg : hashSearch t n < 0
    · have hdel : hashDelete t n = (t, 0) := by simp [hashDelete, hneg]
      rw [hdel] at hp ⊢
      exact ih p hp
    · cases hes : t.entries with
      | none =>
        have hdel : hashDelete t n = (t, 0) := by simp [hashDelete, hes]
        rw [hdel] at hp ⊢
        exact ih p hp
      | some es =>
        have hdel : hashDelete t n =
            ({ entries := some (es.set (hashSearch t n).toNat deletedEntry),
               capacity := t.capacity, size := t.size - 1 }, 1) := by
          simp only [hashDelete, hneg, if_false, hes]
        have hget : t.entries.getD [] = es := by rw [hes]; rfl
        rw [hdel] at hp ⊢
        unfold slot at hp ⊢
        simp only [Option.getD_some] at hp ⊢
        by_cases hpt : (hashSearch t n).toNat = p
        · by_cases hlt : (hashSearch t n).toNat < es.length
          · rw [← hpt, entryAt_set_eq _ _ _ hlt] at hp
            exact absurd hp (by decide)
          · rw [List.set_eq_of_length_le (by omega)] at hp ⊢
            have := ih p (by unfold slot; rw [hget]; exact hp)
            unfold slot at this
            rw [hget] at this
            exact this
        · rw [entryAt_set_ne _ _ _ _ hpt] at hp ⊢
          have := ih p (by unfold slot; rw [hget]; exact hp)
          unfold slot at this
          rw [hget] at this
          exact this

/-- C25. Well-formedness of the name index: on every table reached from a freshly initialised
table (capacity at least 1) by calls of `hashInsert` (with the names of nodes, which fit the
name buffer) and `hashDelete`, no two occupied slots store names that are equal ignoring case,
`size` is the number of occupied slots, `0 <= size <= capacity`, every stored name fits the
buffer, and `hashInsert` of a name that is already stored leaves `size` unchanged. -/
theorem hashTable_wellformed (t : HashTable) (h : Reachable t) (n : CStr) (ref : AVLNode) :
    (∀ p q, (slot t p).state = HASH_OCCUPIED → (slot t q).state = HASH_OCCUPIED →
        equalsIgnoreCase (slot t p).name (slot t q).name ≠ 0 → p = q) ∧
      t.size = countOccupied (t.entries.getD []) ∧
      0 ≤ t.size ∧ t.size ≤ t.capacity ∧
      (∀ p, (slot t p).state = HASH_OCCUPIED → (slot t p).name.length < MAX_NAME_LEN) ∧
      ((∃ p, storesName t n p) → (hashInsert t n ref).1.size = t.size) := by
  obtain ⟨es, hes, hcap, hlen, hsize, hpi, hu⟩ := tableWF_of_reachable t h
  have hget : t.entries.getD [] = es := by rw [hes]; rfl
  have hle := countOccupied_le es
  have hfits := reachable_names_fit t h
  refine ⟨?_, by rw [hget]; exact hsize, by omega, by omega, hfits, ?_⟩
  · intro p q hp hq hpq
    unfold slot at hp hq hpq
    rw [hget] at hp hq hpq
    exact hu p q hp hq hpq
  · rintro ⟨p, hp⟩
    by_cases hfull : t.capacity ≤ t.size
    · rw [hashInsert_full t n ref hfull]
    · have hfit : n.length < MAX_NAME_LEN := by
        rw [← equalsIgnoreCase_length hp.2]
        exact hfits p hp.1
      obtain ⟨_, _, target, _, _, hcase⟩ :=
        hashInsert_effect t es n ref hes hlen hsize hpi hu hfit (by omega)
      rcases hcase with ⟨_, hs⟩ | ⟨hno, _, _⟩
      · exact hs
      · unfold storesName at hp
        rw [hget] at hp
        exact absurd hp (hno p)

/-- On the table with a tombstone the size is 1, and storing `SARA` again leaves it at 1. -/
theorem hashTable_wellformed_witness :
    tombstoneTable.size = 1 ∧ storesName tombstoneTable (bytes "SARA") 2 ∧
      (hashInsert tombstoneTable (bytes "SARA") nil).1.size = tombstoneTable.size :=
  ⟨by decide, by decide,
    (hashTable_wellformed tombstoneTable
      (Reachable.delete _ _ (Reachable.insert _ _ _ (Reachable.insert _ _ _
        (Reachable.init 3 (by decide)) (by decide)) (by decide))) (bytes "SARA") nil).2.2.2.2.2
      ⟨2, by decide⟩⟩

/-! ### The hash and letter case -/

theorem hashSearchScan_name_congr (es : List HashEntry) (a b : CStr)
    (h : equalsIgnoreCase a b ≠ 0) : ∀ ps : List Nat,
    hashSearchScan es a ps = hashSearchScan es b ps
  | [] => rfl
  | p :: ps => by
    have hiff : equalsIgnoreCase (entryAt es p).name a ≠ 0 ↔
        equalsIgnoreCase (entryAt es p).name b ≠ 0 :=
      ⟨fun h1 => equalsIgnoreCase_trans h1 h,
        fun h1 => equalsIgnoreCase_trans h1 (equalsIgnoreCase_symm h)⟩
    simp only [hashSearchScan, hiff, hashSearchScan_name_congr es a b h ps]

/-- C26. The hash respects case-insensitive equality and stays in range: for every capacity
`m >= 1` and every name, `hashString(name, m) < m`; `equalsIgnoreCase` returns 0 or 1, and for
all names `a`, `b` with `equalsIgnoreCase(a, b) = 1`, `hashString(a, m) = hashString(b, m)`,
so the probe sequences of `hashInsert`, `hashSearch` and `hashDelete` for `a` and `b` are the
same and `hashSearch` returns the same slot for both on every table. -/
theorem hashString_case_insensitive (m : Int) (hm : 1 ≤ m) (name a b : CStr) :
    ((hashString name m : Nat) : Int) < m ∧
      (equalsIgnoreCase a b = 0 ∨ equalsIgnoreCase a b = 1) ∧
      (equalsIgnoreCase a b = 1 →
        hashString a m = hashString b m ∧
        probeSequence (hashString a m) m = probeSequence (hashString b m) m ∧
        ∀ t : HashTable, hashSearch t a = hashSearch t b) := by
  refine ⟨?_, equalsIgnoreCase_values a b, ?_⟩
  · have hpos : 0 < m.toNat := by omega
    have := Nat.mod_lt (hashLoop name 0) hpos
    unfold hashString
    omega
  · intro h1
    have hne : equalsIgnoreCase a b ≠ 0 := by omega
    have heq := hashString_congr a b m hne
    refine ⟨heq, by rw [heq], ?_⟩
    intro t
    unfold hashSearch
    cases t.entries with
    | none => rfl
    | some es =>
      simp only
      rw [hashString_congr a b t.capacity hne, hashSearchScan_name_congr es a b hne]

/-- The names `Ali Hassan` and `ALI HASSAN` hash to slot 6 of 7. -/
theorem hashString_case_insensitive_witness :
    equalsIgnoreCase (bytes "Ali Hassan") (bytes "ALI HASSAN") = 1 ∧
      hashString (bytes "Ali Hassan") 7 = 6 ∧
      hashString (bytes "Ali Hassan") 7 = hashString (bytes "ALI HASSAN") 7 :=
  ⟨by decide, by decide,
    ((hashString_case_insensitive 7 (by decide) [] (bytes "Ali Hassan")
      (bytes "ALI HASSAN")).2.2 (by decide)).1⟩

/-! ### One line written and read back -/

theorem loadLine_eq_parseLine (line : CStr) (state : AVLNode × Int) :
    loadLine line state =
      match parseLine line with
      | none => state
      | some (name, id, major, courseCode, courseTitle, hours, semester) =>
        ((insertRegistration state.1 name id major
          (createCourseRecord courseCode courseTitle hours semester)).root, state.2 + 1) := by
  unfold loadLine parseLine
  simp only
  generalize collectTokens 7 (trim (List.takeWhile (fun c => c != 10) line)) = tokens
  split_ifs
  · rfl
  · rfl
  · rcases tokens with _ | ⟨t1, _ | ⟨t2, _ | ⟨t3, _ | ⟨t4, _ | ⟨t5, _ | ⟨t6, _ | ⟨t7, _ |
      ⟨t8, t9⟩⟩⟩⟩⟩⟩⟩⟩ <;> rfl

theorem lineBody_no_feed (d : StudentRecord) (c : CourseRecord) (hn : cleanField d.name)
    (hi : cleanField d.studentID) (hm : cleanField d.major) (hc : courseClean c) :
    ∀ x ∈ lineBody d c, x ≠ 10 := by
  obtain ⟨hcode, htitle, hsem, _, _⟩ := hc
  have hp := printInt_clean c.creditHours
  intro x hx
  simp only [lineBody, List.mem_append, List.mem_cons] at hx
  rcases hx with h | rfl | h | rfl | h | rfl | h | rfl | h | rfl | h | rfl | h
  · exact (hn.2 x h).2
  · decide
  · exact (hi.2 x h).2
  · decide
  · exact (hm.2 x h).2
  · decide
  · exact (hcode.2 x h).2
  · decide
  · exact (htitle.2 x h).2
  · decide
  · exact (hp.2 x h).2
  · decide
  · exact (hsem.2 x h).2

/-- C27. Codec round trip of one record: when every string field is non-empty, fits its
buffer and contains neither `#` nor a line feed, the name does not start and the semester
does not end with white space, and the line has fewer than 511 characters before its line
feed, then `fgets` reads the line written by `saveNodeCourses` whole, the line handling of
`loadFromFile` (cut at the line feed, `trim`, `strtok` on `#`, `atoi` on the sixth token)
yields the seven field values, for every value of the credit hours, and
`createCourseRecord` and `createNode` store them unchanged. -/
theorem codec_roundtrip (d : StudentRecord) (c : CourseRecord) (rest : List Nat)
    (hn : cleanField d.name) (hnfit : d.name.length < MAX_NAME_LEN)
    (hlead : noLeadingSpace d.name)
    (hi : cleanField d.studentID) (hifit : d.studentID.length < MAX_ID_LEN)
    (hm : cleanField d.major) (hmfit : d.major.length < MAX_MAJOR_LEN)
    (hc : courseClean c) (hline : (lineBody d c).length < 511) :
    fgets LINE_BUFFER (formatLine d c ++ rest) = some (formatLine d c, rest) ∧
      parseLine (formatLine d c) =
        some (d.name, d.studentID, d.major, c.courseCode, c.courseTitle, c.creditHours,
          c.semester) ∧
      createCourseRecord c.courseCode c.courseTitle c.creditHours c.semester = c ∧
      loadLine (formatLine d c) (nil, 0) =
        (node { name := d.name, studentID := d.studentID, major := d.major, courses := [c] }
          nil nil 1, 1) := by
  have hnl := lineBody_no_feed d c hn hi hm hc
  have hcc := hc
  obtain ⟨hcode, htitle, hsem, hfit, htrail⟩ := hc
  have hp := printInt_clean c.creditHours
  have hcut : (formatLine d c).takeWhile (fun x => x != 10) = lineBody d c := by
    rw [formatLine_eq]; exact takeWhile_line _ [] hnl
  have hlead1 : noLeadingSpace (lineBody d c) := noLeadingSpace_append _ _ hn.1 hlead
  have htrail1 : noTrailingSpace (lineBody d c) := by
    unfold lineBody
    refine noTrailingSpace_append _ _ (by simp) (noTrailingSpace_cons _ _ (by simp) ?_)
    refine noTrailingSpace_append _ _ (by simp) (noTrailingSpace_cons _ _ (by simp) ?_)
    refine noTrailingSpace_append _ _ (by simp) (noTrailingSpace_cons _ _ (by simp) ?_)
    refine noTrailingSpace_append _ _ (by simp) (noTrailingSpace_cons _ _ (by simp) ?_)
    refine noTrailingSpace_append _ _ (by simp) (noTrailingSpace_cons _ _ (by simp) ?_)
    exact noTrailingSpace_append _ _ (by simp) (noTrailingSpace_cons _ _ hsem.1 htrail)
  have htrim : trim (lineBody d c) = lineBody d c := trim_of_no_space _ hlead1 htrail1
  have htok : collectTokens 7 (lineBody d c) =
      [d.name, d.studentID, d.major, c.courseCode, c.courseTitle, printInt c.creditHours,
        c.semester] := collectTokens_seven _ _ _ _ _ _ _ hn hi hm hcode htitle hp hsem
  have hlen : (lineBody d c).length ≠ 0 := by
    have : lineBody d c ≠ [] := by unfold lineBody; simp
    simpa using this
  have hparse : parseLine (formatLine d c) =
      some (d.name, d.studentID, d.major, c.courseCode, c.courseTitle, c.creditHours,
        c.semester) := by
    simp only [parseLine, hcut, htrim, hlen, if_false, htok, List.length_cons, List.length_nil,
      ne_eq, not_true_eq_false, atoi_printInt]
  have hcreate := createCourseRecord_of_fit c hfit
  refine ⟨?_, hparse, hcreate, ?_⟩
  · have hne : formatLine d c ++ rest ≠ [] := by rw [formatLine_eq]; simp
    unfold fgets
    rw [if_neg hne, formatLine_eq]
    have happ : lineBody d c ++ [10] ++ rest = lineBody d c ++ 10 :: rest := by simp
    rw [happ, fgetsAux_line _ _ _ hnl (by simpa [LINE_BUFFER] using hline)]
  · rw [loadLine_eq_parseLine, hparse]
    simp only [hcreate, insertRegistration, createNode, copyBounded_of_lt _ _ hnfit,
      copyBounded_of_lt _ _ hifit, copyBounded_of_lt _ _ hmfit, appendCourseRecord,
      updateMatching, List.nil_append]
    rfl

/-- The line of student 12345 and the course CS101 with -3 credit hours. -/
theorem codec_roundtrip_witness :
    parseLine (formatLine
        { name := bytes "Ali Hassan", studentID := bytes "12345", major := bytes "CS",
          courses := [] }
        { courseCode := bytes "CS101", courseTitle := bytes "Intro to C", creditHours := -3,
          semester := bytes "Fall 2024" }) =
      some (bytes "Ali Hassan", bytes "12345", bytes "CS", bytes "CS101", bytes "Intro to C",
        -3, bytes "Fall 2024") :=
  (codec_roundtrip
    { name := bytes "Ali Hassan", studentID := bytes "12345", major := bytes "CS",
      courses := [] }
    { courseCode := bytes "CS101", courseTitle := bytes "Intro to C", creditHours := -3,
      semester := bytes "Fall 2024" } [] (by decide) (by decide) (by decide) (by decide)
    (by decide) (by decide) (by decide) (by decide) (by decide)).2.1

/-! ### The primality test on `int` -/

theorem isPrimeLoopChecked_eq : ∀ (fuel : Nat) (i n : Int), 5 ≤ i → i ≤ 32773 → n < 2 ^ 30 →
    1 ≤ fuel → n + 6 < i + 6 * (fuel : Int) →
    isPrimeLoopChecked fuel i n = some (isPrimeLoop fuel i n)
  | 0, _, _, _, _, _, hf, _ => by omega
  | fuel + 1, i, n, h5, hi, hn, _, hinv => by
    have hsq : i * i ≤ 32773 * 32773 := mul_le_mul hi hi (by omega) (by omega)
    have hov : ¬ (i * i > INT_MAX) := by
      have : INT_MAX = 2147483647 := rfl
      rw [this]
      omega
    simp only [isPrimeLoopChecked, isPrimeLoop, hov, if_false]
    by_cases c : i * i ≤ n
    · rw [if_pos c, if_pos c]
      by_cases cd : n % i = 0 ∨ n % (i + 2) = 0
      · rw [if_pos cd, if_pos cd]
      · rw [if_neg cd, if_neg cd]
        have h5i : 5 * i ≤ i * i := mul_le_mul_of_nonneg_right h5 (by omega)
        have hlt : i < 32768 := by
          by_contra hge
          have : (32768 : Int) * 32768 ≤ i * i :=
            mul_le_mul (by omega) (by omega) (by omega) (by omega)
          norm_num at hn
          omega
        push_cast at hinv
        exact isPrimeLoopChecked_eq fuel (i + 6) n (by omega) (by omega) hn (by omega)
          (by omega)
    · rw [if_neg c, if_neg c]

/-- C28. Correctness of the primality test: for every integer `n`, negative values and
`n <= 1` included, `isPrime(n)` computed with exact arithmetic returns 1 iff `n` is a prime
number and 0 otherwise; and for `n < 2^30` the computation on `int` meets no overflow of
`i * i` and ends within `n` rounds with this value. -/
theorem isPrime_correct (n : Int) :
    (isPrime n = 1 ↔ Nat.Prime n.toNat) ∧ (isPrime n = 0 ∨ isPrime n = 1) ∧
      (n < 2 ^ 30 → isPrimeChecked n = some (isPrime n)) := by
  refine ⟨?_, ?_, ?_⟩
  · by_cases h0 : 0 ≤ n
    · have hcast : n = ((n.toNat : Nat) : Int) := by omega
      have := (isPrime_spec n.toNat).1
      rw [← hcast] at this
      exact this
    · have hz : n.toNat = 0 := by omega
      have h1 : isPrime n = 0 := by
        unfold isPrime
        rw [if_pos (by omega)]
      rw [h1, hz]
      exact ⟨fun h => by omega, fun h => absurd h (by decide)⟩
  · by_cases h0 : 0 ≤ n
    · have hcast : n = ((n.toNat : Nat) : Int) := by omega
      have := (isPrime_spec n.toNat).2
      rw [← hcast] at this
      exact this
    · left
      unfold isPrime
      rw [if_pos (by omega)]
  · intro hn
    unfold isPrimeChecked isPrime
    split_ifs with c1 c2 c3
    · rfl
    · rfl
    · rfl
    · apply isPrimeLoopChecked_eq n.toNat 5 n (by omega) (by omega) hn (by omega)
      have : ((n.toNat : Nat) : Int) = n := by omega
      rw [this]
      omega

/-- The values at -7, 1, 2, 91 and 97, and the computation on `int` at 97 and at
1073741789, the largest prime below `2^30`. -/
theorem isPrime_correct_witness :
    isPrime (-7) = 0 ∧ isPrime 1 = 0 ∧ isPrime 2 = 1 ∧ isPrime 91 = 0 ∧ isPrime 97 = 1 ∧
      isPrimeChecked 97 = some 1 ∧
      isPrimeChecked 1073741789 = some (isPrime 1073741789) :=
  ⟨by decide, by decide, by decide, by decide, by decide, by decide,
    (isPrime_correct 1073741789).2.2 (by decide)⟩

end Reg
